import Mathlib

/-!
Verification of the `waifufy` core (`src/waifufy_core.cpp` and the CLI driver).

The development shallowly embeds the C++ core into Lean:
source text is a `List Char` (one entry per byte; all behaviour relevant
to the claims is ASCII), art input is a `List Nat` of bytes, densities are
rationals, and the layout engine's random stream is an explicit
function `Nat → Nat` consumed one draw at a time (each draw is reduced
modulo the width of the corresponding `uniform_int_distribution`).
Loops of the C++ are embedded either as structural recursion on the
consumed input, as folds over index ranges, or with an explicit fuel
parameter mirroring a `while` loop (the fuel is chosen at call sites and
proved sufficient where a claim needs it).
-/

namespace Waifufy

/-! ## Character classification (C locale, as used by the C++ via `<cctype>`) -/

/-- `std::isspace` restricted to ASCII (C locale). -/
def isSpaceC (c : Char) : Bool :=
  c == ' ' || c == '\t' || c == '\n' || c == '\x0b' || c == '\x0c' || c == '\r'

/-- `std::isalpha` (C locale, ASCII). -/
def isAlphaC (c : Char) : Bool :=
  (65 ≤ c.toNat && c.toNat ≤ 90) || (97 ≤ c.toNat && c.toNat ≤ 122)

/-- `std::isdigit` (C locale, ASCII). -/
def isDigitC (c : Char) : Bool :=
  48 ≤ c.toNat && c.toNat ≤ 57

/-- `std::isalnum` (C locale, ASCII). -/
def isAlnumC (c : Char) : Bool :=
  isAlphaC c || isDigitC c

/-- `is_ident_start` from the source. -/
def is_ident_start (c : Char) : Bool := isAlphaC c || c == '_'

/-- `is_ident_char` from the source. -/
def is_ident_char (c : Char) : Bool := isAlnumC c || c == '_'

/-! ## `needs_separator` -/

/-- The local lambda `is_alnum_` inside `needs_separator`:
`std::isalnum(c) || c == '_'`. -/
def is_alnum_ (c : Char) : Bool := isAlnumC c || c == '_'

/-- The `multi` set of `needs_separator`: all multi-character punctuators
plus the ellipsis. Membership only, so a list models the
`std::unordered_set`. -/
def multi : List (List Char) :=
  [['>', '>', '='], ['<', '<', '='], ['-', '>', '*'], [':', ':'], ['-', '>'],
   ['+', '+'], ['-', '-'], ['<', '<'], ['>', '>'], ['&', '&'], ['|', '|'],
   ['=', '='], ['!', '='], ['<', '='], ['>', '='], ['+', '='], ['-', '='],
   ['*', '='], ['/', '='], ['%', '='], ['&', '='], ['|', '='], ['^', '='],
   ['#', '#'], ['.', '.', '.']]

/-- The local lambda `ends_with_quote` inside `needs_separator`. -/
def ends_with_quote (l : List Char) : Bool :=
  l.getLast? == some '"' || l.getLast? == some '\''

/-- `needs_separator(a, b)`: whether tokens `a` then `b` must be separated
by whitespace.  Each `if ... then true` mirrors one early `return true`
of the C++ function, in source order. -/
def needs_separator (a b : List Char) : Bool :=
  match a.getLast?, b.head? with
  | none, _ => false
  | some _, none => false
  | some ca, some cb =>
    -- 1) merge of identifiers/numbers
    if is_alnum_ ca && is_alnum_ cb then true
    -- 2) comment hazards and block close hazards
    else if (ca == '/' && cb == '/') || (ca == '/' && cb == '*') ||
            (ca == '*' && cb == '/') then true
    -- 3) multi-char punctuators formed across the boundary
    else if a.length ≥ 2 && multi.contains (a.drop (a.length - 2) ++ [cb]) then true
    else if multi.contains [ca, cb] then true
    else if b.length ≥ 2 && multi.contains [ca, cb, b.getD 1 ' '] then true
    -- explicit ellipsis checks across 3 tokens
    else if ca == '.' && b.length ≥ 2 && b.getD 0 ' ' == '.' && b.getD 1 ' ' == '.' then true
    else if a.length ≥ 2 && a.getD (a.length - 2) ' ' == '.' &&
            a.getD (a.length - 1) ' ' == '.' && cb == '.' then true
    -- 4) literal + UDL hazards
    else if (ends_with_quote a || isDigitC ca) && (isAlphaC cb || cb == '_') then true
    -- 5) floating-literal adjacency across the boundary
    else if (ca == '.' && isDigitC cb) || (isDigitC ca && cb == '.') then true
    else false

/-- `minimal_separator` from the source. -/
def minimal_separator : List Char := [' ']

/-! ### Claims C9 and C10 -/

/-- **C9.** For all non-empty strings `a` and `b` whose touching ends are
identifier characters (the last character of `a` and the first character
of `b` both in `[A-Za-z0-9_]`), `needs_separator a b` returns `true`.
The statement is universally quantified over the pair, so it applies
regardless of which of two given strings is passed as `a` and which as
`b`: hazard class 1 is symmetric in that sense. -/
theorem C9_needs_separator_ident_merge (a b : List Char) (ca cb : Char)
    (ha : a.getLast? = some ca) (hb : b.head? = some cb)
    (h1 : is_alnum_ ca = true) (h2 : is_alnum_ cb = true) :
    needs_separator a b = true := by
  unfold needs_separator
  rw [ha, hb]
  simp [h1, h2]

/-- Witness for C9 at the concrete pair `a = "x"`, `b = "y"`. -/
theorem C9_needs_separator_ident_merge_witness :
    needs_separator ['x'] ['y'] = true :=
  C9_needs_separator_ident_merge ['x'] ['y'] 'x' 'y' rfl rfl (by decide) (by decide)

/-- **C10.** If either argument is empty, `needs_separator` returns
`false`: no hazard rule is evaluated on an empty operand. -/
theorem C10_needs_separator_empty (a b : List Char)
    (h : a = [] ∨ b = []) : needs_separator a b = false := by
  rcases h with h | h
  · subst h; rfl
  · subst h
    unfold needs_separator
    cases a.getLast? <;> rfl

/-- Witness for C10 at `a = []`, `b = "x"`. -/
theorem C10_needs_separator_empty_witness :
    needs_separator [] ['x'] = false :=
  C10_needs_separator_empty [] ['x'] (Or.inl rfl)

/-! ## Raw-string delimiter scanning

Both the comment stripper and `parse_raw_string` scan the delimiter of a
candidate raw-string opener with the same loop
(`while (j < size && code[j] != '(') { d = code[j]; if (d == ')' || d == '\\'
|| isspace(d) || delim.size() > 16) break/return; delim.push_back(d); ++j }`
followed by the check `j < size && code[j] == '('`).  The stripper breaks
and then tests for `'('` while `parse_raw_string` returns false at once,
but the broken-at character is never `'('` (the `while` condition already
excluded it), so both accept exactly the same inputs.  `scanRawDelim acc l`
returns the collected delimiter and the input after the `'('` on success. -/
def scanRawDelim (acc : List Char) : List Char → Option (List Char × List Char)
  | [] => none
  | c :: rest =>
    if c == '(' then some (acc, rest)
    else if c == ')' || c == '\\' || isSpaceC c || acc.length > 16 then none
    else scanRawDelim (acc ++ [c]) rest

theorem scanRawDelim_length {acc : List Char} {l d r : List Char}
    (h : scanRawDelim acc l = some (d, r)) : r.length < l.length := by
  induction l generalizing acc with
  | nil => simp [scanRawDelim] at h
  | cons c rest ih =>
    unfold scanRawDelim at h
    by_cases h1 : (c == '(') = true
    · simp [h1] at h
      simp [h.2]
    · by_cases h2 : (c == ')' || c == '\\' || isSpaceC c || decide (acc.length > 16)) = true
      · simp [h1, h2] at h
      · simp only [h1, h2, if_false] at h
        have := @ih (acc ++ [c]) h
        simp at this ⊢
        omega

/-! ## The comment stripper -/

/-- The state of the `strip_comments_preserve_literals` automaton.  The
C++ keeps `esc` and `raw_delim` in separate variables that are only
meaningful in the corresponding states; here they are carried inside the
state constructors. -/
inductive StripState where
  | normal : StripState
  | inBlock : StripState
  | inLine : StripState
  | inStr (esc : Bool) : StripState
  | inChar (esc : Bool) : StripState
  | inRaw (delim : List Char) : StripState
deriving DecidableEq

/-- The `InRaw` close test: the C++ checks
`i + 1 + need < code.size() && code.substr(i+1, need) == raw_delim &&
code[i+1+need] == '"'` for the input after the current `')'`; this is
exactly "the rest starts with `delim ++ ['"']`". -/
def matchRawClose (d rest : List Char) : Option (List Char) :=
  if rest.take (d.length + 1) = d ++ ['"'] then some (rest.drop (d.length + 1))
  else none

/-- One pass of `strip_comments_preserve_literals`, from a given state.
`fuel` bounds the number of loop iterations; every iteration consumes at
least one input character, so `fuel = input length` is always enough
(wrapped below).  Branches appear in the same order as the C++ `switch`
plus the `Normal`-case `if` chain. -/
def stripGo : Nat → StripState → List Char → List Char
  | 0, _, _ => []
  | _, _, [] => []
  | fuel + 1, st, c :: rest =>
    match st with
    | .normal =>
      -- raw string start: R"delim( ; on scan failure fall through (for
      -- these head characters all later tests fail, so one char is emitted)
      if c == 'R' && rest.head? == some '"' then
        match scanRawDelim [] rest.tail with
        | some (d, after) =>
          'R' :: '"' :: (d ++ '(' :: stripGo fuel (.inRaw d) after)
        | none => c :: stripGo fuel .normal rest
      else
        match c, rest with
        -- prefixed raw strings: u8R" .., uR" .., UR" .., LR" ..
        | 'u', '8' :: 'R' :: '"' :: tail =>
          (match scanRawDelim [] tail with
           | some (d, after) =>
             'u' :: '8' :: 'R' :: '"' :: (d ++ '(' :: stripGo fuel (.inRaw d) after)
           | none => c :: stripGo fuel .normal rest)
        | 'u', 'R' :: '"' :: tail =>
          (match scanRawDelim [] tail with
           | some (d, after) =>
             'u' :: 'R' :: '"' :: (d ++ '(' :: stripGo fuel (.inRaw d) after)
           | none => c :: stripGo fuel .normal rest)
        | 'U', 'R' :: '"' :: tail =>
          (match scanRawDelim [] tail with
           | some (d, after) =>
             'U' :: 'R' :: '"' :: (d ++ '(' :: stripGo fuel (.inRaw d) after)
           | none => c :: stripGo fuel .normal rest)
        | 'L', 'R' :: '"' :: tail =>
          (match scanRawDelim [] tail with
           | some (d, after) =>
             'L' :: 'R' :: '"' :: (d ++ '(' :: stripGo fuel (.inRaw d) after)
           | none => c :: stripGo fuel .normal rest)
        | '/', '*' :: tail => stripGo fuel .inBlock tail
        | '/', '/' :: tail => stripGo fuel .inLine tail
        | '"', _ => '"' :: stripGo fuel (.inStr false) rest
        | '\'', _ => '\'' :: stripGo fuel (.inChar false) rest
        | _, _ => c :: stripGo fuel .normal rest
    | .inBlock =>
      match c, rest with
      | '*', '/' :: tail => stripGo fuel .normal tail
      | _, _ => stripGo fuel .inBlock rest
    | .inLine =>
      if c == '\n' then '\n' :: stripGo fuel .normal rest
      else stripGo fuel .inLine rest
    | .inStr esc =>
      c :: stripGo fuel
        (if esc then .inStr false
         else if c == '\\' then .inStr true
         else if c == '"' then .normal
         else .inStr false) rest
    | .inChar esc =>
      c :: stripGo fuel
        (if esc then .inChar false
         else if c == '\\' then .inChar true
         else if c == '\'' then .normal
         else .inChar false) rest
    | .inRaw d =>
      if c == ')' && !d.isEmpty then
        match matchRawClose d rest with
        | some r => ')' :: (d ++ '"' :: stripGo fuel .normal r)
        | none => c :: stripGo fuel (.inRaw d) rest
      else c :: stripGo fuel (.inRaw d) rest

/-- `strip_comments_preserve_literals`, from the `Normal` state with
sufficient fuel. -/
def strip_comments_preserve_literals (code : List Char) : List Char :=
  stripGo code.length .normal code

/-! ## The tokenizer -/

/-- The closing-sequence search of `parse_raw_string`: scan for `)d"`,
returning the consumed characters (closer included) and the rest; if the
closer never occurs the whole input is consumed ("treat as till end").
The C++ bound `pos + 1 + delim.size() < s.size()` says exactly that the
quote position is in range, i.e. that the input after `')'` starts with
`d ++ ['"']`, which is `matchRawClose`. -/
def findRawClose (d : List Char) : List Char → (List Char × List Char)
  | [] => ([], [])
  | c :: rest =>
    if c == ')' then
      match matchRawClose d rest with
      | some r => (')' :: d ++ ['"'], r)
      | none => let p := findRawClose d rest; (c :: p.1, p.2)
    else let p := findRawClose d rest; (c :: p.1, p.2)

/-- `parse_raw_string(s, i, j)` on the suffix starting at `i`: requires
`R"`, a valid delimiter scan, and then consumes up to `)d"` (or to the
end of input).  Returns the token text and the remaining input. -/
def parse_raw_string : List Char → Option (List Char × List Char)
  | 'R' :: '"' :: tail =>
    match scanRawDelim [] tail with
    | some (d, after) =>
      let p := findRawClose d after
      some ('R' :: '"' :: d ++ '(' :: p.1, p.2)
    | none => none
  | _ => none

/-- The `test` lambda inside `parse_prefixed_raw`: the input must start
with the prefix, the two characters after the prefix must be `R"`, and
`parse_raw_string` must succeed there; the returned token spans prefix
and raw string. -/
def rawTest (l pfx : List Char) : Option (List Char × List Char) :=
  if l.take pfx.length = pfx ∧ (l.drop pfx.length).head? = some 'R' ∧
      ((l.drop pfx.length).drop 1).head? = some '"' then
    (parse_raw_string (l.drop pfx.length)).map fun p => (pfx ++ p.1, p.2)
  else none

/-- `parse_prefixed_raw`: tries the `u8`, `u`, `U`, `L` prefixes in that
order (`if (test("u8", 2)) return true;` and so on). -/
def parse_prefixed_raw (l : List Char) : Option (List Char × List Char) :=
  match rawTest l ['u', '8'] with
  | some p => some p
  | none =>
    match rawTest l ['u'] with
    | some p => some p
    | none =>
      match rawTest l ['U'] with
      | some p => some p
      | none => rawTest l ['L']

/-- The `PUNCTS` table of `tokenize_minimal_cpp`, in source order (the
match below takes the first hit, and the table is ordered longest
first). -/
def PUNCTS : List (List Char) :=
  [['>', '>', '='], ['<', '<', '='], ['-', '>', '*'], [':', ':'], ['-', '>'],
   ['+', '+'], ['-', '-'], ['<', '<'], ['>', '>'], ['&', '&'], ['|', '|'],
   ['=', '='], ['!', '='], ['<', '='], ['>', '='], ['+', '='], ['-', '='],
   ['*', '='], ['/', '='], ['%', '='], ['&', '='], ['|', '='], ['^', '='],
   ['#', '#']]

/-- `match_from`: first punctuator of the table that the input starts
with. -/
def match_from (l : List Char) : List (List Char) → Option (List Char × List Char)
  | [] => none
  | p :: ps => if l.take p.length = p then some (p, l.drop p.length) else match_from l ps

/-- The string/char-literal body scan of the tokenizer:
`while (i < n) { ch = code[i++]; if (esc2) esc2 = false; else if (ch == '\\')
esc2 = true; else if (ch == q) break; }`.  Returns the consumed characters
(closing quote included, or everything at end of input) and the rest. -/
def scanLit (q : Char) : Bool → List Char → (List Char × List Char)
  | _, [] => ([], [])
  | esc, c :: rest =>
    if esc then let p := scanLit q false rest; (c :: p.1, p.2)
    else if c == '\\' then let p := scanLit q true rest; (c :: p.1, p.2)
    else if c == q then ([c], rest)
    else let p := scanLit q false rest; (c :: p.1, p.2)

/-- Entry condition of the tokenizer's string-literal branch. -/
def string_entry (l : List Char) : Bool :=
  match l with
  | [] => false
  | c :: rest =>
    c == '"' || (c == 'u' && (rest.head? == some '8' || rest.head? == some '"')) ||
    (c == 'U' && rest.head? == some '"') || (c == 'L' && rest.head? == some '"')

/-- The tokenizer's string-literal branch: moves past an optional `u8`
and then an optional one-character prefix directly followed by `"`,
then scans the literal.  Returns `none` when the branch falls back
(`i = b`) or was not entered. -/
def scanStrTok (l : List Char) : Option (List Char × List Char) :=
  if string_entry l then
    let l1 := if l.take 2 = ['u', '8'] then l.drop 2 else l
    let l2 := if (l1.head? == some 'u' || l1.head? == some 'U' || l1.head? == some 'L')
                 && l1.tail.head? == some '"' then l1.tail else l1
    match l2 with
    | '"' :: t =>
      let p := scanLit '"' false t
      some (l.take (l.length - l2.length) ++ '"' :: p.1, p.2)
    | _ => none
  else none

/-- Entry condition of the tokenizer's char-literal branch. -/
def char_entry (l : List Char) : Bool :=
  match l with
  | [] => false
  | c :: rest =>
    c == '\'' || ((c == 'u' || c == 'U' || c == 'L') && rest.head? == some '\'')

/-- The tokenizer's char-literal branch. -/
def scanCharTok (l : List Char) : Option (List Char × List Char) :=
  if char_entry l then
    let l1 := if (l.head? == some 'u' || l.head? == some 'U' || l.head? == some 'L')
                 && l.tail.head? == some '\'' then l.tail else l
    match l1 with
    | '\'' :: t =>
      let p := scanLit '\'' false t
      some (l.take (l.length - l1.length) ++ '\'' :: p.1, p.2)
    | _ => none
  else none

/-- Continuation characters of the (very permissive) number branch. -/
def isNumCont (c : Char) : Bool :=
  isAlnumC c || c == '.' || c == '_' || c == '\''

/-- The main loop of `tokenize_minimal_cpp`.  Branches in source order:
whitespace, prefixed raw string, raw string (the C++ guard `j > i` is
always true on success since the token starts with `R"`), string
literal, char literal, identifier, number, multi-char punctuator,
single character. -/
def tokenizeGo : Nat → List Char → List (List Char)
  | 0, _ => []
  | _, [] => []
  | fuel + 1, c :: rest =>
    if isSpaceC c then tokenizeGo fuel rest
    else match parse_prefixed_raw (c :: rest) with
    | some (t, r) => t :: tokenizeGo fuel r
    | none =>
      match parse_raw_string (c :: rest) with
      | some (t, r) => t :: tokenizeGo fuel r
      | none =>
        match scanStrTok (c :: rest) with
        | some (t, r) => t :: tokenizeGo fuel r
        | none =>
          match scanCharTok (c :: rest) with
          | some (t, r) => t :: tokenizeGo fuel r
          | none =>
            if is_ident_start c then
              (c :: rest.takeWhile is_ident_char) :: tokenizeGo fuel (rest.dropWhile is_ident_char)
            else if isDigitC c then
              (c :: rest.takeWhile isNumCont) :: tokenizeGo fuel (rest.dropWhile isNumCont)
            else match match_from (c :: rest) PUNCTS with
            | some (p, r) => p :: tokenizeGo fuel r
            | none => [c] :: tokenizeGo fuel rest

/-- `tokenize_minimal_cpp`, with sufficient fuel (every iteration of the
loop consumes at least one character). -/
def tokenize_minimal_cpp (code : List Char) : List (List Char) :=
  tokenizeGo code.length code

/-! ## Claim C6: idempotence of comment stripping

The law fails on the code: removing a block comment can glue an `R`
against a following string literal, so that rescanning the stripped text
detects a raw-string opener, exits the raw string at a `)d"` inside what
was originally a string literal, and then strips text that the first
pass preserved.  The amended law restricts to inputs whose stripped form
contains no comment-opening digraph `//` or `/*`; on such outputs the
scanner never enters `InBlock`/`InLine`, every branch of the automaton
emits exactly what it consumes, and stripping is the identity. -/

/-- Whether a byte string contains the substring `//` or `/*`. -/
def hasDigraph : List Char → Bool
  | [] => false
  | [_] => false
  | a :: b :: r => (a == '/' && (b == '/' || b == '*')) || hasDigraph (b :: r)

theorem hasDigraph_tail {x : Char} {l : List Char}
    (h : hasDigraph (x :: l) = false) : hasDigraph l = false := by
  cases l with
  | nil => rfl
  | cons y r => unfold hasDigraph at h; simp at h; exact h.2

theorem hasDigraph_append {a b : List Char}
    (h : hasDigraph (a ++ b) = false) : hasDigraph b = false := by
  induction a with
  | nil => exact h
  | cons x a ih => exact ih (hasDigraph_tail h)

/-- In a digraph-free string, a head `'/'` is never followed by `'/'` or
`'*'`. -/
theorem hasDigraph_head {b : Char} {r : List Char}
    (h : hasDigraph ('/' :: b :: r) = false) : b ≠ '/' ∧ b ≠ '*' := by
  unfold hasDigraph at h
  simp at h
  exact h.1

theorem scanRawDelim_decomp {acc l d r : List Char}
    (h : scanRawDelim acc l = some (d, r)) :
    ∃ e, l = e ++ '(' :: r ∧ d = acc ++ e := by
  induction l generalizing acc with
  | nil => simp [scanRawDelim] at h
  | cons c rest ih =>
    unfold scanRawDelim at h
    by_cases h1 : (c == '(') = true
    · simp [h1] at h
      exact ⟨[], by simp [show c = '(' by simpa using h1, h.1, h.2]⟩
    · by_cases h2 : (c == ')' || c == '\\' || isSpaceC c || decide (acc.length > 16)) = true
      · simp [h1, h2] at h
      · simp only [h1, h2, if_false] at h
        obtain ⟨e, he, hd⟩ := @ih (acc ++ [c]) h
        exact ⟨c :: e, by simp [he], by simp [hd]⟩

theorem matchRawClose_some {d rest r : List Char}
    (h : matchRawClose d rest = some r) : rest = d ++ '"' :: r := by
  unfold matchRawClose at h
  by_cases h1 : rest.take (d.length + 1) = d ++ ['"']
  · simp [h1] at h
    have h2 := List.take_append_drop (d.length + 1) rest
    rw [h1, h] at h2
    simpa using h2.symm
  · simp [h1] at h

/-- States from which the scanner never deletes anything as long as the
remaining input is free of comment digraphs. -/
def okState : StripState → Prop
  | .inBlock => False
  | .inLine => False
  | _ => True

theorem okNormal : okState .normal := True.intro

theorem okStr (e : Bool) : okState (.inStr e) := True.intro

theorem okChar (e : Bool) : okState (.inChar e) := True.intro

theorem okRaw (d : List Char) : okState (.inRaw d) := True.intro

theorem okState_strStep (esc : Bool) (c : Char) :
    okState (if esc then StripState.inStr false
             else if c == '\\' then StripState.inStr true
             else if c == '"' then StripState.normal
             else StripState.inStr false) := by
  split_ifs <;> exact True.intro

theorem okState_charStep (esc : Bool) (c : Char) :
    okState (if esc then StripState.inChar false
             else if c == '\\' then StripState.inChar true
             else if c == '\'' then StripState.normal
             else StripState.inChar false) := by
  split_ifs <;> exact True.intro

/-- On digraph-free input, the automaton (started outside a comment)
emits exactly its input: every branch except the comment transitions
copies what it consumes, and the comment transitions need a digraph. -/
theorem stripGo_id (f : Nat) :
    ∀ (st : StripState) (l : List Char), l.length ≤ f → okState st →
      hasDigraph l = false → stripGo f st l = l := by
  induction f with
  | zero =>
    intro st l hf _ _
    have : l = [] := List.eq_nil_of_length_eq_zero (by omega)
    subst this
    cases st <;> rfl
  | succ f ih =>
    intro st l hf hok hd
    cases l with
    | nil => cases st <;> rfl
    | cons c rest =>
    have hdr : hasDigraph rest = false := hasDigraph_tail hd
    have hfr : rest.length ≤ f := by simpa using hf
    cases st with
    | inBlock => exact absurd hok (by simp [okState])
    | inLine => exact absurd hok (by simp [okState])
    | inStr esc =>
      simp only [stripGo]
      rw [ih _ rest hfr (okState_strStep esc c) hdr]
    | inChar esc =>
      simp only [stripGo]
      rw [ih _ rest hfr (okState_charStep esc c) hdr]
    | inRaw d =>
      simp only [stripGo]
      by_cases hc : (c == ')' && !d.isEmpty) = true
      · rw [if_pos hc]
        have hc' : c = ')' := by
          have := hc; simp at this; exact this.1
        cases hm : matchRawClose d rest with
        | some r =>
          have hrest : rest = d ++ '"' :: r := matchRawClose_some hm
          have hlr : r.length ≤ f := by
            rw [hrest] at hfr; simp at hfr; omega
          have hdrr : hasDigraph r = false := by
            rw [hrest] at hdr
            exact hasDigraph_append (a := d ++ ['"']) (by simpa using hdr)
          show ')' :: (d ++ '"' :: stripGo f StripState.normal r) = c :: rest
          rw [ih _ r hlr okNormal hdrr]
          simp [hc', hrest]
        | none =>
          show c :: stripGo f (StripState.inRaw d) rest = c :: rest
          rw [ih _ rest hfr (okRaw d) hdr]
      · rw [if_neg hc]
        rw [ih _ rest hfr (okRaw d) hdr]
    | normal =>
      simp only [stripGo]
      by_cases hR : (c == 'R' && rest.head? == some '"') = true
      · rw [if_pos hR]
        have hR' : c = 'R' ∧ rest.head? = some '"' := by
          have := hR; simp at this; exact this
        cases rest with
        | nil => simp at hR'
        | cons r0 rtl =>
        have hr0 : r0 = '"' := by simpa using hR'.2
        simp only [List.tail_cons]
        cases hscan : scanRawDelim [] rtl with
        | some p =>
          obtain ⟨d, after⟩ := p
          obtain ⟨e, he, hde⟩ := scanRawDelim_decomp hscan
          have hlt := scanRawDelim_length hscan
          have hlen : after.length ≤ f := by simp at hf; omega
          have hda : hasDigraph after = false := by
            have h1 : hasDigraph rtl = false := hasDigraph_tail hdr
            rw [he] at h1
            exact hasDigraph_append (a := e ++ ['(']) (by simpa using h1)
          show 'R' :: '"' :: (d ++ '(' :: stripGo f (StripState.inRaw d) after) = c :: r0 :: rtl
          rw [ih _ after hlen (okRaw d) hda]
          simp [hR'.1, hr0, he, hde]
        | none =>
          show c :: stripGo f StripState.normal (r0 :: rtl) = c :: r0 :: rtl
          rw [ih _ _ hfr okNormal hdr]
      · rw [if_neg hR]
        split
        -- quote and catch-all patterns: emit one character, continue in an
        -- ok state on the tail
        all_goals try (first
          | (rw [ih _ _ hfr okNormal hdr]; done)
          | (rw [ih _ _ hfr (okStr false) hdr]; done)
          | (rw [ih _ _ hfr (okChar false) hdr]; done))
        -- the two comment patterns contradict digraph-freedom
        all_goals try (simp [hasDigraph] at hd; done)
        -- remaining: the four prefixed raw-string patterns
        all_goals
          rename_i tail
          cases hscan : scanRawDelim [] tail with
          | some p =>
            obtain ⟨d, after⟩ := p
            obtain ⟨e, he, hde⟩ := scanRawDelim_decomp hscan
            have hlt := scanRawDelim_length hscan
            have hlen : after.length ≤ f := by simp at hf; omega
            have h1 : hasDigraph tail = false := by
              first
              | exact hasDigraph_tail (hasDigraph_tail (hasDigraph_tail (hasDigraph_tail hd)))
              | exact hasDigraph_tail (hasDigraph_tail (hasDigraph_tail hd))
            have hda : hasDigraph after = false := by
              rw [he] at h1
              exact hasDigraph_append (a := e ++ ['(']) (by simpa using h1)
            simp only [hscan]
            rw [ih _ after hlen (okRaw d) hda]
            simp [he, hde]
          | none =>
            simp only [hscan]
            rw [ih _ _ hfr okNormal hdr]

/-- The concrete input for C6: `R/**/"x(")x"/* c*/`.  The first strip
removes the block comment between `R` and the string literal and keeps
the trailing comment (it sits inside an unterminated string literal);
the second strip sees `R"x(` as a raw-string opener, leaves the string
early at the `)x"`, and then removes `/* c*/`. -/
def c6_input : List Char :=
  ['R', '/', '*', '*', '/', '"', 'x', '(', '"', ')', 'x', '"', '/', '*', ' ', 'c', '*', '/']

/-- **C6, counterexample.**  Tokenizing the once-stripped and the
twice-stripped form of `c6_input` gives different ordered token lists,
so `Tokenize(CommentStrip(x)) = Tokenize(CommentStrip(CommentStrip(x)))`
fails as stated. -/
theorem C6_counterexample_idempotence :
    tokenize_minimal_cpp (strip_comments_preserve_literals c6_input) ≠
    tokenize_minimal_cpp (strip_comments_preserve_literals
      (strip_comments_preserve_literals c6_input)) := by decide

/-- **C6 (amended).** Idempotent tokenization holds for every input
whose stripped form is free of the comment-opening digraphs `//` and
`/*`: on such texts a second strip is the identity, so in particular the
token lists agree.  (The unamended law fails: see the counterexample,
where a comment removal glues `R` onto a string literal and the
rescan treats the result as a raw-string literal.) -/
theorem C6_amended_idempotent_tokenization (x : List Char)
    (h : hasDigraph (strip_comments_preserve_literals x) = false) :
    tokenize_minimal_cpp (strip_comments_preserve_literals x) =
    tokenize_minimal_cpp (strip_comments_preserve_literals
      (strip_comments_preserve_literals x)) := by
  have h2 : strip_comments_preserve_literals (strip_comments_preserve_literals x) =
      strip_comments_preserve_literals x :=
    stripGo_id _ _ _ le_rfl okNormal h
  rw [h2]

/-- Witness for the amended C6 at the concrete input `int x;`. -/
theorem C6_amended_idempotent_tokenization_witness :
    hasDigraph (strip_comments_preserve_literals ['i', 'n', 't', ' ', 'x', ';']) = false ∧
    tokenize_minimal_cpp (strip_comments_preserve_literals ['i', 'n', 't', ' ', 'x', ';']) =
    tokenize_minimal_cpp (strip_comments_preserve_literals
      (strip_comments_preserve_literals ['i', 'n', 't', ' ', 'x', ';'])) :=
  ⟨by decide, C6_amended_idempotent_tokenization ['i', 'n', 't', ' ', 'x', ';'] (by decide)⟩

/-! ## Claim C4: raw-string opener recognition

The delimiter loop checks `delim.size() > 16` *before* pushing the next
character, so a push still happens when the delimiter already holds 16
characters: delimiters of up to **17** characters are accepted, one more
than the spec's stated bound of 16.  The characterization below proves
the exact accepted shape (bound 17), and the counterexample exhibits a
17-character delimiter that both functions treat as a raw-string
opener. -/

/-- A character allowed inside a raw-string delimiter: not `)`, `\`,
or whitespace (the scan also stops at the first `(`, handled
separately). -/
def delim_ok (c : Char) : Bool := !(c == ')' || c == '\\' || isSpaceC c)

/-- The exact shape accepted as a raw-string opener body (after the
optional prefix): `R"` then at most 17 delimiter characters, none of
which is `(`, `)`, `\`, or whitespace, then `(`. -/
def raw_opener_shape (l : List Char) : Prop :=
  ∃ d r, l = 'R' :: '"' :: d ++ '(' :: r ∧ d.length ≤ 17 ∧
    ∀ c ∈ d, delim_ok c = true ∧ c ≠ '('

theorem scanRawDelim_some_spec {acc l d r : List Char}
    (h : scanRawDelim acc l = some (d, r)) :
    ∃ e, l = e ++ '(' :: r ∧ d = acc ++ e ∧
      (∀ c ∈ e, delim_ok c = true ∧ c ≠ '(') ∧
      (e = [] ∨ acc.length + e.length ≤ 17) := by
  induction l generalizing acc with
  | nil => simp [scanRawDelim] at h
  | cons c rest ih =>
    unfold scanRawDelim at h
    by_cases h1 : (c == '(') = true
    · simp [h1] at h
      refine ⟨[], ?_, by simp [h.1], by simp, Or.inl rfl⟩
      simp [show c = '(' by simpa using h1, h.2]
    · by_cases h2 : (c == ')' || c == '\\' || isSpaceC c || decide (acc.length > 16)) = true
      · simp [h1, h2] at h
      · simp only [h1, h2, if_false] at h
        obtain ⟨e, he, hd, hok, hb⟩ := @ih (acc ++ [c]) h
        simp only [Bool.not_eq_true, Bool.or_eq_false_iff] at h2
        obtain ⟨⟨⟨hw1, hw2⟩, hw3⟩, hw4⟩ := h2
        have hacc : acc.length ≤ 16 := by
          have := hw4; simp at this; omega
        refine ⟨c :: e, by simp [he], by simp [hd], ?_, ?_⟩
        · intro x hx
          rcases List.mem_cons.mp hx with hx | hx
          · subst hx
            exact ⟨by simp [delim_ok, hw1, hw2, hw3], by simpa using h1⟩
          · exact hok x hx
        · right
          rcases hb with hb | hb
          · subst hb; simp; omega
          · simp at hb ⊢; omega

theorem scanRawDelim_complete :
    ∀ (e acc r : List Char), (∀ c ∈ e, delim_ok c = true ∧ c ≠ '(') →
      (e = [] ∨ acc.length + e.length ≤ 17) →
      scanRawDelim acc (e ++ '(' :: r) = some (acc ++ e, r) := by
  intro e
  induction e with
  | nil => intro acc r _ _; simp [scanRawDelim]
  | cons c e ih =>
    intro acc r hok hb
    have hc := hok c (by simp)
    have hcp : (c == '(') = false := by
      cases hcc : c == '(' with
      | false => rfl
      | true => exact absurd (by simpa using hcc) hc.2
    have hbad : (c == ')' || c == '\\' || isSpaceC c || decide (acc.length > 16)) = false := by
      have h1 := hc.1
      simp only [delim_ok, Bool.not_eq_true', Bool.or_eq_false_iff] at h1
      have hlen : ¬ acc.length > 16 := by
        rcases hb with hb | hb
        · simp at hb
        · simp at hb; omega
      simp [h1.1.1, h1.1.2, h1.2, hlen]
    unfold scanRawDelim
    simp only [List.cons_append, hcp, hbad, if_false]
    rw [ih (acc ++ [c]) r (fun x hx => hok x (by simp [hx]))]
    · simp
    · rcases hb with hb | hb
      · simp at hb
      · right; simp at hb ⊢; omega

/-- The two sides of the opener gate agree with `raw_opener_shape`. -/
theorem scanRawDelim_iff_shape (tail : List Char) :
    (∃ q, scanRawDelim [] tail = some q) ↔ raw_opener_shape ('R' :: '"' :: tail) := by
  constructor
  · rintro ⟨⟨d, r⟩, hq⟩
    obtain ⟨e, he, hd, hok, hb⟩ := scanRawDelim_some_spec hq
    refine ⟨e, r, by simp [he], ?_, hok⟩
    rcases hb with hb | hb
    · subst hb; simp
    · simpa using hb
  · rintro ⟨d, r, he, hlen, hok⟩
    obtain ⟨rfl⟩ : tail = d ++ '(' :: r := by simpa using he
    exact ⟨(d, r), by simpa using scanRawDelim_complete d [] r hok (Or.inr (by simpa))⟩

/-- `parse_raw_string` succeeds exactly on `raw_opener_shape` (the
closing search never fails: an unterminated raw string is taken to the
end of input). -/
theorem parse_raw_string_iff_shape (l : List Char) :
    (parse_raw_string l).isSome = true ↔ raw_opener_shape l := by
  unfold parse_raw_string
  split
  · rename_i tail
    constructor
    · intro _
      cases hscan : scanRawDelim [] tail with
      | some q => exact (scanRawDelim_iff_shape tail).mp ⟨q, hscan⟩
      | none => rename_i h; rw [hscan] at h; simp at h
    · intro hsh
      obtain ⟨q, hq⟩ := (scanRawDelim_iff_shape tail).mpr hsh
      rw [hq]
      simp
  · rename_i hno
    constructor
    · intro h; simp at h
    · rintro ⟨d, r, he, -, -⟩
      exact (hno _ he).elim

/-- A single prefix test succeeds exactly when the input is the prefix
followed by a `raw_opener_shape` body (the `R"` head checks of the C++
`test` lambda are subsumed by the shape). -/
theorem rawTest_iff_shape (l pfx : List Char) :
    (rawTest l pfx).isSome = true ↔ ∃ m, l = pfx ++ m ∧ raw_opener_shape m := by
  unfold rawTest
  by_cases hcond : l.take pfx.length = pfx ∧ (l.drop pfx.length).head? = some 'R' ∧
      ((l.drop pfx.length).drop 1).head? = some '"'
  · rw [if_pos hcond]
    constructor
    · intro h
      refine ⟨l.drop pfx.length, ?_, ?_⟩
      · conv_lhs => rw [← List.take_append_drop pfx.length l]
        rw [hcond.1]
      · apply (parse_raw_string_iff_shape _).mp
        cases hp : parse_raw_string (l.drop pfx.length) with
        | none => rw [hp] at h; simp at h
        | some q => simp
    · rintro ⟨m, hm, hsh⟩
      have hdrop : l.drop pfx.length = m := by rw [hm]; exact List.drop_left pfx m
      rw [hdrop]
      have h2 := (parse_raw_string_iff_shape m).mpr hsh
      cases hp : parse_raw_string m with
      | none => rw [hp] at h2; simp at h2
      | some q => simp
  · rw [if_neg hcond]
    simp only [Option.isSome_none, Bool.false_eq_true, false_iff]
    rintro ⟨m, hm, d, r, hraw, -, -⟩
    apply hcond
    subst hm
    refine ⟨List.take_left pfx m, ?_, ?_⟩ <;> rw [List.drop_left pfx m] <;> rw [hraw] <;> simp

/-- `parse_prefixed_raw` succeeds exactly when the input is one of the
four prefixes followed by a `raw_opener_shape` body. -/
theorem parse_prefixed_raw_iff_shape (l : List Char) :
    (parse_prefixed_raw l).isSome = true ↔
      ∃ p m, (p = ['u', '8'] ∨ p = ['u'] ∨ p = ['U'] ∨ p = ['L']) ∧
        l = p ++ m ∧ raw_opener_shape m := by
  have hchain : (parse_prefixed_raw l).isSome = true ↔
      ((rawTest l ['u', '8']).isSome = true ∨ (rawTest l ['u']).isSome = true ∨
       (rawTest l ['U']).isSome = true ∨ (rawTest l ['L']).isSome = true) := by
    unfold parse_prefixed_raw
    cases h1 : rawTest l ['u', '8'] <;> cases h2 : rawTest l ['u'] <;>
      cases h3 : rawTest l ['U'] <;> cases h4 : rawTest l ['L'] <;> simp
  rw [hchain, rawTest_iff_shape, rawTest_iff_shape, rawTest_iff_shape, rawTest_iff_shape]
  constructor
  · rintro (⟨m, hm, hsh⟩ | ⟨m, hm, hsh⟩ | ⟨m, hm, hsh⟩ | ⟨m, hm, hsh⟩)
    · exact ⟨['u', '8'], m, Or.inl rfl, hm, hsh⟩
    · exact ⟨['u'], m, Or.inr (Or.inl rfl), hm, hsh⟩
    · exact ⟨['U'], m, Or.inr (Or.inr (Or.inl rfl)), hm, hsh⟩
    · exact ⟨['L'], m, Or.inr (Or.inr (Or.inr rfl)), hm, hsh⟩
  · rintro ⟨p, m, (rfl | rfl | rfl | rfl), hm, hsh⟩
    · exact Or.inl ⟨m, hm, hsh⟩
    · exact Or.inr (Or.inl ⟨m, hm, hsh⟩)
    · exact Or.inr (Or.inr (Or.inl ⟨m, hm, hsh⟩))
    · exact Or.inr (Or.inr (Or.inr ⟨m, hm, hsh⟩))

/-- The comment stripper's raw-opener branch fires exactly when
`scanRawDelim` succeeds: on success the opener is emitted and the state
moves to `InRaw`, otherwise one character is emitted and scanning
continues (for an `R` head every later `Normal` test fails). -/
theorem stripGo_raw_branch (f : Nat) (tail : List Char) :
    stripGo (f + 1) .normal ('R' :: '"' :: tail) =
      match scanRawDelim [] tail with
      | some (d, after) => 'R' :: '"' :: (d ++ '(' :: stripGo f (.inRaw d) after)
      | none => 'R' :: stripGo f .normal ('"' :: tail) := by
  cases hs : scanRawDelim [] tail with
  | some p =>
    obtain ⟨d, after⟩ := p
    simp only [stripGo]
    rw [if_pos (by simp)]
    simp [hs]
  | none =>
    simp only [stripGo]
    rw [if_pos (by simp)]
    simp [hs]

/-- The concrete 17-character delimiter for the C4 counterexample. -/
def c4_delim : List Char := List.replicate 17 'a'

/-- A candidate opener with a 17-character delimiter followed by a
string-quote and a block comment.  If the candidate were rejected (as
the claim's 16-character bound requires), the stripper would read an
ordinary string literal `"aaaaaaaaaaaaaaaaa("` and then remove `/*c*/`;
in fact it enters the raw string and emits everything verbatim. -/
def c4_strip_input : List Char :=
  'R' :: '"' :: c4_delim ++ ['(', '"', '/', '*', 'c', '*', '/']

/-- **C4, counterexample.**  A raw-string candidate whose delimiter has
17 characters (more than the claimed bound of 16) *is* treated as a
raw-string opener, both by `parse_raw_string` (it succeeds) and by the
comment stripper (the block comment after the opener is preserved
verbatim instead of being stripped). -/
theorem C4_counterexample_seventeen_delimiter :
    c4_delim.length = 17 ∧
    (parse_raw_string ('R' :: '"' :: c4_delim ++ ['('])).isSome = true ∧
    strip_comments_preserve_literals c4_strip_input = c4_strip_input := by
  refine ⟨by decide, by decide, by decide⟩

/-- **C4 (amended).**  Both `strip_comments_preserve_literals` and
`tokenize_minimal_cpp` recognize a raw-string opener exactly when it
consists of an optional prefix (`u8`, `u`, `U`, or `L`), then `R"`, then
a delimiter of at most **17** characters none of which is `(`, `)`,
`\`, or whitespace, then `(` (`raw_opener_shape`): stated for the
tokenizer's `parse_raw_string` and `parse_prefixed_raw`, for the shared
delimiter scan, and for the stripper's `Normal`-state branch, whose gate
is exactly that scan.  (The claim's bound of 16 is off by one: the scan
checks `delim.size() > 16` *before* pushing, so a 17th character is
still accepted; see the counterexample.) -/
theorem C4_amended_raw_opener_characterization :
    (∀ l, (parse_raw_string l).isSome = true ↔ raw_opener_shape l) ∧
    (∀ l, (parse_prefixed_raw l).isSome = true ↔
        ∃ p m, (p = ['u', '8'] ∨ p = ['u'] ∨ p = ['U'] ∨ p = ['L']) ∧
          l = p ++ m ∧ raw_opener_shape m) ∧
    (∀ tail, (∃ q, scanRawDelim [] tail = some q) ↔
        raw_opener_shape ('R' :: '"' :: tail)) ∧
    (∀ f tail, stripGo (f + 1) .normal ('R' :: '"' :: tail) =
        match scanRawDelim [] tail with
        | some (d, after) => 'R' :: '"' :: (d ++ '(' :: stripGo f (.inRaw d) after)
        | none => 'R' :: stripGo f .normal ('"' :: tail)) :=
  ⟨parse_raw_string_iff_shape, parse_prefixed_raw_iff_shape,
   scanRawDelim_iff_shape, stripGo_raw_branch⟩

/-- Witness for the amended C4: the opener `R"x()` with one-character
delimiter is accepted via the characterization. -/
theorem C4_amended_raw_opener_characterization_witness :
    (parse_raw_string ['R', '"', 'x', '(', ')']).isSome = true :=
  (C4_amended_raw_opener_characterization.1 ['R', '"', 'x', '(', ')']).mpr
    ⟨['x'], [')'], rfl, by decide, by decide⟩

/-! ## The art parser -/

/-- `default_ascii_density_01`: density `1` for every ASCII code point
except the space (code point 32), which gets `0`. -/
def default_ascii_density_01 : List ℚ :=
  (List.range 128).map fun c => if c = 32 then 0 else 1

/-- The `Art` record: width, height, and the H×W density grid. -/
structure Art where
  W : Nat
  H : Nat
  density : List (List ℚ)
deriving DecidableEq, Repr

/-- The line-splitting loop of `parse_art_to_density`: split the byte
string on `'\n'` (byte 10).  The loop runs while `start ≤ size`, so the
result always has exactly one more piece than there are newlines; in
particular it is never empty. -/
def splitLines : List Nat → List (List Nat)
  | [] => [[]]
  | c :: rest =>
    if c = 10 then [] :: splitLines rest
    else
      match splitLines rest with
      | l :: ls => (c :: l) :: ls
      | [] => [[c]]

theorem splitLines_ne_nil (l : List Nat) : splitLines l ≠ [] := by
  cases l with
  | nil => simp [splitLines]
  | cons c rest =>
    unfold splitLines
    by_cases h : c = 10
    · simp [h]
    · simp only [h, if_false]
      cases splitLines rest <;> simp

theorem splitLines_append_newline (l : List Nat) :
    splitLines (l ++ [10]) = splitLines l ++ [[]] := by
  induction l with
  | nil => rfl
  | cons c rest ih =>
    by_cases h : c = 10
    · simp [splitLines, h, ih]
    · obtain ⟨x, xs, hx⟩ : ∃ x xs, splitLines rest = x :: xs := by
        cases hsp : splitLines rest with
        | nil => exact absurd hsp (splitLines_ne_nil rest)
        | cons x xs => exact ⟨x, xs, rfl⟩
      have h1 : splitLines (rest ++ [10]) = x :: (xs ++ [[]]) := by
        rw [ih, hx]; simp
      show splitLines (c :: (rest ++ [10])) = splitLines (c :: rest) ++ [[]]
      unfold splitLines
      simp only [h, if_false, h1, hx]
      simp

/-- The UTF-8 decoding lambda `utf8_to_u32` of the art parser: standard
2-, 3-, and 4-byte sequences with explicit availability checks (the C++
bounds `i + k < s.size()`); any other lead byte, or a truncated
sequence, is skipped one byte at a time.  `fuel` mirrors the scanning
loop; each iteration consumes at least one byte. -/
def utf8Go : Nat → List Nat → List Nat
  | 0, _ => []
  | _, [] => []
  | fuel + 1, c0 :: rest =>
    if c0 &&& 128 = 0 then c0 :: utf8Go fuel rest
    else
      match rest with
      | [] => utf8Go fuel rest
      | c1 :: rest1 =>
        if c0 &&& 224 = 192 then
          (((c0 &&& 31) <<< 6) ||| (c1 &&& 63)) :: utf8Go fuel rest1
        else
          match rest1 with
          | [] => utf8Go fuel rest
          | c2 :: rest2 =>
            if c0 &&& 240 = 224 then
              (((c0 &&& 15) <<< 12) ||| ((c1 &&& 63) <<< 6) ||| (c2 &&& 63)) ::
                utf8Go fuel rest2
            else
              match rest2 with
              | [] => utf8Go fuel rest
              | c3 :: rest3 =>
                if c0 &&& 248 = 240 then
                  (((c0 &&& 7) <<< 18) ||| ((c1 &&& 63) <<< 12) |||
                    ((c2 &&& 63) <<< 6) ||| (c3 &&& 63)) :: utf8Go fuel rest3
                else utf8Go fuel rest

/-- `utf8_to_u32` with sufficient fuel. -/
def utf8_to_u32 (l : List Nat) : List Nat :=
  utf8Go l.length l

/-- `parse_art_to_density`.  Overrides are modelled as `Option Nat`
(negative overrides make the C++ resize a vector to a huge size and are
outside the model).  The trailing-empty-line drop, the height resize
(truncate or pad with empty rows), the width computation, and the
per-cell density lookup follow the source line by line. -/
def parse_art_to_density (art_text : List Nat)
    (width_override height_override : Option Nat) (map : List ℚ) : Art :=
  let lines0 := splitLines art_text
  -- if the file ends with a newline, drop the final empty line so H
  -- matches visual rows
  let lines :=
    if lines0 ≠ [] ∧ lines0.getLast? = some [] ∧ height_override = none ∧
        width_override = none ∧ art_text ≠ [] ∧ art_text.getLast? = some 10
    then lines0.dropLast else lines0
  let u32lines0 := lines.map utf8_to_u32
  let H := match height_override with
    | some h => h
    | none => u32lines0.length
  let u32lines :=
    if height_override.isSome then
      u32lines0.take H ++ List.replicate (H - u32lines0.length) []
    else u32lines0
  let W0 := u32lines.foldl (fun w s => max w s.length) 0
  let W1 := if width_override = none ∧ u32lines = [] then 80 else W0
  let W := match width_override with
    | some w => w
    | none => W1
  let cell := fun (i j : Nat) =>
    let row := u32lines.getD i []
    let cp := row.getD j 32
    if cp ≤ 127 ∧ cp < map.length then map.getD cp 1 else 1
  { W := W, H := H,
    density := (List.range H).map fun i => (List.range W).map fun j => cell i j }

/-! ### Claim C8 -/

set_option maxRecDepth 8192 in
/-- **C8.**  When the art text ends with `'\n'` and neither override is
set, the trailing empty line produced by splitting on `'\n'` is dropped:
the height is one less than the number of split pieces.  In particular
(second conjunct) the art `"##\n#\n"` with no overrides parses to
`W = 2`, `H = 2` with density rows `[1, 1]` and `[1, 0]`. -/
theorem C8_trailing_newline_dropped :
    (∀ (art : List Nat) (m : List ℚ), art.getLast? = some 10 →
      (parse_art_to_density art none none m).H = (splitLines art).length - 1) ∧
    parse_art_to_density [35, 35, 10, 35, 10] none none default_ascii_density_01 =
      ⟨2, 2, [[1, 1], [1, 0]]⟩ := by
  constructor
  · intro art m hlast
    have hne : art ≠ [] := by
      intro h; rw [h] at hlast; simp at hlast
    obtain ⟨a, rfl⟩ : ∃ a, art = a ++ [10] := by
      refine ⟨art.dropLast, ?_⟩
      have h1 := List.dropLast_append_getLast hne
      have h2 : art.getLast hne = 10 := by
        have := List.getLast?_eq_getLast art hne
        rw [this] at hlast
        simpa using hlast
      rw [h2] at h1
      exact h1.symm
    simp only [parse_art_to_density]
    rw [splitLines_append_newline a]
    rw [if_pos (by refine ⟨by simp, by simp, by simp, by simp, by simp, by simp⟩)]
    simp
  · decide

/-- Witness for C8: the general conjunct applied to the concrete art
`"##\n#\n"`. -/
theorem C8_trailing_newline_dropped_witness :
    (parse_art_to_density [35, 35, 10, 35, 10] none none
      default_ascii_density_01).H = (splitLines [35, 35, 10, 35, 10]).length - 1 :=
  C8_trailing_newline_dropped.1 [35, 35, 10, 35, 10] default_ascii_density_01 (by decide)

/-! ## The layout engine (`convert_layout`)

The per-row DP table (`dp[i][j][k]`, back-pointers) is a pair of
functions updated pointwise; the flattened triple loop over
`(i, j, k)` is a fold over the position list in the C++ iteration
order.  The `std::mt19937` stream is an abstract function `Nat → Nat`
with a cursor; each `uniform_int_distribution` call consumes one value,
reduced modulo the distribution's width. -/

/-- `min_width` from the header. -/
def min_width : Nat := 80

def shoot : Nat := 10

def MN_TOKENS : Nat := 4

def SCORE_RELAXATION_FACTOR : Nat := 10

def MX_COMMENT_LENGTH : Nat := 20

/-- `const int NEG_INF = -1e9`. -/
def NEG_INF : Int := -1000000000

/-- `is_one`: a density counts as ink iff `d ≥ 0.5`. -/
def is_one (d : ℚ) : Bool := d ≥ 1 / 2

/-- The abstract random stream: `f` produces the raw draws, `ctr` is how
many have been consumed.  `draw m` returns a value in `[0, m)`. -/
structure Rng where
  f : Nat → Nat
  ctr : Nat

def Rng.draw (r : Rng) (m : Nat) : Nat × Rng :=
  (r.f r.ctr % m, ⟨r.f, r.ctr + 1⟩)

/-- Everything one image row's DP needs. -/
structure RowCtx where
  tokens : List (List Char)
  taken : Nat
  W : Nat
  H : Nat
  row : Nat
  dens01 : List (List Nat)
  char01 : List Nat

namespace RowCtx

def n (ctx : RowCtx) : Nat := ctx.tokens.length

/-- `W_BOUND = W + shoot`. -/
def WB (ctx : RowCtx) : Nat := ctx.W + shoot

/-- `tokens_left_total = max(0, n - taken)`. -/
def tl (ctx : RowCtx) : Nat := ctx.n - ctx.taken

/-- `maxJThisRow` and `jHi`, both `min(W_BOUND - 1, tokens_left_total)`. -/
def maxJ (ctx : RowCtx) : Nat := min (ctx.WB - 1) ctx.tl

/-- `iStart = max(0, W - shoot)` (truncated subtraction). -/
def iStart (ctx : RowCtx) : Nat := ctx.W - shoot

/-- `SCORE_RELAXATION = W / SCORE_RELAXATION_FACTOR`. -/
def SR (ctx : RowCtx) : Nat := ctx.W / SCORE_RELAXATION_FACTOR

/-- The row's `want` vector (zero outside `[0, min W W_BOUND)`, and the
`row < H` guard of the C++). -/
def wantAt (ctx : RowCtx) (col : Nat) : Nat :=
  if ctx.row < ctx.H ∧ col < min ctx.W ctx.WB then
    (ctx.dens01.getD ctx.row []).getD col 0
  else 0

/-- `desired_at`: want inside `[0, W_BOUND)`, zero outside. -/
def desired_at (ctx : RowCtx) (col : Nat) : Nat :=
  if col < ctx.WB then ctx.wantAt col else 0

/-- `density_of`: precomputed `char01` for ASCII, `1` otherwise. -/
def density_of (ctx : RowCtx) (ch : Char) : Nat :=
  if ch.toNat < 128 then ctx.char01.getD ch.toNat 0 else 1

/-- `score_char`: one point when the placed density matches the target. -/
def score_char (ctx : RowCtx) (col : Nat) (ch : Char) : Int :=
  if ctx.desired_at col = ctx.density_of ch then 1 else 0

/-- `token_score`: sum of per-column scores of the token's characters. -/
def token_score (ctx : RowCtx) : Nat → List Char → Int
  | _, [] => 0
  | i, c :: r => ctx.score_char i c + ctx.token_score (i + 1) r

/-- `comment_score`: interiors always match by choice (`len - 4` when
`len ≥ 4`), plus the four fixed delimiter characters. -/
def comment_score (ctx : RowCtx) (i len : Nat) : Int :=
  (if len ≥ 4 then (len : Int) - 4 else 0) +
    ctx.score_char i '/' + ctx.score_char (i + 1) '*' +
    ctx.score_char (i + len - 2) '*' + ctx.score_char (i + len - 1) '/'

/-- The `need_sep` vector: whether token `taken + j` requires separation
from the following token (false at the end of the stream). -/
def needSep (ctx : RowCtx) (j : Nat) : Bool :=
  if ctx.taken + j + 1 < ctx.n then
    needs_separator (ctx.tokens.getD (ctx.taken + j) [])
      (ctx.tokens.getD (ctx.taken + j + 1) [])
  else false

end RowCtx

/-- DP and back-pointer tables plus the random stream. -/
structure FillSt where
  dp : Nat → Nat → Nat → Int
  bp : Nat → Nat → Nat → Int × Int × Int
  rng : Rng

/-- `dp[0][0][0] = 0`, all else `NEG_INF`; back-pointers all sentinel. -/
def initFill (rng : Rng) : FillSt :=
  { dp := fun i j k => if i = 0 ∧ j = 0 ∧ k = 0 then 0 else NEG_INF,
    bp := fun _ _ _ => (-1, -1, -1),
    rng := rng }

/-- One DP relaxation: strictly better replaces value and back-pointer;
an equal value flips a coin for the back-pointer only. -/
def relax (s : FillSt) (ti tj tk pi pj pk : Nat) (cand : Int) : FillSt :=
  let ref := s.dp ti tj tk
  if cand > ref then
    { s with
      dp := fun a b c => if a = ti ∧ b = tj ∧ c = tk then cand else s.dp a b c,
      bp := fun a b c => if a = ti ∧ b = tj ∧ c = tk then
        ((pi : Int), (pj : Int), (pk : Int)) else s.bp a b c }
  else if cand = ref ∧ ref ≠ NEG_INF then
    let d := s.rng.draw 2
    if d.1 = 1 then
      { s with
        bp := fun a b c => if a = ti ∧ b = tj ∧ c = tk then
          ((pi : Int), (pj : Int), (pk : Int)) else s.bp a b c,
        rng := d.2 }
    else { s with rng := d.2 }
  else s

/-- Comment lengths `L ∈ [4, min(MX_COMMENT_LENGTH, W_BOUND - i - 1)]`. -/
def commentLens (ctx : RowCtx) (i : Nat) : List Nat :=
  List.range' 4 (min MX_COMMENT_LENGTH (ctx.WB - i - 1) + 1 - 4)

/-- All transitions out of one state `(i, j, k)`, in source order:
space, comments, token (the latter only when `j < tokens_left` and
`k ≠ 2`). -/
def doTrans (ctx : RowCtx) (p : Nat × Nat × Nat) (s : FillSt) : FillSt :=
  let i := p.1
  let j := p.2.1
  let k := p.2.2
  let cur := s.dp i j k
  if cur = NEG_INF then s
  else
    let s1 := if i + 1 < ctx.WB then
        relax s (i + 1) j 0 i j k (cur + ctx.score_char i ' ')
      else s
    let s2 := (commentLens ctx i).foldl
        (fun t L => relax t (i + L) j 1 i j k (cur + ctx.comment_score i L)) s1
    if j < ctx.tl ∧ k ≠ 2 then
      let tok := ctx.tokens.getD (ctx.taken + j) []
      if i + tok.length < ctx.WB then
        let req := if j ≤ ctx.maxJ then ctx.needSep j else false
        let nk := if req then 2 else 3
        relax s2 (i + tok.length) (j + 1) nk i j k (cur + ctx.token_score i tok)
      else s2
    else s2

/-- The flattened `(i, j, k)` loop nest:
`i < W_BOUND`, `j ≤ min(i, tokens_left)`, `k < 4`, in iteration order. -/
def posList (ctx : RowCtx) : List (Nat × Nat × Nat) :=
  (List.range ctx.WB).flatMap fun i =>
    (List.range (min i ctx.tl + 1)).flatMap fun j =>
      (List.range 4).map fun k => (i, j, k)

/-- Solve the row DP. -/
def dpFill (ctx : RowCtx) (rng : Rng) : FillSt :=
  (posList ctx).foldl (fun s p => doTrans ctx p s) (initFill rng)

/-- Terminal-state window for one token-count floor `jLo`:
`i ∈ [iStart, W_BOUND)`, `j ∈ [jLo, jHi]`, `k < 4`, in scan order. -/
def windowStates (ctx : RowCtx) (jLo : Nat) : List (Nat × Nat × Nat) :=
  (List.range' ctx.iStart (ctx.WB - ctx.iStart)).flatMap fun i =>
    (List.range' jLo (ctx.maxJ + 1 - jLo)).flatMap fun j =>
      (List.range 4).map fun k => (i, j, k)

/-- `val > bestVal` scan over a state list (initial best `NEG_INF`,
initial state `{0,0,0}`). -/
def bestScan (dp : Nat → Nat → Nat → Int) (l : List (Nat × Nat × Nat)) :
    Int × (Nat × Nat × Nat) :=
  l.foldl (fun acc p =>
    if dp p.1 p.2.1 p.2.2 > acc.1 then (dp p.1 p.2.1 p.2.2, p) else acc)
    (NEG_INF, (0, 0, 0))

/-- Step 3 of the selection, for one `j`: best state with
`val ≥ threshold` over `i ∈ [iStart, W_BOUND)`, `k < 4`; `none` when no
state qualifies. -/
def scanAtJ (ctx : RowCtx) (dp : Nat → Nat → Nat → Int) (j : Nat)
    (threshold : Int) : Option (Nat × Nat × Nat) :=
  let r := ((List.range' ctx.iStart (ctx.WB - ctx.iStart)).flatMap fun i =>
      (List.range 4).map fun k => (i, k)).foldl
    (fun (acc : Int × (Nat × Nat × Nat)) q =>
      if dp q.1 j q.2 ≥ threshold ∧ dp q.1 j q.2 > acc.1 then
        (dp q.1 j q.2, (q.1, j, q.2)) else acc)
    (NEG_INF, (0, 0, 0))
  if r.1 = NEG_INF then none else some r.2

/-- First-success iteration (a loop with an early break): the first
`some` produced by `f` along the list, `none` when every call fails. -/
def firstSome {α β : Type _} (f : α → Option β) : List α → Option β
  | [] => none
  | x :: l => match f x with
    | some c => some c
    | none => firstSome f l

/-- Steps 1–3 of the selection at one token-count floor `minTok`. -/
def chooseTier (ctx : RowCtx) (dp : Nat → Nat → Nat → Int) (minTok : Nat) :
    Nat × Nat × Nat :=
  let bs := bestScan dp (windowStates ctx minTok)
  let threshold := bs.1 - (ctx.SR : Int)
  let jDesc := (List.range' minTok (ctx.maxJ + 1 - minTok)).reverse
  match firstSome (fun j => scanAtJ ctx dp j threshold) jDesc with
  | some c => c
  | none => bs.2

/-- The full relaxed terminal-state selection: token-count floors from
`min(MN_TOKENS, tokens_left)` down to `0`, first non-empty tier wins;
the safety fallback scans the whole window. -/
def selectState (ctx : RowCtx) (dp : Nat → Nat → Nat → Int) :
    Nat × Nat × Nat :=
  let tiers := (List.range (min MN_TOKENS ctx.tl + 1)).reverse
  match firstSome (fun m =>
      if (windowStates ctx m).any
          (fun p => decide (dp p.1 p.2.1 p.2.2 ≠ NEG_INF)) then
        some (chooseTier ctx dp m)
      else none) tiers with
  | some st => st
  | none => (bestScan dp (windowStates ctx 0)).2

/-- One output blob: a space, a synthetic comment, or a source token. -/
inductive Seg where
  | sp : Seg
  | com (content : List Char) : Seg
  | tok (t : List Char) : Seg
deriving DecidableEq, Repr

def Seg.text : Seg → List Char
  | .sp => [' ']
  | .com s => s
  | .tok t => t

/-- The reconstruction of one comment blob's characters:
`'/' '*' [content] '*' '/'`, interiors a space for a 0-target and a
random lowercase letter for a 1-target. -/
def commentStepF (ctx : RowCtx) (pi len : Nat) (acc : List Char × Rng)
    (t : Nat) : List Char × Rng :=
  if t = 0 then (acc.1 ++ ['/'], acc.2)
  else if t = 1 then (acc.1 ++ ['*'], acc.2)
  else if t = len - 2 then (acc.1 ++ ['*'], acc.2)
  else if t = len - 1 then (acc.1 ++ ['/'], acc.2)
  else
    let col := pi + t
    let wantbit := if ctx.row < ctx.H ∧ col < ctx.W then
      (ctx.dens01.getD ctx.row []).getD col 0 else 0
    if wantbit = 0 then (acc.1 ++ [' '], acc.2)
    else
      let d := acc.2.draw 26
      (acc.1 ++ [Char.ofNat (97 + d.1)], d.2)

def commentContent (ctx : RowCtx) (pi len : Nat) (rng : Rng) :
    List Char × Rng :=
  (List.range len).foldl (commentStepF ctx pi len) ([], rng)

/-- The back-pointer walk (`while (ci > 0 || cj > 0)`), producing the
row's blobs in forward order.  `fuel` bounds the number of steps; for
any state reached by the DP, `ci + cj + 1` suffices (each genuine
transition decreases `ci + cj` when all tokens are non-empty). -/
def reconstruct (ctx : RowCtx) (bp : Nat → Nat → Nat → Int × Int × Int) :
    Nat → Nat → Nat → Nat → Rng → List Seg × Rng
  | 0, _, _, _, rng => ([], rng)
  | fuel + 1, ci, cj, ck, rng =>
    if ci > 0 ∨ cj > 0 then
      let prev := bp ci cj ck
      if prev.1 < 0 then ([], rng)
      else
        let pi := prev.1.toNat
        let pj := prev.2.1.toNat
        let pk := prev.2.2.toNat
        let len := ci - pi
        let sr : Seg × Rng :=
          if ck = 0 then (Seg.sp, rng)
          else if ck = 1 then
            let len1 := if len < 4 then 4 else len
            let p := commentContent ctx pi len1 rng
            (Seg.com p.1, p.2)
          else
            (Seg.tok (if pj < ctx.WB ∧ ctx.taken + pj < ctx.n then
              ctx.tokens.getD (ctx.taken + pj) [] else []), rng)
        let p2 := reconstruct ctx bp fuel pi pj pk sr.2
        (p2.1 ++ [sr.1], p2.2)
    else ([], rng)

/-- One image row: solve the DP, select the terminal state, reconstruct;
returns the blobs, the number of tokens consumed, and the stream. -/
def imageRow (ctx : RowCtx) (rng : Rng) : List Seg × Nat × Rng :=
  let fill := dpFill ctx rng
  let st := selectState ctx fill.dp
  let p := reconstruct ctx fill.bp (st.1 + st.2.1 + 1) st.1 st.2.1 st.2.2 fill.rng
  (p.1, st.2.1, p.2)

/-- The overflow packing loop (`while (taken < n)` inside one overflow
line): append the next token (with one separating space when
`needs_separator` demands) while it fits in `W_eff`; a token that does
not fit on an empty line is placed alone.  `fuel = n - taken`
suffices (the loop advances `taken` before every recursive call). -/
def overflowGo (tokens : List (List Char)) (n W_eff : Nat) :
    Nat → Nat → Nat → List Char → List Seg × Nat
  | 0, taken, _, _ => ([], taken)
  | fuel + 1, taken, col, prev =>
    if taken < n then
      let tok := tokens.getD taken []
      let sep := decide (prev ≠ []) && needs_separator prev tok
      let L := (if sep then 1 else 0) + tok.length
      if col + L > W_eff then
        if col = 0 then
          ((if sep then [Seg.sp] else []) ++ [Seg.tok tok], taken + 1)
        else ([], taken)
      else
        let p := overflowGo tokens n W_eff fuel (taken + 1) (col + L) tok
        ((if sep then [Seg.sp] else []) ++ Seg.tok tok :: p.1, p.2)
    else ([], taken)

/-- One emitted line, image band or overflow. -/
inductive RowRec where
  | image (segs : List Seg) : RowRec
  | overflow (segs : List Seg) : RowRec
deriving DecidableEq, Repr

def RowRec.segs : RowRec → List Seg
  | .image s => s
  | .overflow s => s

def RowRec.text (r : RowRec) : List Char :=
  (r.segs.map Seg.text).flatten

/-- The inputs of the emission loop. -/
structure LoopPar where
  tokens : List (List Char)
  W : Nat
  H : Nat
  dens01 : List (List Nat)
  char01 : List Nat

def LoopPar.n (P : LoopPar) : Nat := P.tokens.length

/-- The cursor of the emission loop. -/
structure LoopSt where
  taken : Nat
  row : Nat
  rng : Rng

def mkRowCtx (P : LoopPar) (st : LoopSt) : RowCtx :=
  ⟨P.tokens, st.taken, P.W, P.H, st.row, P.dens01, P.char01⟩

/-- One iteration of `while (taken < n or row < H)`: `none` when the
loop exits, otherwise the emitted line and the new cursor. -/
def loopStep (P : LoopPar) (st : LoopSt) : Option (RowRec × LoopSt) :=
  if st.taken < P.n ∨ st.row < P.H then
    some (if st.row ≥ P.H then
      let d := st.rng.draw shoot
      let W_eff := P.W + d.1
      let p := overflowGo P.tokens P.n W_eff (P.n - st.taken) st.taken 0 []
      (RowRec.overflow p.1, ⟨p.2, st.row + 1, d.2⟩)
    else
      let r := imageRow (mkRowCtx P st) st.rng
      (RowRec.image r.1, ⟨st.taken + r.2.1, st.row + 1, r.2.2⟩))
  else none

/-- The emission loop with fuel; the `Bool` reports whether the loop
reached its exit condition within the fuel. -/
def loopGo (P : LoopPar) : Nat → LoopSt → List RowRec × LoopSt × Bool
  | 0, st => ([], st, (loopStep P st).isNone)
  | fuel + 1, st =>
    match loopStep P st with
    | none => ([], st, true)
    | some (r, st') =>
      let p := loopGo P fuel st'
      (r :: p.1, p.2.1, p.2.2)

/-- The loop parameters built by `convert_layout`: the target density
and the character map collapsed to 0/1 grids (`dens01`, `char01`). -/
def layoutParams (tokens : List (List Char)) (W H : Nat)
    (target_density : List (List ℚ)) (density_map : List ℚ) : LoopPar :=
  { tokens := tokens, W := W, H := H,
    dens01 := (List.range H).map fun r =>
      (List.range W).map fun c =>
        if is_one ((target_density.getD r []).getD c 0) then 1 else 0,
    char01 := (List.range 128).map fun c =>
      if is_one (density_map.getD c 1) then 1 else 0 }

/-- The emission loop's run with the sufficient fuel `n + H + 1`
(each iteration either increases `row` below `H` or consumes at least
one token in overflow, so at most `n + H` iterations happen). -/
def convert_layout_run (tokens : List (List Char)) (W H : Nat)
    (target_density : List (List ℚ)) (density_map : List ℚ) (rng : Rng) :
    List RowRec × LoopSt × Bool :=
  loopGo (layoutParams tokens W H target_density density_map)
    (tokens.length + H + 1) ⟨0, 0, rng⟩

/-- `convert_layout`.  The `assert(std::max(min_width, maxl) < W_BOUND)`
is modelled as a precondition: `none` when it fails.  On success the
output is the emitted lines, each terminated by `'\n'`. -/
def convert_layout (tokens : List (List Char)) (W H : Nat)
    (target_density : List (List ℚ)) (density_map : List ℚ) (rng : Rng) :
    Option (List Char) :=
  let maxl := tokens.foldl (fun m t => max m t.length) 0
  if max min_width maxl < W + shoot then
    some ((((convert_layout_run tokens W H target_density density_map
      rng).1).map fun r => r.text ++ ['\n']).flatten)
  else none

/-! ## Claim C1: the token-sequence contract

The contract is the tool's central documented purpose ("preserving
program semantics"; `needs_separator` is the only guard), but the hazard
list misses raw-string formation: an identifier ending in `R` (or a
`u8`/`u`/`U`/`L` prefix) directly followed by a string literal is glued
without a separator, and the concatenation re-tokenizes as a single
raw-string literal.  With art height 0 (reachable with `--height 0`)
every token goes through the overflow tail, which packs `R` and
`"x(hi)"` adjacently for *every* random seed (both tokens always fit in
`W_eff ≥ W`), so the output tokenizes differently from the input. -/

/-- The failing source text for C1: `R "x(hi)"`, two tokens. -/
def c1_source : List Char := ['R', ' ', '"', 'x', '(', 'h', 'i', ')', '"']

/-- **C1, violation.**  For every possible first draw of the random
stream (the only draw this run consumes, reduced mod 10 by the overflow
width distribution), converting the two tokens of `c1_source` with
`W = 71, H = 0` yields an output whose stripped-and-retokenized token
list differs from the input's: the output is `R"x(hi)"` followed by a
newline, a single raw-string token. -/
theorem C1_token_preservation_code_bug :
    ∀ e : Fin 10,
      (convert_layout (tokenize_minimal_cpp (strip_comments_preserve_literals c1_source))
          71 0 [] default_ascii_density_01 ⟨fun _ => e.val, 0⟩).map
        (fun out => tokenize_minimal_cpp (strip_comments_preserve_literals out)) ≠
      some (tokenize_minimal_cpp (strip_comments_preserve_literals c1_source)) := by
  decide

/-! ## Claim C3: missing input files

`read_file` indeed returns an empty string for a missing file, and a
missing `--code` is harmless.  But a missing `--art` parses to `W = 0`
(the art text `""` splits into one empty line, so the
`u32lines.empty()` fallback to `W = 80` is unreachable), and then
`convert_layout`'s `assert(std::max(min_width, maxl) < W_BOUND)` fails:
the process aborts instead of exiting 0. -/

/-- The `main` pipeline after file reading: strip, tokenize, parse art
with the default density map, lay out.  `none` models the assertion
failure in `convert_layout`. -/
def pipeline_main (code_text : List Char) (art_text : List Nat)
    (width height : Option Nat) (rng : Rng) : Option (List Char) :=
  let tokens := tokenize_minimal_cpp (strip_comments_preserve_literals code_text)
  let art := parse_art_to_density art_text width height default_ascii_density_01
  convert_layout tokens art.W art.H art.density default_ascii_density_01 rng

/-- **C3, counterexample.**  With the code file present (`int x;`) and
the art file missing (empty byte string), the pipeline hits the failed
assertion and produces no output — contradicting "no error is raised,
the pipeline still produces some output, and the program exits with
code 0". -/
theorem C3_counterexample_missing_art :
    pipeline_main ['i', 'n', 't', ' ', 'x', ';'] [] none none ⟨fun _ => 0, 0⟩ = none := by
  decide

/-- Empty art text parses to `W = 0`, `H = 1` for every density map. -/
theorem parse_art_empty (m : List ℚ) :
    parse_art_to_density [] none none m = ⟨0, 1, [[]]⟩ := by
  rfl

/-- **C3 (amended).**  A missing `--code` file is treated as an empty
file and the pipeline still produces output, for any art whose parsed
width satisfies the layout precondition `min_width < W + shoot`; but a
missing `--art` file yields `W = 0`, the precondition
`max(min_width, max_token_length) < W_BOUND` is violated, and the
assertion in `convert_layout` aborts the program instead of exiting 0. -/
theorem C3_amended_missing_inputs :
    (∀ (art_text : List Nat) (g : Rng),
      80 < (parse_art_to_density art_text none none default_ascii_density_01).W + 10 →
      (pipeline_main [] art_text none none g).isSome = true) ∧
    (∀ (code_text : List Char) (g : Rng),
      pipeline_main code_text [] none none g = none) := by
  constructor
  · intro art_text g h
    unfold pipeline_main convert_layout
    rw [if_pos]
    · simp
    · simpa [min_width, shoot, tokenize_minimal_cpp, strip_comments_preserve_literals,
        stripGo, tokenizeGo] using h
  · intro code_text g
    unfold pipeline_main
    rw [parse_art_empty]
    unfold convert_layout
    rw [if_neg]
    intro hcon
    have h80 : (80 : Nat) ≤ max min_width
        ((tokenize_minimal_cpp (strip_comments_preserve_literals code_text)).foldl
          (fun m t => max m t.length) 0) := le_max_left _ _
    simp [shoot] at hcon
    omega

/-- Witness for the amended C3: a 71-column all-ink art satisfies the
precondition and the pipeline with a missing code file succeeds, while a
missing art file makes it abort. -/
theorem C3_amended_missing_inputs_witness :
    (80 < (parse_art_to_density (List.replicate 71 35) none none
      default_ascii_density_01).W + 10) ∧
    (pipeline_main [] (List.replicate 71 35) none none ⟨fun _ => 0, 0⟩).isSome = true ∧
    pipeline_main ['i', 'n', 't', ' ', 'x', ';'] [] none none ⟨fun _ => 0, 0⟩ = none :=
  ⟨by decide,
   C3_amended_missing_inputs.1 (List.replicate 71 35) ⟨fun _ => 0, 0⟩ (by decide),
   C3_amended_missing_inputs.2 ['i', 'n', 't', ' ', 'x', ';'] ⟨fun _ => 0, 0⟩⟩

/-! ## Claim C7: termination and the cursor

The loop lemmas below: the overflow packer never decreases `taken` and,
started at column 0 with tokens remaining, consumes at least one token;
the selected DP state consumes at most `tokens_left` tokens; each loop
iteration advances the cursor monotonically and decreases the measure
`(n - taken) + (H - row)`; with fuel `n + H + 1` the loop reaches its
exit condition, which is exactly `taken = n ∧ row ≥ H`. -/

/-- Helper: a property of the second component holds for an `if` of
pairs when it holds on both branches. -/
theorem ite_snd_prop {α β : Type} (P : β → Prop) {c : Prop} [Decidable c]
    {A B : α × β} (hA : P A.2) (hB : P B.2) : P (if c then A else B).2 := by
  split <;> assumption

theorem overflowGo_taken_le (tokens : List (List Char)) (n W_eff : Nat) :
    ∀ (fuel taken col : Nat) (prev : List Char),
      taken ≤ (overflowGo tokens n W_eff fuel taken col prev).2 := by
  intro fuel
  induction fuel with
  | zero => intro taken col prev; simp [overflowGo]
  | succ f ih =>
    intro taken col prev
    unfold overflowGo
    by_cases h1 : taken < n
    · rw [if_pos h1]
      apply ite_snd_prop (fun x => taken ≤ x)
      · apply ite_snd_prop (fun x => taken ≤ x) <;> simp
      · exact le_trans (Nat.le_succ taken) (ih (taken + 1) _ _)
    · rw [if_neg h1]

theorem overflowGo_taken_le_n (tokens : List (List Char)) (n W_eff : Nat) :
    ∀ (fuel taken col : Nat) (prev : List Char), taken ≤ n →
      (overflowGo tokens n W_eff fuel taken col prev).2 ≤ n := by
  intro fuel
  induction fuel with
  | zero => intro taken col prev h; simpa [overflowGo] using h
  | succ f ih =>
    intro taken col prev h
    unfold overflowGo
    by_cases h1 : taken < n
    · rw [if_pos h1]
      apply ite_snd_prop (fun x => x ≤ n)
      · apply ite_snd_prop (fun x => x ≤ n) <;> simp <;> omega
      · exact ih (taken + 1) _ _ (by omega)
    · rw [if_neg h1]; exact h

theorem overflowGo_consumes (tokens : List (List Char)) (n W_eff : Nat)
    (fuel taken : Nat) (prev : List Char) (hf : 1 ≤ fuel) (ht : taken < n) :
    taken + 1 ≤ (overflowGo tokens n W_eff fuel taken 0 prev).2 := by
  obtain ⟨f, rfl⟩ : ∃ f, fuel = f + 1 := ⟨fuel - 1, by omega⟩
  unfold overflowGo
  rw [if_pos ht]
  apply ite_snd_prop (fun x => taken + 1 ≤ x)
  · rw [if_pos rfl]
  · exact overflowGo_taken_le tokens n W_eff f (taken + 1) _ _

/-- Any state produced by `bestScan` is the initial `(0, 0, 0)` or a
member of the scanned list. -/
theorem bestScan_mem (dp : Nat → Nat → Nat → Int) (l : List (Nat × Nat × Nat)) :
    (bestScan dp l).2 = (0, 0, 0) ∨ (bestScan dp l).2 ∈ l := by
  have key : ∀ (l : List (Nat × Nat × Nat)) (init : Int × (Nat × Nat × Nat)),
      (l.foldl (fun acc p =>
        if dp p.1 p.2.1 p.2.2 > acc.1 then (dp p.1 p.2.1 p.2.2, p) else acc)
        init).2 = init.2 ∨
      (l.foldl (fun acc p =>
        if dp p.1 p.2.1 p.2.2 > acc.1 then (dp p.1 p.2.1 p.2.2, p) else acc)
        init).2 ∈ l := by
    intro l
    induction l with
    | nil => intro init; simp
    | cons p t ih =>
      intro init
      simp only [List.foldl_cons]
      rcases ih (if dp p.1 p.2.1 p.2.2 > init.1 then (dp p.1 p.2.1 p.2.2, p) else init) with h | h
      · by_cases hc : dp p.1 p.2.1 p.2.2 > init.1
        · right; rw [h]; simp [hc]
        · left; rw [h]; simp [hc]
      · right; exact List.mem_cons_of_mem p h
  exact key l _

/-- A state returned by `scanAtJ` carries the scanned `j` and sits in
the scanned window. -/
theorem scanAtJ_mem (ctx : RowCtx) (dp : Nat → Nat → Nat → Int) (j : Nat)
    (threshold : Int) (c : Nat × Nat × Nat)
    (h : scanAtJ ctx dp j threshold = some c) :
    c.2.1 = j := by
  unfold scanAtJ at h
  set l := ((List.range' ctx.iStart (ctx.WB - ctx.iStart)).flatMap fun i =>
      (List.range 4).map fun k => (i, k)) with hl
  have key : ∀ (l : List (Nat × Nat)) (acc : Int × (Nat × Nat × Nat)),
      acc.2.2.1 = j ∨ acc = (NEG_INF, (0, 0, 0)) →
      (l.foldl (fun acc q =>
        if dp q.1 j q.2 ≥ threshold ∧ dp q.1 j q.2 > acc.1 then
          (dp q.1 j q.2, (q.1, j, q.2)) else acc) acc).2.2.1 = j ∨
      (l.foldl (fun acc q =>
        if dp q.1 j q.2 ≥ threshold ∧ dp q.1 j q.2 > acc.1 then
          (dp q.1 j q.2, (q.1, j, q.2)) else acc) acc) = (NEG_INF, (0, 0, 0)) := by
    intro l
    induction l with
    | nil => intro acc hacc; exact hacc
    | cons q t ih =>
      intro acc hacc
      simp only [List.foldl_cons]
      apply ih
      by_cases hc : dp q.1 j q.2 ≥ threshold ∧ dp q.1 j q.2 > acc.1
      · left; simp [hc]
      · rcases hacc with h1 | h1
        · left; simpa [hc] using h1
        · right; simpa [hc] using h1
  rcases key l (NEG_INF, (0, 0, 0)) (Or.inr rfl) with hk | hk
  · by_cases hz : (l.foldl (fun acc q =>
        if dp q.1 j q.2 ≥ threshold ∧ dp q.1 j q.2 > acc.1 then
          (dp q.1 j q.2, (q.1, j, q.2)) else acc) (NEG_INF, (0, 0, 0))).1 = NEG_INF
    · rw [if_pos hz] at h; exact absurd h (by simp)
    · rw [if_neg hz] at h
      rw [← (Option.some.injEq _ _).mp h]
      exact hk
  · rw [hk] at h
    simp at h

/-- Every state in a selection window consumes at most
`min(W_BOUND - 1, tokens_left)` tokens. -/
theorem windowStates_j_le (ctx : RowCtx) (jLo : Nat) (p : Nat × Nat × Nat)
    (h : p ∈ windowStates ctx jLo) : p.2.1 ≤ ctx.maxJ := by
  unfold windowStates at h
  simp only [List.mem_flatMap, List.mem_map, List.mem_range'] at h
  obtain ⟨i, _, j, hj, k, _, rfl⟩ := h
  simp only
  omega

theorem firstSome_none {α β : Type _} (f : α → Option β) :
    ∀ (l : List α), firstSome f l = none → ∀ x ∈ l, f x = none := by
  intro l
  induction l with
  | nil => intro h x hx; simp at hx
  | cons y r ih =>
    intro h x hx
    unfold firstSome at h
    rcases hfy : f y with - | c
    · simp only [hfy] at h
      rcases List.mem_cons.mp hx with rfl | hx2
      · exact hfy
      · exact ih h x hx2
    · simp only [hfy] at h
      exact absurd h (by simp)

theorem firstSome_some {α β : Type _} (f : α → Option β) :
    ∀ (l : List α) (c : β), firstSome f l = some c →
      ∃ x ∈ l, f x = some c := by
  intro l
  induction l with
  | nil => intro c h; simp [firstSome] at h
  | cons y r ih =>
    intro c h
    unfold firstSome at h
    rcases hfy : f y with - | d
    · simp only [hfy] at h
      obtain ⟨x, hx, hfx⟩ := ih c h
      exact ⟨x, List.mem_cons_of_mem y hx, hfx⟩
    · simp only [hfy] at h
      exact ⟨y, List.mem_cons_self y r, by rw [hfy, h]⟩

/-- The `j` returned by `chooseTier` stays within the window. -/
theorem chooseTier_j_le (ctx : RowCtx) (dp : Nat → Nat → Nat → Int)
    (minTok : Nat) : (chooseTier ctx dp minTok).2.1 ≤ ctx.maxJ := by
  unfold chooseTier
  dsimp only
  cases hfold : firstSome (fun j => scanAtJ ctx dp j
      ((bestScan dp (windowStates ctx minTok)).1 - (ctx.SR : Int)))
      ((List.range' minTok (ctx.maxJ + 1 - minTok)).reverse) with
  | none =>
    simp only [hfold]
    rcases bestScan_mem dp (windowStates ctx minTok) with h | h
    · rw [h]; simp
    · exact windowStates_j_le ctx minTok _ h
  | some c =>
    simp only [hfold]
    obtain ⟨j2, hj2, hscan⟩ := firstSome_some _ _ c hfold
    have hscan2 : scanAtJ ctx dp j2
        ((bestScan dp (windowStates ctx minTok)).1 - (ctx.SR : Int))
        = some c := hscan
    rw [scanAtJ_mem ctx dp j2 _ c hscan2]
    simp only [List.mem_reverse, List.mem_range'] at hj2
    omega

/-- The `j` returned by `selectState` stays within the window, hence is
at most `tokens_left`. -/
theorem selectState_j_le (ctx : RowCtx) (dp : Nat → Nat → Nat → Int) :
    (selectState ctx dp).2.1 ≤ ctx.maxJ := by
  unfold selectState
  dsimp only
  cases hfold : firstSome (fun m =>
      if (windowStates ctx m).any
          (fun p => decide (dp p.1 p.2.1 p.2.2 ≠ NEG_INF)) then
        some (chooseTier ctx dp m)
      else none) ((List.range (min MN_TOKENS ctx.tl + 1)).reverse) with
  | none =>
    simp only [hfold]
    rcases bestScan_mem dp (windowStates ctx 0) with h | h
    · rw [h]; simp
    · exact windowStates_j_le ctx 0 _ h
  | some c =>
    simp only [hfold]
    obtain ⟨m, hm, hfm⟩ := firstSome_some _ _ c hfold
    have hfm2 : (if (windowStates ctx m).any
        (fun p => decide (dp p.1 p.2.1 p.2.2 ≠ NEG_INF)) then
          some (chooseTier ctx dp m)
        else none) = some c := hfm
    by_cases hany : (windowStates ctx m).any
        (fun p => decide (dp p.1 p.2.1 p.2.2 ≠ NEG_INF)) = true
    · rw [if_pos hany] at hfm2
      rw [← (Option.some.injEq _ _).mp hfm2]
      exact chooseTier_j_le ctx dp m
    · rw [if_neg hany] at hfm2
      exact absurd hfm2 (by simp)

theorem loopStep_none_iff (P : LoopPar) (st : LoopSt) :
    loopStep P st = none ↔ (P.n ≤ st.taken ∧ P.H ≤ st.row) := by
  unfold loopStep
  by_cases h : st.taken < P.n ∨ st.row < P.H
  · rw [if_pos h]
    simp only [reduceCtorEq, false_iff]
    omega
  · rw [if_neg h]
    simp only [true_iff]
    omega

/-- The image-row branch consumes the selected `j`, which is at most
`tokens_left`; the overflow branch only advances `taken`. -/
theorem loopStep_mono (P : LoopPar) (st : LoopSt) (r : RowRec) (st' : LoopSt)
    (h : loopStep P st = some (r, st')) :
    st.taken ≤ st'.taken ∧ st'.row = st.row + 1 := by
  unfold loopStep at h
  by_cases hc : st.taken < P.n ∨ st.row < P.H
  · rw [if_pos hc] at h
    by_cases hr : P.H ≤ st.row
    · rw [if_pos hr] at h
      obtain ⟨-, h2⟩ := Prod.mk.injEq .. ▸ (Option.some.injEq _ _).mp h
      rw [← h2]
      exact ⟨overflowGo_taken_le _ _ _ _ _ _ _, rfl⟩
    · rw [if_neg hr] at h
      obtain ⟨-, h2⟩ := Prod.mk.injEq .. ▸ (Option.some.injEq _ _).mp h
      rw [← h2]
      exact ⟨Nat.le_add_right _ _, rfl⟩
  · rw [if_neg hc] at h
    exact absurd h (by simp)

theorem loopStep_overflow_consumes (P : LoopPar) (st : LoopSt) (r : RowRec)
    (st' : LoopSt) (h : loopStep P st = some (r, st')) (hr : P.H ≤ st.row) :
    st.taken + 1 ≤ st'.taken := by
  unfold loopStep at h
  by_cases hc : st.taken < P.n ∨ st.row < P.H
  · rw [if_pos hc] at h
    rw [if_pos hr] at h
    obtain ⟨-, h2⟩ := Prod.mk.injEq .. ▸ (Option.some.injEq _ _).mp h
    rw [← h2]
    have ht : st.taken < P.n := by omega
    exact overflowGo_consumes _ _ _ _ _ _ (by omega) ht
  · rw [if_neg hc] at h
    exact absurd h (by simp)

theorem loopStep_taken_le_n (P : LoopPar) (st : LoopSt) (r : RowRec)
    (st' : LoopSt) (h : loopStep P st = some (r, st'))
    (hn : st.taken ≤ P.n) : st'.taken ≤ P.n := by
  unfold loopStep at h
  by_cases hc : st.taken < P.n ∨ st.row < P.H
  · rw [if_pos hc] at h
    by_cases hr : P.H ≤ st.row
    · rw [if_pos hr] at h
      obtain ⟨-, h2⟩ := Prod.mk.injEq .. ▸ (Option.some.injEq _ _).mp h
      rw [← h2]
      exact overflowGo_taken_le_n _ _ _ _ _ _ _ hn
    · rw [if_neg hr] at h
      obtain ⟨-, h2⟩ := Prod.mk.injEq .. ▸ (Option.some.injEq _ _).mp h
      rw [← h2]
      have hj := selectState_j_le (mkRowCtx P st)
        (dpFill (mkRowCtx P st) st.rng).dp
      have : (mkRowCtx P st).maxJ ≤ (mkRowCtx P st).tl := min_le_right _ _
      have htl : (mkRowCtx P st).tl = P.n - st.taken := rfl
      simp only [imageRow]
      omega
  · rw [if_neg hc] at h
    exact absurd h (by simp)

/-- Each iteration strictly decreases `(n - taken) + (H - row)`. -/
theorem loopStep_measure (P : LoopPar) (st : LoopSt) (r : RowRec) (st' : LoopSt)
    (h : loopStep P st = some (r, st')) :
    (P.n - st'.taken) + (P.H - st'.row) < (P.n - st.taken) + (P.H - st.row) := by
  obtain ⟨h1, h2⟩ := loopStep_mono P st r st' h
  have hcond : st.taken < P.n ∨ st.row < P.H := by
    by_contra hc
    rw [(loopStep_none_iff P st).mpr (by omega)] at h
    exact absurd h (by simp)
  by_cases hr : P.H ≤ st.row
  · have := loopStep_overflow_consumes P st r st' h hr
    omega
  · omega

theorem loopGo_complete (P : LoopPar) :
    ∀ (fuel : Nat) (st : LoopSt), (P.n - st.taken) + (P.H - st.row) < fuel →
      (loopGo P fuel st).2.2 = true ∧
      P.n ≤ (loopGo P fuel st).2.1.taken ∧ P.H ≤ (loopGo P fuel st).2.1.row := by
  intro fuel
  induction fuel with
  | zero => intro st h; omega
  | succ f ih =>
    intro st h
    unfold loopGo
    cases hstep : loopStep P st with
    | none =>
      have := (loopStep_none_iff P st).mp hstep
      exact ⟨rfl, this.1, this.2⟩
    | some p =>
      obtain ⟨r, st'⟩ := p
      have hm := loopStep_measure P st r st' hstep
      exact ih st' (by omega)

theorem loopGo_taken_le_n (P : LoopPar) :
    ∀ (fuel : Nat) (st : LoopSt), st.taken ≤ P.n →
      (loopGo P fuel st).2.1.taken ≤ P.n := by
  intro fuel
  induction fuel with
  | zero => intro st h; exact h
  | succ f ih =>
    intro st h
    unfold loopGo
    cases hstep : loopStep P st with
    | none => exact h
    | some p =>
      obtain ⟨r, st'⟩ := p
      exact ih st' (loopStep_taken_le_n P st r st' hstep h)

/-! ### Claim C7 -/

/-- **C7.**  `convert_layout` terminates for every token list and
density grid: (1) the emission loop run with fuel `n + H + 1` completes,
and its final cursor satisfies `taken = |tokens|` and `row ≥ H` — the
loop ends exactly at its exit condition, characterized in (4);
(2) across any iteration the cursor `(row, taken)` is monotonically
non-decreasing (`row` increases by exactly one); (3) an overflow line
emitted while tokens remain consumes at least one token. -/
theorem C7_layout_loop_terminates :
    (∀ (tokens : List (List Char)) (W H : Nat) (td : List (List ℚ))
        (dm : List ℚ) (g : Rng),
      (convert_layout_run tokens W H td dm g).2.2 = true ∧
      (convert_layout_run tokens W H td dm g).2.1.taken = tokens.length ∧
      H ≤ (convert_layout_run tokens W H td dm g).2.1.row) ∧
    (∀ (P : LoopPar) (st : LoopSt) (r : RowRec) (st' : LoopSt),
      loopStep P st = some (r, st') →
      st.taken ≤ st'.taken ∧ st'.row = st.row + 1) ∧
    (∀ (P : LoopPar) (st : LoopSt) (r : RowRec) (st' : LoopSt),
      loopStep P st = some (r, st') → P.H ≤ st.row →
      st.taken + 1 ≤ st'.taken) ∧
    (∀ (P : LoopPar) (st : LoopSt),
      loopStep P st = none ↔ (P.n ≤ st.taken ∧ P.H ≤ st.row)) := by
  refine ⟨?_, loopStep_mono, loopStep_overflow_consumes, loopStep_none_iff⟩
  intro tokens W H td dm g
  have hn : (layoutParams tokens W H td dm).n = tokens.length := rfl
  have hH : (layoutParams tokens W H td dm).H = H := rfl
  have hc := loopGo_complete (layoutParams tokens W H td dm)
    (tokens.length + H + 1) ⟨0, 0, g⟩ (by simp only [hn, hH]; omega)
  have hle := loopGo_taken_le_n (layoutParams tokens W H td dm)
    (tokens.length + H + 1) ⟨0, 0, g⟩ (by simp [hn])
  refine ⟨hc.1, ?_, ?_⟩
  · have := hc.2.1
    rw [hn] at this
    unfold convert_layout_run
    omega
  · have := hc.2.2
    rw [hH] at this
    exact this

/-- Witness for C7: the loop on one token with `H = 0` completes, and
its single overflow step consumes the token. -/
theorem C7_layout_loop_terminates_witness :
    ((convert_layout_run [['a']] 5 0 [] [] ⟨fun _ => 0, 0⟩).2.2 = true ∧
      (convert_layout_run [['a']] 5 0 [] [] ⟨fun _ => 0, 0⟩).2.1.taken = 1 ∧
      0 ≤ (convert_layout_run [['a']] 5 0 [] [] ⟨fun _ => 0, 0⟩).2.1.row) ∧
    (0 : Nat) + 1 ≤ 1 := by
  constructor
  · exact C7_layout_loop_terminates.1 [['a']] 5 0 [] [] ⟨fun _ => 0, 0⟩
  · exact C7_layout_loop_terminates.2.2.1 ⟨[['a']], 5, 0, [], []⟩
      ⟨0, 0, ⟨fun _ => 0, 0⟩⟩ (RowRec.overflow [Seg.tok ['a']])
      ⟨1, 1, ⟨fun _ => 0, 1⟩⟩ rfl (by simp)

/-! ### The row DP: iteration order, monotonicity, and post-fold
transition bounds.

The DP table is filled by the triple loop `posList` in strictly
increasing lexicographic state order, and every relaxation writes only
to states strictly above the one being processed.  Consequently a
state's value is frozen once its position is processed, and the final
table satisfies every transition inequality. -/

/-- Strict lexicographic order on DP states `(i, j, k)`. -/
def lexLt (a b : Nat × Nat × Nat) : Prop :=
  a.1 < b.1 ∨ (a.1 = b.1 ∧ (a.2.1 < b.2.1 ∨ (a.2.1 = b.2.1 ∧ a.2.2 < b.2.2)))

theorem lexLt_asymm {a b : Nat × Nat × Nat} (h : lexLt a b) : ¬ lexLt b a := by
  obtain ⟨a1, a2, a3⟩ := a
  obtain ⟨b1, b2, b3⟩ := b
  unfold lexLt at *
  dsimp only at *
  omega

theorem lexLt_irrefl (a : Nat × Nat × Nat) : ¬ lexLt a a := by
  obtain ⟨a1, a2, a3⟩ := a
  unfold lexLt
  dsimp only
  omega

theorem ite_prop {α : Sort _} (P : α → Prop) {c : Prop} [Decidable c]
    {A B : α} (hA : P A) (hB : P B) : P (if c then A else B) := by
  split <;> assumption

/-- The dp table of a `relax`: overwritten at the target when the
candidate strictly improves, untouched otherwise. -/
theorem relax_dp (s : FillSt) (ti tj tk pi pj pk : Nat) (cand : Int) :
    (relax s ti tj tk pi pj pk cand).dp =
      if cand > s.dp ti tj tk then
        (fun a b c => if a = ti ∧ b = tj ∧ c = tk then cand else s.dp a b c)
      else s.dp := by
  by_cases h1 : cand > s.dp ti tj tk
  · rw [if_pos h1]; unfold relax; rw [if_pos h1]
  · rw [if_neg h1]; unfold relax; rw [if_neg h1]
    by_cases h2 : cand = s.dp ti tj tk ∧ s.dp ti tj tk ≠ NEG_INF
    · rw [if_pos h2]
      exact ite_prop (fun x : FillSt => x.dp = s.dp) rfl rfl
    · rw [if_neg h2]

/-- The bp table of a `relax`: either untouched, or overwritten at the
target with exactly the supplied predecessor. -/
theorem relax_bp (s : FillSt) (ti tj tk pi pj pk : Nat) (cand : Int) :
    (relax s ti tj tk pi pj pk cand).bp = s.bp ∨
      (relax s ti tj tk pi pj pk cand).bp = fun a b c =>
        if a = ti ∧ b = tj ∧ c = tk then ((pi : Int), (pj : Int), (pk : Int))
        else s.bp a b c := by
  by_cases h1 : cand > s.dp ti tj tk
  · right; unfold relax; rw [if_pos h1]
  · unfold relax; rw [if_neg h1]
    by_cases h2 : cand = s.dp ti tj tk ∧ s.dp ti tj tk ≠ NEG_INF
    · rw [if_pos h2]
      refine ite_prop (fun x : FillSt => x.bp = s.bp ∨ x.bp = fun a b c =>
        if a = ti ∧ b = tj ∧ c = tk then ((pi : Int), (pj : Int), (pk : Int))
        else s.bp a b c) ?_ ?_
      · right; rfl
      · left; rfl
    · left; rw [if_neg h2]

theorem relax_dp_mono (s : FillSt) (ti tj tk pi pj pk : Nat) (cand : Int)
    (a b c : Nat) : s.dp a b c ≤ (relax s ti tj tk pi pj pk cand).dp a b c := by
  rw [relax_dp]
  by_cases h1 : cand > s.dp ti tj tk
  · rw [if_pos h1]
    by_cases h : a = ti ∧ b = tj ∧ c = tk
    · simp only [if_pos h]
      obtain ⟨rfl, rfl, rfl⟩ := h
      exact le_of_lt h1
    · simp only [if_neg h]
      exact le_refl _
  · rw [if_neg h1]

theorem relax_dp_target_ge (s : FillSt) (ti tj tk pi pj pk : Nat)
    (cand : Int) : cand ≤ (relax s ti tj tk pi pj pk cand).dp ti tj tk := by
  rw [relax_dp]
  by_cases h1 : cand > s.dp ti tj tk
  · rw [if_pos h1]
    simp
  · rw [if_neg h1]
    omega

theorem relax_dp_of_ne (s : FillSt) (ti tj tk pi pj pk : Nat) (cand : Int)
    (a b c : Nat) (h : ¬(a = ti ∧ b = tj ∧ c = tk)) :
    (relax s ti tj tk pi pj pk cand).dp a b c = s.dp a b c := by
  rw [relax_dp]
  refine ite_prop (fun f : Nat → Nat → Nat → Int => f a b c = s.dp a b c) ?_ rfl
  simp only [if_neg h]

theorem relax_bp_of_ne (s : FillSt) (ti tj tk pi pj pk : Nat) (cand : Int)
    (a b c : Nat) (h : ¬(a = ti ∧ b = tj ∧ c = tk)) :
    (relax s ti tj tk pi pj pk cand).bp a b c = s.bp a b c := by
  rcases relax_bp s ti tj tk pi pj pk cand with h2 | h2 <;> rw [h2]
  simp only [if_neg h]

/-- Monotonicity of the comment-transition fold. -/
theorem commentFold_dp_mono (ctx : RowCtx) (i j k : Nat) (cur : Int) :
    ∀ (l : List Nat) (s : FillSt) (a b c : Nat),
      s.dp a b c ≤ (l.foldl (fun t L =>
        relax t (i + L) j 1 i j k (cur + ctx.comment_score i L)) s).dp a b c := by
  intro l
  induction l with
  | nil => intro s a b c; exact le_refl _
  | cons L r ih =>
    intro s a b c
    exact le_trans (relax_dp_mono s (i + L) j 1 i j k _ a b c) (ih _ a b c)

theorem commentFold_untouched (ctx : RowCtx) (i j k : Nat) (cur : Int) :
    ∀ (l : List Nat) (s : FillSt) (a b c : Nat),
      (∀ L ∈ l, ¬(a = i + L ∧ b = j ∧ c = 1)) →
      ((l.foldl (fun t L =>
          relax t (i + L) j 1 i j k (cur + ctx.comment_score i L)) s).dp a b c
            = s.dp a b c ∧
       (l.foldl (fun t L =>
          relax t (i + L) j 1 i j k (cur + ctx.comment_score i L)) s).bp a b c
            = s.bp a b c) := by
  intro l
  induction l with
  | nil => intro s a b c _; exact ⟨rfl, rfl⟩
  | cons L r ih =>
    intro s a b c h
    have h1 := h L (List.mem_cons_self L r)
    have h2 := ih (relax s (i + L) j 1 i j k (cur + ctx.comment_score i L)) a b c
      (fun L2 hL2 => h L2 (List.mem_cons_of_mem L hL2))
    rw [List.foldl_cons, h2.1, h2.2, relax_dp_of_ne _ _ _ _ _ _ _ _ a b c h1,
      relax_bp_of_ne _ _ _ _ _ _ _ _ a b c h1]
    exact ⟨rfl, rfl⟩

theorem commentLens_ge (ctx : RowCtx) (i L : Nat) (h : L ∈ commentLens ctx i) :
    4 ≤ L := by
  unfold commentLens at h
  exact (List.mem_range'_1.mp h).1

/-- `doTrans` never decreases a dp entry. -/
theorem doTrans_dp_mono (ctx : RowCtx) (p : Nat × Nat × Nat) (s : FillSt)
    (a b c : Nat) : s.dp a b c ≤ (doTrans ctx p s).dp a b c := by
  obtain ⟨i, j, k⟩ := p
  unfold doTrans
  dsimp only
  by_cases hcur : s.dp i j k = NEG_INF
  · rw [if_pos hcur]
  · rw [if_neg hcur]
    have h1 : s.dp a b c ≤ ((commentLens ctx i).foldl (fun t L =>
        relax t (i + L) j 1 i j k (s.dp i j k + ctx.comment_score i L))
        (if i + 1 < ctx.WB then
          relax s (i + 1) j 0 i j k (s.dp i j k + ctx.score_char i ' ')
        else s)).dp a b c := by
      refine le_trans ?_ (commentFold_dp_mono ctx i j k _ _ _ a b c)
      exact ite_prop (fun x : FillSt => s.dp a b c ≤ x.dp a b c)
        (relax_dp_mono s (i + 1) j 0 i j k _ a b c) (le_refl _)
    refine ite_prop (fun x : FillSt => s.dp a b c ≤ x.dp a b c) ?_ h1
    refine ite_prop (fun x : FillSt => s.dp a b c ≤ x.dp a b c) ?_ h1
    exact le_trans h1 (relax_dp_mono _ _ _ _ i j k _ a b c)

/-- Every write of `doTrans` at `p` goes to a state strictly above `p`:
states at or below `p` keep both their dp value and their back-pointer. -/
theorem doTrans_untouched (ctx : RowCtx) (p : Nat × Nat × Nat) (s : FillSt)
    (a b c : Nat) (h : ¬ lexLt p (a, b, c)) :
    (doTrans ctx p s).dp a b c = s.dp a b c ∧
      (doTrans ctx p s).bp a b c = s.bp a b c := by
  obtain ⟨i, j, k⟩ := p
  unfold lexLt at h
  dsimp only at h
  unfold doTrans
  dsimp only
  by_cases hcur : s.dp i j k = NEG_INF
  · rw [if_pos hcur]; exact ⟨rfl, rfl⟩
  · rw [if_neg hcur]
    have hsp : ¬(a = i + 1 ∧ b = j ∧ c = 0) := by omega
    have hs1 : ∀ s2 : FillSt,
        ((if i + 1 < ctx.WB then
          relax s2 (i + 1) j 0 i j k (s.dp i j k + ctx.score_char i ' ')
         else s2).dp a b c = s2.dp a b c ∧
         (if i + 1 < ctx.WB then
          relax s2 (i + 1) j 0 i j k (s.dp i j k + ctx.score_char i ' ')
         else s2).bp a b c = s2.bp a b c) := by
      intro s2
      refine ite_prop (fun x : FillSt => x.dp a b c = s2.dp a b c ∧
        x.bp a b c = s2.bp a b c) ?_ ⟨rfl, rfl⟩
      exact ⟨relax_dp_of_ne _ _ _ _ _ _ _ _ a b c hsp,
        relax_bp_of_ne _ _ _ _ _ _ _ _ a b c hsp⟩
    have hcm : ∀ s2 : FillSt,
        (((commentLens ctx i).foldl (fun t L =>
            relax t (i + L) j 1 i j k (s.dp i j k + ctx.comment_score i L))
            s2).dp a b c = s2.dp a b c ∧
         ((commentLens ctx i).foldl (fun t L =>
            relax t (i + L) j 1 i j k (s.dp i j k + ctx.comment_score i L))
            s2).bp a b c = s2.bp a b c) := by
      intro s2
      refine commentFold_untouched ctx i j k _ (commentLens ctx i) s2 a b c ?_
      intro L hL
      have := commentLens_ge ctx i L hL
      omega
    have htk : ¬(a = i + (ctx.tokens.getD (ctx.taken + j) []).length ∧
        b = j + 1 ∧ c = (if (if j ≤ ctx.maxJ then ctx.needSep j else false)
          then 2 else 3)) := by
      rintro ⟨ha, hb, -⟩
      omega
    have hs2 : ((commentLens ctx i).foldl (fun t L =>
        relax t (i + L) j 1 i j k (s.dp i j k + ctx.comment_score i L))
        (if i + 1 < ctx.WB then
          relax s (i + 1) j 0 i j k (s.dp i j k + ctx.score_char i ' ')
        else s)).dp a b c = s.dp a b c ∧
        ((commentLens ctx i).foldl (fun t L =>
        relax t (i + L) j 1 i j k (s.dp i j k + ctx.comment_score i L))
        (if i + 1 < ctx.WB then
          relax s (i + 1) j 0 i j k (s.dp i j k + ctx.score_char i ' ')
        else s)).bp a b c = s.bp a b c := by
      constructor
      · rw [(hcm _).1, (hs1 s).1]
      · rw [(hcm _).2, (hs1 s).2]
    refine ite_prop (fun x : FillSt => x.dp a b c = s.dp a b c ∧
      x.bp a b c = s.bp a b c) ?_ hs2
    refine ite_prop (fun x : FillSt => x.dp a b c = s.dp a b c ∧
      x.bp a b c = s.bp a b c) ?_ hs2
    constructor
    · rw [relax_dp_of_ne _ _ _ _ _ _ _ _ a b c htk]
      exact hs2.1
    · rw [relax_bp_of_ne _ _ _ _ _ _ _ _ a b c htk]
      exact hs2.2

theorem foldl_doTrans_mono (ctx : RowCtx) :
    ∀ (l : List (Nat × Nat × Nat)) (s : FillSt) (a b c : Nat),
      s.dp a b c ≤ (l.foldl (fun t p => doTrans ctx p t) s).dp a b c := by
  intro l
  induction l with
  | nil => intro s a b c; exact le_refl _
  | cons p r ih =>
    intro s a b c
    exact le_trans (doTrans_dp_mono ctx p s a b c) (ih _ a b c)

theorem foldl_doTrans_untouched (ctx : RowCtx) (q : Nat × Nat × Nat) :
    ∀ (l : List (Nat × Nat × Nat)) (s : FillSt), (∀ p ∈ l, ¬ lexLt p q) →
      ((l.foldl (fun t p => doTrans ctx p t) s).dp q.1 q.2.1 q.2.2
          = s.dp q.1 q.2.1 q.2.2 ∧
       (l.foldl (fun t p => doTrans ctx p t) s).bp q.1 q.2.1 q.2.2
          = s.bp q.1 q.2.1 q.2.2) := by
  intro l
  induction l with
  | nil => intro s _; exact ⟨rfl, rfl⟩
  | cons p r ih =>
    intro s h
    have h2 := ih (doTrans ctx p s) (fun p2 hp2 => h p2 (List.mem_cons_of_mem p hp2))
    have h1 := doTrans_untouched ctx p s q.1 q.2.1 q.2.2
      (by have := h p (List.mem_cons_self p r); simpa using this)
    rw [List.foldl_cons, h2.1, h2.2, h1.1, h1.2]
    exact ⟨rfl, rfl⟩

/-- `posList` enumerates the states in strictly increasing
lexicographic order. -/
theorem posList_pairwise (ctx : RowCtx) : List.Pairwise lexLt (posList ctx) := by
  unfold posList
  rw [List.pairwise_flatMap]
  constructor
  · intro i _
    rw [List.pairwise_flatMap]
    constructor
    · intro j _
      rw [List.pairwise_map]
      exact (List.pairwise_lt_range 4).imp
        (fun h => Or.inr ⟨rfl, Or.inr ⟨rfl, h⟩⟩)
    · refine (List.pairwise_lt_range _).imp ?_
      intro j1 j2 hj x hx y hy
      simp only [List.mem_map, List.mem_range] at hx hy
      obtain ⟨k1, -, rfl⟩ := hx
      obtain ⟨k2, -, rfl⟩ := hy
      exact Or.inr ⟨rfl, Or.inl hj⟩
  · refine (List.pairwise_lt_range _).imp ?_
    intro i1 i2 hi x hx y hy
    simp only [List.mem_flatMap, List.mem_map, List.mem_range] at hx hy
    obtain ⟨j1, -, k1, -, rfl⟩ := hx
    obtain ⟨j2, -, k2, -, rfl⟩ := hy
    exact Or.inl hi

theorem posList_mem (ctx : RowCtx) (i j k : Nat) :
    (i, j, k) ∈ posList ctx ↔ i < ctx.WB ∧ j ≤ min i ctx.tl ∧ k < 4 := by
  unfold posList
  simp only [List.mem_flatMap, List.mem_map, List.mem_range]
  constructor
  · rintro ⟨i1, hi1, j1, hj1, k1, hk1, he⟩
    simp only [Prod.mk.injEq] at he
    obtain ⟨rfl, rfl, rfl⟩ := he
    omega
  · rintro ⟨hi, hj, hk⟩
    exact ⟨i, hi, j, by omega, k, hk, rfl⟩

/-- The fold-splitting principle: the final table agrees at `p` with the
table at the moment `p` was processed, and dominates everything the
processing of `p` wrote. -/
theorem dpFill_step (ctx : RowCtx) (rng : Rng) (p : Nat × Nat × Nat)
    (hmem : p ∈ posList ctx) :
    ∃ s : FillSt,
      (dpFill ctx rng).dp p.1 p.2.1 p.2.2 = s.dp p.1 p.2.1 p.2.2 ∧
      (∀ a b c, (doTrans ctx p s).dp a b c ≤ (dpFill ctx rng).dp a b c) := by
  obtain ⟨l1, l2, hsplit⟩ := List.append_of_mem hmem
  have hpw := posList_pairwise ctx
  rw [hsplit] at hpw
  have hl2 : ∀ q ∈ l2, lexLt p q :=
    (List.pairwise_cons.mp (List.pairwise_append.mp hpw).2.1).1
  refine ⟨l1.foldl (fun t q => doTrans ctx q t) (initFill rng), ?_, ?_⟩
  · unfold dpFill
    rw [hsplit, List.foldl_append, List.foldl_cons]
    have hst := foldl_doTrans_untouched ctx p l2
      (doTrans ctx p (l1.foldl (fun t q => doTrans ctx q t) (initFill rng)))
      (fun q hq => lexLt_asymm (hl2 q hq))
    rw [hst.1]
    exact (doTrans_untouched ctx p _ p.1 p.2.1 p.2.2
      (by simpa using lexLt_irrefl p)).1
  · intro a b c
    unfold dpFill
    rw [hsplit, List.foldl_append, List.foldl_cons]
    exact foldl_doTrans_mono ctx l2 _ a b c

/-- The origin keeps its initial value `0` through the whole fill. -/
theorem dpFill_origin (ctx : RowCtx) (rng : Rng) :
    (dpFill ctx rng).dp 0 0 0 = 0 := by
  unfold dpFill
  have h := foldl_doTrans_untouched ctx (0, 0, 0) (posList ctx) (initFill rng)
    (fun p _ => by
      obtain ⟨p1, p2, p3⟩ := p
      unfold lexLt
      dsimp only
      omega)
  rw [h.1]
  simp [initFill]

theorem score_char_nonneg (ctx : RowCtx) (col : Nat) (ch : Char) :
    0 ≤ ctx.score_char col ch := by
  unfold RowCtx.score_char
  split <;> omega

theorem token_score_nonneg (ctx : RowCtx) :
    ∀ (i : Nat) (t : List Char), 0 ≤ ctx.token_score i t := by
  intro i t
  induction t generalizing i with
  | nil => exact le_refl _
  | cons c r ih =>
    unfold RowCtx.token_score
    have := score_char_nonneg ctx i c
    have := ih (i + 1)
    omega

theorem comment_score_nonneg (ctx : RowCtx) (i len : Nat) :
    0 ≤ ctx.comment_score i len := by
  unfold RowCtx.comment_score
  have h1 := score_char_nonneg ctx i '/'
  have h2 := score_char_nonneg ctx (i + 1) '*'
  have h3 := score_char_nonneg ctx (i + len - 2) '*'
  have h4 := score_char_nonneg ctx (i + len - 1) '/'
  split <;> omega

theorem NEG_INF_neg : NEG_INF < 0 := by decide

/-- Post-fold space-transition inequality. -/
theorem dpFill_space (ctx : RowCtx) (rng : Rng) (i j k : Nat)
    (hmem : (i, j, k) ∈ posList ctx) (hi : i + 1 < ctx.WB)
    (hfin : (dpFill ctx rng).dp i j k ≠ NEG_INF) :
    (dpFill ctx rng).dp i j k + ctx.score_char i ' '
      ≤ (dpFill ctx rng).dp (i + 1) j 0 := by
  obtain ⟨s, hval, hpush⟩ := dpFill_step ctx rng (i, j, k) hmem
  dsimp only at hval hpush
  rw [hval] at hfin ⊢
  refine le_trans ?_ (hpush (i + 1) j 0)
  unfold doTrans
  dsimp only
  rw [if_neg hfin, if_pos hi]
  have h1 : s.dp i j k + ctx.score_char i ' ' ≤ ((commentLens ctx i).foldl
      (fun t L => relax t (i + L) j 1 i j k (s.dp i j k + ctx.comment_score i L))
      (relax s (i + 1) j 0 i j k (s.dp i j k + ctx.score_char i ' '))).dp
        (i + 1) j 0 :=
    le_trans (relax_dp_target_ge s (i + 1) j 0 i j k _)
      (commentFold_dp_mono ctx i j k _ _ _ (i + 1) j 0)
  refine ite_prop (fun x : FillSt =>
    s.dp i j k + ctx.score_char i ' ' ≤ x.dp (i + 1) j 0) ?_ h1
  refine ite_prop (fun x : FillSt =>
    s.dp i j k + ctx.score_char i ' ' ≤ x.dp (i + 1) j 0) ?_ h1
  exact le_trans h1 (relax_dp_mono _ _ _ _ i j k _ (i + 1) j 0)

/-- Post-fold token-transition inequality.  The target's `k` is `2`
when the placed token requires separation from the next, `3` otherwise. -/
theorem dpFill_token (ctx : RowCtx) (rng : Rng) (i j k : Nat)
    (hmem : (i, j, k) ∈ posList ctx)
    (hj : j < ctx.tl) (hk : k ≠ 2)
    (hlen : i + (ctx.tokens.getD (ctx.taken + j) []).length < ctx.WB)
    (hfin : (dpFill ctx rng).dp i j k ≠ NEG_INF) :
    (dpFill ctx rng).dp i j k
        + ctx.token_score i (ctx.tokens.getD (ctx.taken + j) [])
      ≤ (dpFill ctx rng).dp (i + (ctx.tokens.getD (ctx.taken + j) []).length)
          (j + 1)
          (if (if j ≤ ctx.maxJ then ctx.needSep j else false) then 2 else 3) := by
  obtain ⟨s, hval, hpush⟩ := dpFill_step ctx rng (i, j, k) hmem
  dsimp only at hval hpush
  rw [hval] at hfin ⊢
  refine le_trans ?_ (hpush _ _ _)
  unfold doTrans
  dsimp only
  rw [if_neg hfin, if_pos (And.intro hj hk), if_pos hlen]
  exact relax_dp_target_ge _ _ _ _ i j k _

/-! ### The table invariant: finite values are nonnegative and every
finite non-origin state has a genuine back-pointer. -/

/-- The genuine-transition relation recorded by a back-pointer: target
`t` is reached from predecessor `p` by a space (`k = 0`), a comment of
length ≥ 4 (`k = 1`), or the `p.j`-th pending token (`k ∈ {2, 3}`,
with `k = 2` exactly when the token requires separation from the next). -/
def bpShape (ctx : RowCtx) (t p : Nat × Nat × Nat) : Prop :=
  (t.2.2 = 0 ∧ t.1 = p.1 + 1 ∧ t.2.1 = p.2.1) ∨
  (t.2.2 = 1 ∧ t.2.1 = p.2.1 ∧ p.1 + 4 ≤ t.1) ∨
  ((t.2.2 = 2 ∨ t.2.2 = 3) ∧ t.2.1 = p.2.1 + 1 ∧ p.2.1 < ctx.tl ∧
    t.1 = p.1 + (ctx.tokens.getD (ctx.taken + p.2.1) []).length ∧ p.2.2 ≠ 2 ∧
    (t.2.2 = 2 ↔ (p.2.1 ≤ ctx.maxJ ∧ ctx.needSep p.2.1 = true)))

/-- Validity of the dp/bp tables. -/
def dpInv (ctx : RowCtx) (s : FillSt) : Prop :=
  ∀ i j k : Nat, s.dp i j k ≠ NEG_INF →
    0 ≤ s.dp i j k ∧
    (¬(i = 0 ∧ j = 0 ∧ k = 0) →
      ∃ p : Nat × Nat × Nat,
        s.bp i j k = ((p.1 : Int), (p.2.1 : Int), (p.2.2 : Int)) ∧
        0 ≤ s.dp p.1 p.2.1 p.2.2 ∧ bpShape ctx (i, j, k) p)

theorem bpShape_target_ne_origin (ctx : RowCtx) (t p : Nat × Nat × Nat)
    (h : bpShape ctx t p) : ¬(t.1 = 0 ∧ t.2.1 = 0 ∧ t.2.2 = 0) := by
  rcases h with ⟨h1, h2, -⟩ | ⟨h1, -, -⟩ | ⟨h1, -, -, -, -, -⟩ <;> omega

theorem bpShape_pred_ne_target (ctx : RowCtx) (t p : Nat × Nat × Nat)
    (h : bpShape ctx t p) : ¬(p.1 = t.1 ∧ p.2.1 = t.2.1 ∧ p.2.2 = t.2.2) := by
  rcases h with ⟨-, h2, -⟩ | ⟨-, -, h3⟩ | ⟨-, h2, -, -, -, -⟩ <;> omega

theorem relax_dpInv (ctx : RowCtx) (s : FillSt) (hs : dpInv ctx s)
    (ti tj tk pi pj pk : Nat) (cand : Int)
    (hp : 0 ≤ s.dp pi pj pk) (hc : 0 ≤ cand)
    (hshape : bpShape ctx (ti, tj, tk) (pi, pj, pk)) :
    dpInv ctx (relax s ti tj tk pi pj pk cand) := by
  have hpt : ¬(pi = ti ∧ pj = tj ∧ pk = tk) :=
    bpShape_pred_ne_target ctx (ti, tj, tk) (pi, pj, pk) hshape
  intro a b c hfin
  unfold relax at hfin ⊢
  by_cases h1 : cand > s.dp ti tj tk
  · rw [if_pos h1] at hfin ⊢
    dsimp only at hfin ⊢
    by_cases ht : a = ti ∧ b = tj ∧ c = tk
    · rw [if_pos ht] at hfin ⊢
      refine ⟨hc, fun hnz => ⟨(pi, pj, pk), ?_, ?_, ?_⟩⟩
      · rw [if_pos ht]
      · dsimp only
        rw [if_neg hpt]
        exact hp
      · obtain ⟨rfl, rfl, rfl⟩ := ht
        exact hshape
    · rw [if_neg ht] at hfin ⊢
      obtain ⟨hge, hbp⟩ := hs a b c hfin
      refine ⟨hge, fun hnz => ?_⟩
      obtain ⟨q, hbq, hqd, hqs⟩ := hbp hnz
      refine ⟨q, ?_, ?_, hqs⟩
      · rw [if_neg ht]
        exact hbq
      · dsimp only
        split
        · exact hc
        · exact hqd
  · rw [if_neg h1] at hfin ⊢
    by_cases h2 : cand = s.dp ti tj tk ∧ s.dp ti tj tk ≠ NEG_INF
    · rw [if_pos h2] at hfin ⊢
      by_cases h3 : (s.rng.draw 2).1 = 1
      · rw [if_pos h3] at hfin ⊢
        dsimp only at hfin ⊢
        obtain ⟨hge, hbp⟩ := hs a b c hfin
        refine ⟨hge, fun hnz => ?_⟩
        by_cases ht : a = ti ∧ b = tj ∧ c = tk
        · refine ⟨(pi, pj, pk), ?_, hp, ?_⟩
          · rw [if_pos ht]
          · obtain ⟨rfl, rfl, rfl⟩ := ht
            exact hshape
        · obtain ⟨q, hbq, hqd, hqs⟩ := hbp hnz
          refine ⟨q, ?_, hqd, hqs⟩
          rw [if_neg ht]
          exact hbq
      · rw [if_neg h3] at hfin ⊢
        exact hs a b c hfin
    · rw [if_neg h2] at hfin ⊢
      exact hs a b c hfin

/-- The `k`-index written by a token transition is `2` exactly when the
placed token requires separation. -/
theorem token_nk_iff (ctx : RowCtx) (j : Nat) :
    ((if (if j ≤ ctx.maxJ then ctx.needSep j else false) then 2 else 3) = 2)
      ↔ (j ≤ ctx.maxJ ∧ ctx.needSep j = true) := by
  by_cases hjm : j ≤ ctx.maxJ
  · rw [if_pos hjm]
    by_cases hns : ctx.needSep j = true
    · rw [if_pos hns]
      exact ⟨fun _ => ⟨hjm, hns⟩, fun _ => rfl⟩
    · rw [if_neg hns]
      exact ⟨fun h => absurd h (by decide), fun h => absurd h.2 hns⟩
  · rw [if_neg hjm]
    rw [if_neg Bool.false_ne_true]
    exact ⟨fun h => absurd h (by decide), fun h => absurd h.1 hjm⟩

theorem doTrans_dpInv (ctx : RowCtx) (p : Nat × Nat × Nat) (s : FillSt)
    (hs : dpInv ctx s) : dpInv ctx (doTrans ctx p s) := by
  obtain ⟨i, j, k⟩ := p
  unfold doTrans
  dsimp only
  by_cases hcur : s.dp i j k = NEG_INF
  · rw [if_pos hcur]
    exact hs
  · rw [if_neg hcur]
    have hc0 : 0 ≤ s.dp i j k := (hs i j k hcur).1
    have hfold : ∀ (l : List Nat) (t : FillSt), dpInv ctx t →
        (∀ L ∈ l, 4 ≤ L) → 0 ≤ t.dp i j k →
        (dpInv ctx (l.foldl (fun t2 L =>
            relax t2 (i + L) j 1 i j k (s.dp i j k + ctx.comment_score i L)) t) ∧
         0 ≤ (l.foldl (fun t2 L =>
            relax t2 (i + L) j 1 i j k (s.dp i j k + ctx.comment_score i L))
              t).dp i j k) := by
      intro l
      induction l with
      | nil => intro t ht _ hd; exact ⟨ht, hd⟩
      | cons L r ih =>
        intro t ht hl hd
        rw [List.foldl_cons]
        refine ih _ ?_ (fun L2 h2 => hl L2 (List.mem_cons_of_mem L h2)) ?_
        · refine relax_dpInv ctx t ht _ _ _ _ _ _ _ hd ?_ ?_
          · have := comment_score_nonneg ctx i L
            omega
          · unfold bpShape
            dsimp only
            right; left
            refine ⟨rfl, rfl, ?_⟩
            have := hl L (List.mem_cons_self L r)
            omega
        · exact le_trans hd (relax_dp_mono t (i + L) j 1 i j k _ i j k)
    have hs1 : dpInv ctx (if i + 1 < ctx.WB then
        relax s (i + 1) j 0 i j k (s.dp i j k + ctx.score_char i ' ')
        else s) ∧
        0 ≤ (if i + 1 < ctx.WB then
          relax s (i + 1) j 0 i j k (s.dp i j k + ctx.score_char i ' ')
          else s).dp i j k := by
      refine ite_prop (fun x : FillSt => dpInv ctx x ∧ 0 ≤ x.dp i j k)
        ⟨?_, ?_⟩ ⟨hs, hc0⟩
      · refine relax_dpInv ctx s hs _ _ _ _ _ _ _ hc0 ?_ ?_
        · have := score_char_nonneg ctx i ' '
          omega
        · unfold bpShape
          dsimp only
          left
          exact ⟨rfl, rfl, rfl⟩
      · exact le_trans hc0 (relax_dp_mono s (i + 1) j 0 i j k _ i j k)
    have hs2 := hfold (commentLens ctx i) _ hs1.1
      (fun L hL => commentLens_ge ctx i L hL) hs1.2
    by_cases hjk : j < ctx.tl ∧ k ≠ 2
    · rw [if_pos hjk]
      by_cases hlen : i + (ctx.tokens.getD (ctx.taken + j) []).length < ctx.WB
      · rw [if_pos hlen]
        refine relax_dpInv ctx _ hs2.1 _ _ _ _ _ _ _ hs2.2 ?_ ?_
        · have := token_score_nonneg ctx i (ctx.tokens.getD (ctx.taken + j) [])
          omega
        · unfold bpShape
          dsimp only
          right; right
          refine ⟨?_, rfl, hjk.1, rfl, hjk.2, ?_⟩
          · by_cases hreq : (if j ≤ ctx.maxJ then ctx.needSep j else false) = true
            · rw [if_pos hreq]; left; rfl
            · rw [if_neg hreq]; right; rfl
          · exact token_nk_iff ctx j
      · rw [if_neg hlen]
        exact hs2.1
    · rw [if_neg hjk]
      exact hs2.1

theorem dpFill_dpInv (ctx : RowCtx) (rng : Rng) :
    dpInv ctx (dpFill ctx rng) := by
  unfold dpFill
  have hstep : ∀ (l : List (Nat × Nat × Nat)) (s : FillSt), dpInv ctx s →
      dpInv ctx (l.foldl (fun t p => doTrans ctx p t) s) := by
    intro l
    induction l with
    | nil => intro s h; exact h
    | cons p r ih =>
      intro s h
      exact ih _ (doTrans_dpInv ctx p s h)
  refine hstep _ _ ?_
  intro i j k hfin
  simp only [initFill] at hfin ⊢
  by_cases h : i = 0 ∧ j = 0 ∧ k = 0
  · rw [if_pos h] at hfin ⊢
    exact ⟨le_refl 0, fun hnz => absurd h hnz⟩
  · rw [if_neg h] at hfin
    exact absurd rfl hfin

/-! ### The `j ≤ min i tokens_left` bound (all tokens non-empty). -/

theorem getD_mem_of_lt {α : Type _} (l : List α) (n : Nat) (d : α)
    (h : n < l.length) : l.getD n d ∈ l := by
  induction l generalizing n with
  | nil => simp at h
  | cons x r ih =>
    cases n with
    | zero => exact List.mem_cons_self x r
    | succ m =>
      exact List.mem_cons_of_mem x (ih m (by simpa using h))

/-- Reachable states use at most `min i tokens_left` tokens. -/
def dpJBound (ctx : RowCtx) (s : FillSt) : Prop :=
  ∀ i j k : Nat, s.dp i j k ≠ NEG_INF → j ≤ min i ctx.tl

theorem relax_dpJBound (ctx : RowCtx) (s : FillSt) (hs : dpJBound ctx s)
    (ti tj tk pi pj pk : Nat) (cand : Int)
    (htj : tj ≤ min ti ctx.tl) :
    dpJBound ctx (relax s ti tj tk pi pj pk cand) := by
  intro a b c hfin
  rw [relax_dp] at hfin
  by_cases h1 : cand > s.dp ti tj tk
  · rw [if_pos h1] at hfin
    by_cases ht : a = ti ∧ b = tj ∧ c = tk
    · obtain ⟨rfl, rfl, rfl⟩ := ht
      exact htj
    · rw [if_neg ht] at hfin
      exact hs a b c hfin
  · rw [if_neg h1] at hfin
    exact hs a b c hfin

theorem doTrans_dpJBound (ctx : RowCtx) (p : Nat × Nat × Nat) (s : FillSt)
    (hne : ∀ t ∈ ctx.tokens, t ≠ [])
    (hs : dpJBound ctx s) : dpJBound ctx (doTrans ctx p s) := by
  obtain ⟨i, j, k⟩ := p
  unfold doTrans
  dsimp only
  by_cases hcur : s.dp i j k = NEG_INF
  · rw [if_pos hcur]
    exact hs
  · rw [if_neg hcur]
    have hj0 : j ≤ min i ctx.tl := hs i j k hcur
    have hfold : ∀ (l : List Nat) (t : FillSt), dpJBound ctx t →
        dpJBound ctx (l.foldl (fun t2 L =>
          relax t2 (i + L) j 1 i j k (s.dp i j k + ctx.comment_score i L)) t) := by
      intro l
      induction l with
      | nil => intro t ht; exact ht
      | cons L r ih =>
        intro t ht
        rw [List.foldl_cons]
        refine ih _ (relax_dpJBound ctx t ht _ _ _ _ _ _ _ ?_)
        omega
    have hs1 : dpJBound ctx (if i + 1 < ctx.WB then
        relax s (i + 1) j 0 i j k (s.dp i j k + ctx.score_char i ' ')
        else s) := by
      refine ite_prop (fun x : FillSt => dpJBound ctx x) ?_ hs
      refine relax_dpJBound ctx s hs _ _ _ _ _ _ _ ?_
      omega
    have hs2 := hfold (commentLens ctx i) _ hs1
    by_cases hjk : j < ctx.tl ∧ k ≠ 2
    · rw [if_pos hjk]
      by_cases hlen : i + (ctx.tokens.getD (ctx.taken + j) []).length < ctx.WB
      · rw [if_pos hlen]
        refine relax_dpJBound ctx _ hs2 _ _ _ _ _ _ _ ?_
        have hidx : ctx.taken + j < ctx.tokens.length := by
          have : ctx.tl = ctx.tokens.length - ctx.taken := rfl
          omega
        have hne2 := hne _ (getD_mem_of_lt ctx.tokens (ctx.taken + j) [] hidx)
        have hlen1 : 1 ≤ (ctx.tokens.getD (ctx.taken + j) []).length := by
          cases hgd : ctx.tokens.getD (ctx.taken + j) [] with
          | nil => exact absurd hgd hne2
          | cons x r => simp
        omega
      · rw [if_neg hlen]
        exact hs2
    · rw [if_neg hjk]
      exact hs2

theorem dpFill_dpJBound (ctx : RowCtx) (rng : Rng)
    (hne : ∀ t ∈ ctx.tokens, t ≠ []) :
    dpJBound ctx (dpFill ctx rng) := by
  unfold dpFill
  have hstep : ∀ (l : List (Nat × Nat × Nat)) (s : FillSt), dpJBound ctx s →
      dpJBound ctx (l.foldl (fun t p => doTrans ctx p t) s) := by
    intro l
    induction l with
    | nil => intro s h; exact h
    | cons p r ih =>
      intro s h
      exact ih _ (doTrans_dpJBound ctx p s hne h)
  refine hstep _ _ ?_
  intro i j k hfin
  simp only [initFill] at hfin
  by_cases h : i = 0 ∧ j = 0 ∧ k = 0
  · obtain ⟨rfl, rfl, rfl⟩ := h
    omega
  · rw [if_neg h] at hfin
    exact absurd rfl hfin

/-! ### Domination: with the default character densities, the terminal
scan's best state always sits at column `W_BOUND - 1`. -/

/-- Beyond column `W` the target density is `0` and a space matches it
(provided the character map rates the space as light, as the default
map does). -/
theorem score_space_high (ctx : RowCtx) (col : Nat) (hcol : ctx.W ≤ col)
    (hsp : ctx.char01.getD 32 0 = 0) : ctx.score_char col ' ' = 1 := by
  have h1 : ctx.desired_at col = 0 := by
    unfold RowCtx.desired_at RowCtx.wantAt
    have h2 : ¬(ctx.row < ctx.H ∧ col < min ctx.W ctx.WB) := by
      rintro ⟨-, h3⟩
      have := min_le_left ctx.W ctx.WB
      omega
    rw [if_neg h2]
    exact ite_self 0
  have h2 : ctx.density_of ' ' = 0 := by
    unfold RowCtx.density_of
    rw [if_pos (by decide : (' ').toNat < 128)]
    exact hsp
  unfold RowCtx.score_char
  rw [h1, h2]
  exact if_pos rfl

/-- Climbing by spaces: from any reachable state one can pad to any
higher column (up to `W_BOUND - 1`) without losing score. -/
theorem dpFill_climb (ctx : RowCtx) (rng : Rng) (j : Nat) :
    ∀ (d a k : Nat), j ≤ min a ctx.tl → k < 4 → a + d + 1 ≤ ctx.WB →
      (dpFill ctx rng).dp a j k ≠ NEG_INF →
      ((dpFill ctx rng).dp a j k ≤
        (dpFill ctx rng).dp (a + d) j (if d = 0 then k else 0) ∧
       (dpFill ctx rng).dp (a + d) j (if d = 0 then k else 0) ≠ NEG_INF) := by
  intro d
  induction d with
  | zero =>
    intro a k hj hk ha hfin
    simp only [Nat.add_zero, if_pos rfl]
    exact ⟨le_refl _, hfin⟩
  | succ d ih =>
    intro a k hj hk ha hfin
    obtain ⟨h1, h2⟩ := ih a k hj hk (by omega) hfin
    have hkd : (if d = 0 then k else 0) < 4 := by
      split
      · exact hk
      · omega
    have hmem : (a + d, j, if d = 0 then k else 0) ∈ posList ctx := by
      rw [posList_mem]
      refine ⟨by omega, ?_, hkd⟩
      have := min_le_left a ctx.tl
      have := min_le_right a ctx.tl
      omega
    have hsp := dpFill_space ctx rng (a + d) j (if d = 0 then k else 0)
      hmem (by omega) h2
    have hnn := score_char_nonneg ctx (a + d) ' '
    have hge := (dpFill_dpInv ctx rng (a + d) j (if d = 0 then k else 0) h2).1
    constructor
    · have hstep : (dpFill ctx rng).dp (a + d) j (if d = 0 then k else 0) ≤
          (dpFill ctx rng).dp (a + d + 1) j 0 := by omega
      have : a + (d + 1) = a + d + 1 := by omega
      rw [this, if_neg (by omega : ¬ d + 1 = 0)]
      omega
    · have : a + (d + 1) = a + d + 1 := by omega
      rw [this, if_neg (by omega : ¬ d + 1 = 0)]
      have := NEG_INF_neg
      intro hcon
      rw [hcon] at hsp
      omega

/-- Strict domination: every reachable window state below column
`W_BOUND - 1` scores strictly less than the padded state at
`W_BOUND - 1` with the same token count. -/
theorem dpFill_dom (ctx : RowCtx) (rng : Rng)
    (hne : ∀ t ∈ ctx.tokens, t ≠ [])
    (hsp : ctx.char01.getD 32 0 = 0)
    (i j k : Nat) (hi : i + 1 < ctx.WB) (hk : k < 4)
    (hfin : (dpFill ctx rng).dp i j k ≠ NEG_INF) :
    (dpFill ctx rng).dp i j k < (dpFill ctx rng).dp (ctx.WB - 1) j 0 ∧
      (dpFill ctx rng).dp (ctx.WB - 1) j 0 ≠ NEG_INF := by
  have hWB : ctx.WB = ctx.W + 10 := rfl
  have hj := dpFill_dpJBound ctx rng hne i j k hfin
  have hcl := dpFill_climb ctx rng j (ctx.WB - 2 - i) i k hj hk (by omega) hfin
  obtain ⟨h1, h2⟩ := hcl
  have hkd : (if ctx.WB - 2 - i = 0 then k else 0) < 4 := by
    split
    · exact hk
    · omega
  have heq : i + (ctx.WB - 2 - i) = ctx.WB - 2 := by omega
  rw [heq] at h1 h2
  have hmem : (ctx.WB - 2, j, if ctx.WB - 2 - i = 0 then k else 0)
      ∈ posList ctx := by
    rw [posList_mem]
    refine ⟨by omega, ?_, hkd⟩
    have := min_le_left i ctx.tl
    have := min_le_right i ctx.tl
    omega
  have hstep := dpFill_space ctx rng (ctx.WB - 2) j
    (if ctx.WB - 2 - i = 0 then k else 0) hmem (by omega) h2
  have hsc : ctx.score_char (ctx.WB - 2) ' ' = 1 :=
    score_space_high ctx (ctx.WB - 2) (by omega) hsp
  rw [hsc] at hstep
  have heq2 : ctx.WB - 2 + 1 = ctx.WB - 1 := by omega
  rw [heq2] at hstep
  have hge := (dpFill_dpInv ctx rng i j k hfin).1
  have := NEG_INF_neg
  constructor
  · omega
  · intro hcon
    rw [hcon] at hstep
    omega

/-! ### The terminal-state scans. -/

theorem windowStates_mem (ctx : RowCtx) (jLo : Nat) (p : Nat × Nat × Nat) :
    p ∈ windowStates ctx jLo ↔
      (ctx.iStart ≤ p.1 ∧ p.1 < ctx.WB ∧ jLo ≤ p.2.1 ∧ p.2.1 ≤ ctx.maxJ ∧
        p.2.2 < 4) := by
  have hWB : ctx.WB = ctx.W + 10 := rfl
  have hIS : ctx.iStart = ctx.W - 10 := rfl
  obtain ⟨i, j, k⟩ := p
  unfold windowStates
  simp only [List.mem_flatMap, List.mem_map, List.mem_range, List.mem_range'_1,
    Prod.mk.injEq]
  constructor
  · rintro ⟨i1, hi1, j1, hj1, k1, hk1, rfl, rfl, rfl⟩
    omega
  · rintro ⟨h1, h2, h3, h4, h5⟩
    exact ⟨i, by omega, j, by omega, k, by omega, rfl, rfl, rfl⟩

theorem scanPairs_mem (ctx : RowCtx) (q : Nat × Nat) :
    q ∈ ((List.range' ctx.iStart (ctx.WB - ctx.iStart)).flatMap fun i =>
      (List.range 4).map fun k => (i, k)) ↔
    (ctx.iStart ≤ q.1 ∧ q.1 < ctx.WB ∧ q.2 < 4) := by
  have hWB : ctx.WB = ctx.W + 10 := rfl
  have hIS : ctx.iStart = ctx.W - 10 := rfl
  obtain ⟨i, k⟩ := q
  simp only [List.mem_flatMap, List.mem_map, List.mem_range, List.mem_range'_1,
    Prod.mk.injEq]
  constructor
  · rintro ⟨i1, hi1, k1, hk1, rfl, rfl⟩
    omega
  · rintro ⟨h1, h2, h3⟩
    exact ⟨i, by omega, k, by omega, rfl, rfl⟩

theorem bestScan_acc_mono (dp : Nat → Nat → Nat → Int) :
    ∀ (l : List (Nat × Nat × Nat)) (acc : Int × (Nat × Nat × Nat)),
      acc.1 ≤ (l.foldl (fun a p =>
        if dp p.1 p.2.1 p.2.2 > a.1 then (dp p.1 p.2.1 p.2.2, p) else a) acc).1 := by
  intro l
  induction l with
  | nil => intro acc; exact le_refl _
  | cons p r ih =>
    intro acc
    rw [List.foldl_cons]
    refine le_trans ?_ (ih _)
    split
    · dsimp only
      omega
    · exact le_refl _

theorem bestScan_lb_aux (dp : Nat → Nat → Nat → Int) :
    ∀ (l : List (Nat × Nat × Nat)) (acc : Int × (Nat × Nat × Nat)),
      ∀ e ∈ l, dp e.1 e.2.1 e.2.2 ≤ (l.foldl (fun a p =>
        if dp p.1 p.2.1 p.2.2 > a.1 then (dp p.1 p.2.1 p.2.2, p) else a) acc).1 := by
  intro l
  induction l with
  | nil => intro acc e he; simp at he
  | cons p r ih =>
    intro acc e he
    rw [List.foldl_cons]
    rcases List.mem_cons.mp he with rfl | he2
    · refine le_trans ?_ (bestScan_acc_mono dp r _)
      split
      · exact le_refl _
      · omega
    · exact ih _ e he2

theorem bestScan_good (dp : Nat → Nat → Nat → Int) :
    ∀ (l : List (Nat × Nat × Nat)) (acc : Int × (Nat × Nat × Nat)),
      (l.foldl (fun a p =>
        if dp p.1 p.2.1 p.2.2 > a.1 then (dp p.1 p.2.1 p.2.2, p) else a) acc
          = acc) ∨
      (((l.foldl (fun a p =>
          if dp p.1 p.2.1 p.2.2 > a.1 then (dp p.1 p.2.1 p.2.2, p) else a)
            acc).2 ∈ l) ∧
       (l.foldl (fun a p =>
          if dp p.1 p.2.1 p.2.2 > a.1 then (dp p.1 p.2.1 p.2.2, p) else a)
            acc).1 =
        dp ((l.foldl (fun a p =>
          if dp p.1 p.2.1 p.2.2 > a.1 then (dp p.1 p.2.1 p.2.2, p) else a)
            acc).2).1
          ((l.foldl (fun a p =>
          if dp p.1 p.2.1 p.2.2 > a.1 then (dp p.1 p.2.1 p.2.2, p) else a)
            acc).2).2.1
          ((l.foldl (fun a p =>
          if dp p.1 p.2.1 p.2.2 > a.1 then (dp p.1 p.2.1 p.2.2, p) else a)
            acc).2).2.2 ∧
       acc.1 < (l.foldl (fun a p =>
          if dp p.1 p.2.1 p.2.2 > a.1 then (dp p.1 p.2.1 p.2.2, p) else a)
            acc).1) := by
  intro l
  induction l with
  | nil => intro acc; left; rfl
  | cons p r ih =>
    intro acc
    rw [List.foldl_cons]
    by_cases hgt : dp p.1 p.2.1 p.2.2 > acc.1
    · rw [if_pos hgt]
      rcases ih (dp p.1 p.2.1 p.2.2, p) with h | ⟨h1, h2, h3⟩
      · right
        rw [h]
        exact ⟨List.mem_cons_self p r, rfl, hgt⟩
      · right
        exact ⟨List.mem_cons_of_mem p h1, h2, lt_trans hgt h3⟩
    · rw [if_neg hgt]
      rcases ih acc with h | ⟨h1, h2, h3⟩
      · left; exact h
      · right
        exact ⟨List.mem_cons_of_mem p h1, h2, h3⟩

theorem scanJ_acc_mono (dp : Nat → Nat → Nat → Int) (j : Nat)
    (threshold : Int) :
    ∀ (l : List (Nat × Nat)) (acc : Int × (Nat × Nat × Nat)),
      acc.1 ≤ (l.foldl (fun (acc : Int × (Nat × Nat × Nat)) q =>
        if dp q.1 j q.2 ≥ threshold ∧ dp q.1 j q.2 > acc.1 then
          (dp q.1 j q.2, (q.1, j, q.2)) else acc) acc).1 := by
  intro l
  induction l with
  | nil => intro acc; exact le_refl _
  | cons q r ih =>
    intro acc
    rw [List.foldl_cons]
    refine le_trans ?_ (ih _)
    split
    · dsimp only
      omega
    · exact le_refl _

theorem scanJ_lb (dp : Nat → Nat → Nat → Int) (j : Nat) (threshold : Int) :
    ∀ (l : List (Nat × Nat)) (acc : Int × (Nat × Nat × Nat)),
      ∀ q ∈ l, threshold ≤ dp q.1 j q.2 →
        dp q.1 j q.2 ≤ (l.foldl (fun (acc : Int × (Nat × Nat × Nat)) q =>
          if dp q.1 j q.2 ≥ threshold ∧ dp q.1 j q.2 > acc.1 then
            (dp q.1 j q.2, (q.1, j, q.2)) else acc) acc).1 := by
  intro l
  induction l with
  | nil => intro acc q hq; simp at hq
  | cons p r ih =>
    intro acc q hq hth
    rw [List.foldl_cons]
    rcases List.mem_cons.mp hq with rfl | hq2
    · refine le_trans ?_ (scanJ_acc_mono dp j threshold r _)
      by_cases hgt : dp q.1 j q.2 > acc.1
      · rw [if_pos ⟨hth, hgt⟩]
      · split
        · dsimp only
          omega
        · omega
    · exact ih _ q hq2 hth

theorem scanJ_good (dp : Nat → Nat → Nat → Int) (j : Nat) (threshold : Int) :
    ∀ (l : List (Nat × Nat)) (acc : Int × (Nat × Nat × Nat)),
      (l.foldl (fun (acc : Int × (Nat × Nat × Nat)) q =>
        if dp q.1 j q.2 ≥ threshold ∧ dp q.1 j q.2 > acc.1 then
          (dp q.1 j q.2, (q.1, j, q.2)) else acc) acc = acc) ∨
      (∃ q ∈ l,
        (l.foldl (fun (acc : Int × (Nat × Nat × Nat)) q =>
          if dp q.1 j q.2 ≥ threshold ∧ dp q.1 j q.2 > acc.1 then
            (dp q.1 j q.2, (q.1, j, q.2)) else acc) acc).2 = (q.1, j, q.2) ∧
        (l.foldl (fun (acc : Int × (Nat × Nat × Nat)) q =>
          if dp q.1 j q.2 ≥ threshold ∧ dp q.1 j q.2 > acc.1 then
            (dp q.1 j q.2, (q.1, j, q.2)) else acc) acc).1 = dp q.1 j q.2 ∧
        threshold ≤ (l.foldl (fun (acc : Int × (Nat × Nat × Nat)) q =>
          if dp q.1 j q.2 ≥ threshold ∧ dp q.1 j q.2 > acc.1 then
            (dp q.1 j q.2, (q.1, j, q.2)) else acc) acc).1 ∧
        acc.1 < (l.foldl (fun (acc : Int × (Nat × Nat × Nat)) q =>
          if dp q.1 j q.2 ≥ threshold ∧ dp q.1 j q.2 > acc.1 then
            (dp q.1 j q.2, (q.1, j, q.2)) else acc) acc).1) := by
  intro l
  induction l with
  | nil => intro acc; left; rfl
  | cons p r ih =>
    intro acc
    rw [List.foldl_cons]
    by_cases hc : dp p.1 j p.2 ≥ threshold ∧ dp p.1 j p.2 > acc.1
    · rw [if_pos hc]
      rcases ih (dp p.1 j p.2, (p.1, j, p.2)) with h | ⟨q, hq, h1, h2, h3, h4⟩
      · right
        refine ⟨p, List.mem_cons_self p r, ?_⟩
        rw [h]
        exact ⟨rfl, rfl, hc.1, hc.2⟩
      · right
        exact ⟨q, List.mem_cons_of_mem p hq, h1, h2, h3, lt_trans hc.2 h4⟩
    · rw [if_neg hc]
      rcases ih acc with h | ⟨q, hq, h1, h2, h3, h4⟩
      · left; exact h
      · right
        exact ⟨q, List.mem_cons_of_mem p hq, h1, h2, h3, h4⟩

/-- Everything `scanAtJ` guarantees about a successful scan: the result
sits in the window at exactly row-count `j`, meets the threshold, and
maximizes the dp value among all threshold-meeting window states. -/
theorem scanAtJ_spec2 (ctx : RowCtx) (dp : Nat → Nat → Nat → Int) (j : Nat)
    (threshold : Int) (c : Nat × Nat × Nat)
    (h : scanAtJ ctx dp j threshold = some c) :
    c.2.1 = j ∧ ctx.iStart ≤ c.1 ∧ c.1 < ctx.WB ∧ c.2.2 < 4 ∧
    threshold ≤ dp c.1 j c.2.2 ∧ dp c.1 j c.2.2 ≠ NEG_INF ∧
    (∀ i2 k2, ctx.iStart ≤ i2 → i2 < ctx.WB → k2 < 4 →
      threshold ≤ dp i2 j k2 → dp i2 j k2 ≤ dp c.1 j c.2.2) := by
  unfold scanAtJ at h
  dsimp only at h
  by_cases hr : (((List.range' ctx.iStart (ctx.WB - ctx.iStart)).flatMap fun i =>
      (List.range 4).map fun k => (i, k)).foldl
    (fun (acc : Int × (Nat × Nat × Nat)) q =>
      if dp q.1 j q.2 ≥ threshold ∧ dp q.1 j q.2 > acc.1 then
        (dp q.1 j q.2, (q.1, j, q.2)) else acc)
    (NEG_INF, (0, 0, 0))).1 = NEG_INF
  · rw [if_pos hr] at h
    exact absurd h (by simp)
  · rw [if_neg hr] at h
    have hc := (Option.some.injEq _ _).mp h
    rcases scanJ_good dp j threshold
        ((List.range' ctx.iStart (ctx.WB - ctx.iStart)).flatMap fun i =>
          (List.range 4).map fun k => (i, k)) (NEG_INF, (0, 0, 0))
      with hacc | ⟨q, hq, h1, h2, h3, h4⟩
    · rw [hacc] at hr
      exact absurd rfl hr
    · obtain ⟨hqi, hqw, hqk⟩ := (scanPairs_mem ctx q).mp hq
      rw [← hc, h1]
      dsimp only
      refine ⟨rfl, hqi, hqw, hqk, ?_, ?_, ?_⟩
      · rw [← h2]; exact h3
      · rw [← h2]; exact hr
      · intro i2 k2 ha hb hk2 hth
        rw [← h2]
        exact scanJ_lb dp j threshold _ _ (i2, k2)
          ((scanPairs_mem ctx (i2, k2)).mpr ⟨ha, hb, hk2⟩) hth

theorem scanAtJ_isSome (ctx : RowCtx) (dp : Nat → Nat → Nat → Int) (j : Nat)
    (threshold : Int) (i2 k2 : Nat)
    (hi : ctx.iStart ≤ i2) (h2 : i2 < ctx.WB) (hk : k2 < 4)
    (hth : threshold ≤ dp i2 j k2) (h0 : NEG_INF < dp i2 j k2) :
    ∃ c, scanAtJ ctx dp j threshold = some c := by
  unfold scanAtJ
  dsimp only
  have hlb := scanJ_lb dp j threshold
    ((List.range' ctx.iStart (ctx.WB - ctx.iStart)).flatMap fun i =>
      (List.range 4).map fun k => (i, k)) (NEG_INF, (0, 0, 0)) (i2, k2)
    ((scanPairs_mem ctx (i2, k2)).mpr ⟨hi, h2, hk⟩) hth
  have hne := NEG_INF_neg
  rw [if_neg (by dsimp only at hlb; omega)]
  exact ⟨_, rfl⟩

theorem bestScan_spec (dp : Nat → Nat → Nat → Int)
    (l : List (Nat × Nat × Nat)) :
    bestScan dp l = (NEG_INF, (0, 0, 0)) ∨
      ((bestScan dp l).2 ∈ l ∧
       (bestScan dp l).1 =
         dp (bestScan dp l).2.1 (bestScan dp l).2.2.1 (bestScan dp l).2.2.2 ∧
       NEG_INF < (bestScan dp l).1) := by
  unfold bestScan
  rcases bestScan_good dp l (NEG_INF, (0, 0, 0)) with h | ⟨h1, h2, h3⟩
  · left; exact h
  · right; exact ⟨h1, h2, h3⟩

theorem bestScan_ge (dp : Nat → Nat → Nat → Int)
    (l : List (Nat × Nat × Nat)) (e : Nat × Nat × Nat) (he : e ∈ l) :
    dp e.1 e.2.1 e.2.2 ≤ (bestScan dp l).1 := by
  unfold bestScan
  exact bestScan_lb_aux dp l _ e he

/-- Everything the tier selection guarantees under domination: the
chosen terminal state sits at column `W_BOUND - 1`, is reachable, and
uses at least `minTok` tokens. -/
theorem chooseTier_spec (ctx : RowCtx) (dp : Nat → Nat → Nat → Int) (m : Nat)
    (hI1 : ∀ i j k, dp i j k ≠ NEG_INF → 0 ≤ dp i j k)
    (hDOM : ∀ i j k, i + 1 < ctx.WB → k < 4 → dp i j k ≠ NEG_INF →
      dp i j k < dp (ctx.WB - 1) j 0 ∧ dp (ctx.WB - 1) j 0 ≠ NEG_INF)
    (hex : ∃ p ∈ windowStates ctx m, dp p.1 p.2.1 p.2.2 ≠ NEG_INF) :
    (chooseTier ctx dp m).1 = ctx.WB - 1 ∧
    dp (chooseTier ctx dp m).1 (chooseTier ctx dp m).2.1
      (chooseTier ctx dp m).2.2 ≠ NEG_INF ∧
    m ≤ (chooseTier ctx dp m).2.1 := by
  obtain ⟨p0, hp0w, hp0f⟩ := hex
  have hbs0 := bestScan_ge dp (windowStates ctx m) p0 hp0w
  have hp00 := hI1 _ _ _ hp0f
  have hni := NEG_INF_neg
  rcases bestScan_spec dp (windowStates ctx m) with hbse | ⟨hbsm, hbsv, hbsp⟩
  · rw [hbse] at hbs0
    dsimp only at hbs0
    omega
  · obtain ⟨hbi1, hbi2, hbj1, hbj2, hbk⟩ :=
      (windowStates_mem ctx m _).mp hbsm
    have hbf : dp (bestScan dp (windowStates ctx m)).2.1
        (bestScan dp (windowStates ctx m)).2.2.1
        (bestScan dp (windowStates ctx m)).2.2.2 ≠ NEG_INF := by
      rw [← hbsv]; omega
    have hthx : (bestScan dp (windowStates ctx m)).1 - (ctx.SR : Int)
        ≤ dp (bestScan dp (windowStates ctx m)).2.1
          (bestScan dp (windowStates ctx m)).2.2.1
          (bestScan dp (windowStates ctx m)).2.2.2 := by
      rw [← hbsv]
      exact sub_le_self _ (Int.natCast_nonneg _)
    have h0x : NEG_INF < dp (bestScan dp (windowStates ctx m)).2.1
        (bestScan dp (windowStates ctx m)).2.2.1
        (bestScan dp (windowStates ctx m)).2.2.2 := by
      rw [← hbsv]
      exact hbsp
    have hsome := scanAtJ_isSome ctx dp (bestScan dp (windowStates ctx m)).2.2.1
      ((bestScan dp (windowStates ctx m)).1 - (ctx.SR : Int))
      (bestScan dp (windowStates ctx m)).2.1
      (bestScan dp (windowStates ctx m)).2.2.2 hbi1 hbi2 hbk hthx h0x
    rcases hfold : firstSome (fun j => scanAtJ ctx dp j
        ((bestScan dp (windowStates ctx m)).1 - (ctx.SR : Int)))
        ((List.range' m (ctx.maxJ + 1 - m)).reverse)
      with - | c
    · obtain ⟨c0, hc0⟩ := hsome
      have hallnone := firstSome_none (fun j => scanAtJ ctx dp j
        ((bestScan dp (windowStates ctx m)).1 - (ctx.SR : Int)))
        ((List.range' m (ctx.maxJ + 1 - m)).reverse) hfold
        (bestScan dp (windowStates ctx m)).2.2.1
        (by rw [List.mem_reverse, List.mem_range'_1]; omega)
      have hallnone2 : scanAtJ ctx dp (bestScan dp (windowStates ctx m)).2.2.1
          ((bestScan dp (windowStates ctx m)).1 - (ctx.SR : Int)) = none :=
        hallnone
      rw [hallnone2] at hc0
      exact absurd hc0 (by simp)
    · have hct : chooseTier ctx dp m = c := by
        unfold chooseTier
        dsimp only
        rw [hfold]
      rw [hct]
      obtain ⟨j2, hj2d, hscan0⟩ := firstSome_some (fun j => scanAtJ ctx dp j
        ((bestScan dp (windowStates ctx m)).1 - (ctx.SR : Int)))
        ((List.range' m (ctx.maxJ + 1 - m)).reverse) c hfold
      have hscan : scanAtJ ctx dp j2
          ((bestScan dp (windowStates ctx m)).1 - (ctx.SR : Int)) = some c :=
        hscan0
      have hj2r : m ≤ j2 ∧ j2 < m + (ctx.maxJ + 1 - m) :=
        List.mem_range'_1.mp (List.mem_reverse.mp hj2d)
      obtain ⟨hcj, hci1, hci2, hck, hcth, hcf, hcmax⟩ :=
        scanAtJ_spec2 ctx dp j2 _ c hscan
      have hiW : c.1 = ctx.WB - 1 := by
        by_contra hnec
        have hdom := hDOM c.1 j2 c.2.2 (by omega) hck hcf
        have hmax2 := hcmax (ctx.WB - 1) 0 (by omega) (by omega) (by omega)
          (le_trans hcth (le_of_lt hdom.1))
        omega
      refine ⟨hiW, ?_, by omega⟩
      rw [hcj]
      exact hcf

/-- With domination, the full tier selection lands on column
`W_BOUND - 1` at a reachable state. -/
theorem selectState_spec (ctx : RowCtx) (dp : Nat → Nat → Nat → Int)
    (hI1 : ∀ i j k, dp i j k ≠ NEG_INF → 0 ≤ dp i j k)
    (hDOM : ∀ i j k, i + 1 < ctx.WB → k < 4 → dp i j k ≠ NEG_INF →
      dp i j k < dp (ctx.WB - 1) j 0 ∧ dp (ctx.WB - 1) j 0 ≠ NEG_INF)
    (hex0 : ∃ p ∈ windowStates ctx 0, dp p.1 p.2.1 p.2.2 ≠ NEG_INF) :
    (selectState ctx dp).1 = ctx.WB - 1 ∧
    dp (selectState ctx dp).1 (selectState ctx dp).2.1
      (selectState ctx dp).2.2 ≠ NEG_INF := by
  rcases hfold : firstSome (fun m =>
      if (windowStates ctx m).any
          (fun p => decide (dp p.1 p.2.1 p.2.2 ≠ NEG_INF)) then
        some (chooseTier ctx dp m)
      else none) ((List.range (min MN_TOKENS ctx.tl + 1)).reverse)
    with - | st
  · obtain ⟨p0, hp0w, hp0f⟩ := hex0
    have h0none := firstSome_none (fun m =>
        if (windowStates ctx m).any
            (fun p => decide (dp p.1 p.2.1 p.2.2 ≠ NEG_INF)) then
          some (chooseTier ctx dp m)
        else none) ((List.range (min MN_TOKENS ctx.tl + 1)).reverse) hfold
      0 (by rw [List.mem_reverse, List.mem_range]; omega)
    have h0none2 : (if (windowStates ctx 0).any
        (fun p => decide (dp p.1 p.2.1 p.2.2 ≠ NEG_INF)) then
          some (chooseTier ctx dp 0)
        else none) = none := h0none
    have hany : (windowStates ctx 0).any
        (fun p => decide (dp p.1 p.2.1 p.2.2 ≠ NEG_INF)) = true :=
      List.any_eq_true.mpr ⟨p0, hp0w, decide_eq_true hp0f⟩
    rw [if_pos hany] at h0none2
    exact absurd h0none2 (by simp)
  · have hst : selectState ctx dp = st := by
      unfold selectState
      dsimp only
      rw [hfold]
    rw [hst]
    obtain ⟨m, hm, hfm⟩ := firstSome_some (fun m =>
        if (windowStates ctx m).any
            (fun p => decide (dp p.1 p.2.1 p.2.2 ≠ NEG_INF)) then
          some (chooseTier ctx dp m)
        else none) ((List.range (min MN_TOKENS ctx.tl + 1)).reverse) st hfold
    have hfm2 : (if (windowStates ctx m).any
        (fun p => decide (dp p.1 p.2.1 p.2.2 ≠ NEG_INF)) then
          some (chooseTier ctx dp m)
        else none) = some st := hfm
    by_cases hany : (windowStates ctx m).any
        (fun p => decide (dp p.1 p.2.1 p.2.2 ≠ NEG_INF)) = true
    · rw [if_pos hany] at hfm2
      have hst2 := (Option.some.injEq _ _).mp hfm2
      obtain ⟨p1, hp1w, hp1d⟩ := List.any_eq_true.mp hany
      have hct := chooseTier_spec ctx dp m hI1 hDOM
        ⟨p1, hp1w, of_decide_eq_true hp1d⟩
      rw [← hst2]
      exact ⟨hct.1, hct.2.1⟩
    · rw [if_neg hany] at hfm2
      exact absurd hfm2 (by simp)

/-- The window at floor `0` always contains a reachable state: pad the
origin with spaces up to `iStart`. -/
theorem dpFill_window0 (ctx : RowCtx) (rng : Rng) :
    ∃ p ∈ windowStates ctx 0,
      (dpFill ctx rng).dp p.1 p.2.1 p.2.2 ≠ NEG_INF := by
  have hWB : ctx.WB = ctx.W + 10 := rfl
  have hIS : ctx.iStart = ctx.W - 10 := rfl
  have h0 : (dpFill ctx rng).dp 0 0 0 ≠ NEG_INF := by
    rw [dpFill_origin]
    have := NEG_INF_neg
    omega
  have hcl := dpFill_climb ctx rng 0 ctx.iStart 0 0 (Nat.zero_le _)
    (by omega) (by omega) h0
  simp only [Nat.zero_add, ite_self] at hcl
  refine ⟨(ctx.iStart, 0, 0), ?_, hcl.2⟩
  rw [windowStates_mem]
  dsimp only
  exact ⟨le_refl _, by omega, Nat.zero_le _, Nat.zero_le _, by omega⟩

/-! ### The reconstruction walk. -/

/-- Two adjacent segments are separator-safe: if both are tokens, the
pair needs no separator. -/
def safeSegPair (a b : Seg) : Prop :=
  ∀ ta tb, a = Seg.tok ta → b = Seg.tok tb → needs_separator ta tb = false

/-- The ordered token contents of a segment list. -/
def segTokens (l : List Seg) : List (List Char) :=
  l.filterMap fun s => match s with
    | Seg.tok t => some t
    | _ => none

/-- The first `m` pending tokens, in order. -/
def tokensSlice (ctx : RowCtx) (m : Nat) : List (List Char) :=
  (List.range m).map fun t => ctx.tokens.getD (ctx.taken + t) []

theorem tokensSlice_succ (ctx : RowCtx) (m : Nat) :
    tokensSlice ctx (m + 1) =
      tokensSlice ctx m ++ [ctx.tokens.getD (ctx.taken + m) []] := by
  unfold tokensSlice
  rw [List.range_succ, List.map_append]
  rfl

theorem segTokens_append (l1 l2 : List Seg) :
    segTokens (l1 ++ l2) = segTokens l1 ++ segTokens l2 := by
  unfold segTokens
  exact List.filterMap_append _ _ _

theorem charOfNat_lower_ne_newline (d : Nat) (hd : d < 26) :
    Char.ofNat (97 + d) ≠ Char.ofNat 10 := by
  interval_cases d <;> decide

/-- Each step of the comment-content fold appends exactly one
non-newline character. -/
theorem commentStep_shape (ctx : RowCtx) (pi len : Nat)
    (acc : List Char × Rng) (t : Nat) :
    ∃ c0 rng2, commentStepF ctx pi len acc t = (acc.1 ++ [c0], rng2) ∧
      c0 ≠ '\n' := by
  unfold commentStepF
  split
  · exact ⟨'/', acc.2, rfl, by decide⟩
  split
  · exact ⟨'*', acc.2, rfl, by decide⟩
  split
  · exact ⟨'*', acc.2, rfl, by decide⟩
  split
  · exact ⟨'/', acc.2, rfl, by decide⟩
  dsimp only
  split
  · split
    · exact ⟨' ', acc.2, rfl, by decide⟩
    · exact ⟨Char.ofNat (97 + (acc.2.draw 26).1), (acc.2.draw 26).2, rfl,
        charOfNat_lower_ne_newline _ (Nat.mod_lt _ (by omega))⟩
  · rw [if_pos rfl]
    exact ⟨' ', acc.2, rfl, by decide⟩

theorem commentContent_spec (ctx : RowCtx) (pi len : Nat) (rng : Rng) :
    (commentContent ctx pi len rng).1.length = len ∧
    ∀ c ∈ (commentContent ctx pi len rng).1, c ≠ '\n' := by
  unfold commentContent
  have aux : ∀ (l : List Nat) (acc : List Char × Rng),
      ((l.foldl (commentStepF ctx pi len) acc).1.length
          = acc.1.length + l.length ∧
       ∀ c ∈ (l.foldl (commentStepF ctx pi len) acc).1,
          c ∈ acc.1 ∨ c ≠ '\n') := by
    intro l
    induction l with
    | nil =>
      intro acc
      exact ⟨by simp, fun c hc => Or.inl hc⟩
    | cons t r ih =>
      intro acc
      rw [List.foldl_cons]
      obtain ⟨c0, rng2, heq, hc0⟩ := commentStep_shape ctx pi len acc t
      rw [heq]
      obtain ⟨ih1, ih2⟩ := ih (acc.1 ++ [c0], rng2)
      constructor
      · rw [ih1]
        have hp : ((acc.1 ++ [c0], rng2) : List Char × Rng).1 = acc.1 ++ [c0] :=
          rfl
        rw [hp, List.length_append]
        simp only [List.length_cons, List.length_nil]
        omega
      · intro c hc
        rcases ih2 c hc with h | h
        · rcases List.mem_append.mp h with h2 | h2
          · exact Or.inl h2
          · right
            rw [List.mem_singleton.mp h2]
            exact hc0
        · exact Or.inr h
  obtain ⟨h1, h2⟩ := aux (List.range len) ([], rng)
  constructor
  · rw [h1]
    simp
  · intro c hc
    rcases h2 c hc with h | h
    · simp at h
    · exact h

/-- Unfolding lemma for one step of the walk. -/
theorem reconstruct_succ (ctx : RowCtx) (bp : Nat → Nat → Nat → Int × Int × Int)
    (f ci cj ck : Nat) (rng : Rng) :
    reconstruct ctx bp (f + 1) ci cj ck rng =
      if ci > 0 ∨ cj > 0 then
        let prev := bp ci cj ck
        if prev.1 < 0 then ([], rng)
        else
          let pi := prev.1.toNat
          let pj := prev.2.1.toNat
          let pk := prev.2.2.toNat
          let len := ci - pi
          let sr : Seg × Rng :=
            if ck = 0 then (Seg.sp, rng)
            else if ck = 1 then
              let len1 := if len < 4 then 4 else len
              let p := commentContent ctx pi len1 rng
              (Seg.com p.1, p.2)
            else
              (Seg.tok (if pj < ctx.WB ∧ ctx.taken + pj < ctx.n then
                ctx.tokens.getD (ctx.taken + pj) [] else []), rng)
          let p2 := reconstruct ctx bp f pi pj pk sr.2
          (p2.1 ++ [sr.1], p2.2)
      else ([], rng) := rfl

/-- The back-pointer walk: from any reachable state `(ci, cj, ck)` in a
valid table, the reconstruction emits segments whose text is exactly
`ci` characters, whose token segments are exactly the first `cj`
pending tokens in order, in which adjacent token pairs never need a
separator, whose non-token segments are newline-free, and whose last
segment mirrors the state's kind. -/
theorem reconstruct_spec (ctx : RowCtx) (s : FillSt) (hs : dpInv ctx s) :
    ∀ (fuel ci cj ck : Nat) (rng : Rng),
      ci + cj < fuel → 0 ≤ s.dp ci cj ck → cj ≤ ctx.maxJ →
      (((reconstruct ctx s.bp fuel ci cj ck rng).1.map Seg.text).flatten.length
         = ci) ∧
      segTokens (reconstruct ctx s.bp fuel ci cj ck rng).1
        = tokensSlice ctx cj ∧
      List.Chain' safeSegPair (reconstruct ctx s.bp fuel ci cj ck rng).1 ∧
      (∀ sg ∈ (reconstruct ctx s.bp fuel ci cj ck rng).1,
        (∃ t, sg = Seg.tok t) ∨ (∀ c ∈ Seg.text sg, c ≠ '\n')) ∧
      (∀ t, (reconstruct ctx s.bp fuel ci cj ck rng).1.getLast?
          = some (Seg.tok t) →
        (ck = 2 ∨ ck = 3) ∧ 1 ≤ cj ∧
          t = ctx.tokens.getD (ctx.taken + (cj - 1)) []) := by
  intro fuel
  induction fuel with
  | zero =>
    intro ci cj ck rng hfuel
    omega
  | succ f ih =>
    intro ci cj ck rng hfuel hdp hcj
    have hn : ctx.n = ctx.tokens.length := rfl
    have htl : ctx.tl = ctx.n - ctx.taken := rfl
    have hmj : ctx.maxJ = min (ctx.WB - 1) ctx.tl := rfl
    by_cases hloop : ci > 0 ∨ cj > 0
    case neg =>
      have heq : reconstruct ctx s.bp (f + 1) ci cj ck rng = ([], rng) := by
        rw [reconstruct_succ, if_neg hloop]
      rw [heq]
      have hci : ci = 0 := by omega
      have hcj0 : cj = 0 := by omega
      subst hci
      subst hcj0
      refine ⟨rfl, rfl, List.chain'_nil, ?_, ?_⟩
      · intro sg hsg
        exact absurd hsg (by simp)
      · intro t ht
        exact absurd ht (by simp)
    case pos =>
      have hfin : s.dp ci cj ck ≠ NEG_INF := by
        have := NEG_INF_neg
        omega
      have hnz : ¬(ci = 0 ∧ cj = 0 ∧ ck = 0) := by omega
      obtain ⟨-, hbp⟩ := hs ci cj ck hfin
      obtain ⟨p, hbpe, hpd, hshape⟩ := hbp hnz
      obtain ⟨pi, pj, pk⟩ := p
      unfold bpShape at hshape
      simp only at hshape
      dsimp only at hbpe hpd
      rcases hshape with ⟨hk0, hi1, hj1⟩ | ⟨hk1, hj1, hi4⟩ |
        ⟨hk23, hj1, hjtl, hieq, hpk, hiff⟩
      · -- space segment
        subst hk0
        subst hj1
        subst hi1
        have heq : reconstruct ctx s.bp (f + 1) (pi + 1) cj 0 rng
            = ((reconstruct ctx s.bp f pi cj pk rng).1 ++ [Seg.sp],
               (reconstruct ctx s.bp f pi cj pk rng).2) := by
          rw [reconstruct_succ, if_pos hloop, hbpe]
          simp only [Int.toNat_ofNat]
          rw [if_neg (not_lt.mpr (Int.natCast_nonneg pi))]
          simp
        rw [heq]
        obtain ⟨ih1, ih2, ih3, ih4, ih5⟩ :=
          ih pi cj pk rng (by omega) hpd hcj
        refine ⟨?_, ?_, ?_, ?_, ?_⟩
        · simp only [List.map_append, List.flatten_append, List.length_append,
            ih1]
          simp only [Seg.text, List.map_cons, List.map_nil, List.flatten_cons,
            List.flatten_nil, List.append_nil, List.length_cons,
            List.length_nil]
        · rw [segTokens_append, ih2]
          simp [segTokens]
        · rw [List.chain'_append]
          refine ⟨ih3, List.chain'_singleton _, ?_⟩
          intro x hx y hy
          intro ta tb hxa hyb
          simp only [List.head?_cons, Option.mem_def, Option.some.injEq] at hy
          rw [← hy] at hyb
          exact absurd hyb (by simp)
        · intro sg hsg
          rcases List.mem_append.mp hsg with h | h
          · exact ih4 sg h
          · right
            rw [List.mem_singleton.mp h]
            intro c hc
            rw [List.mem_singleton.mp hc]
            decide
        · intro t ht
          rw [List.getLast?_concat] at ht
          exact absurd ((Option.some.injEq _ _).mp ht) (by simp)
      · -- comment segment
        subst hk1
        subst hj1
        have hlen4 : ¬(ci - pi < 4) := by omega
        have heq : reconstruct ctx s.bp (f + 1) ci cj 1 rng
            = ((reconstruct ctx s.bp f pi cj pk
                  (commentContent ctx pi (ci - pi) rng).2).1
                ++ [Seg.com (commentContent ctx pi (ci - pi) rng).1],
               (reconstruct ctx s.bp f pi cj pk
                  (commentContent ctx pi (ci - pi) rng).2).2) := by
          rw [reconstruct_succ, if_pos hloop, hbpe]
          simp only [Int.toNat_ofNat]
          rw [if_neg (not_lt.mpr (Int.natCast_nonneg pi))]
          rw [if_neg hlen4]
          simp
        rw [heq]
        obtain ⟨ih1, ih2, ih3, ih4, ih5⟩ :=
          ih pi cj pk (commentContent ctx pi (ci - pi) rng).2
            (by omega) hpd hcj
        obtain ⟨hcc1, hcc2⟩ := commentContent_spec ctx pi (ci - pi) rng
        refine ⟨?_, ?_, ?_, ?_, ?_⟩
        · simp only [List.map_append, List.flatten_append, List.length_append,
            ih1]
          simp only [Seg.text, List.map_cons, List.map_nil, List.flatten_cons,
            List.flatten_nil, List.append_nil]
          rw [hcc1]
          omega
        · rw [segTokens_append, ih2]
          simp [segTokens]
        · rw [List.chain'_append]
          refine ⟨ih3, List.chain'_singleton _, ?_⟩
          intro x hx y hy
          intro ta tb hxa hyb
          simp only [List.head?_cons, Option.mem_def, Option.some.injEq] at hy
          rw [← hy] at hyb
          exact absurd hyb (by simp)
        · intro sg hsg
          rcases List.mem_append.mp hsg with h | h
          · exact ih4 sg h
          · right
            rw [List.mem_singleton.mp h]
            exact hcc2
        · intro t ht
          rw [List.getLast?_concat] at ht
          exact absurd ((Option.some.injEq _ _).mp ht) (by simp)
      · -- token segment
        subst hj1
        subst hieq
        have hguard : pj < ctx.WB ∧ ctx.taken + pj < ctx.n := by
          constructor
          · omega
          · omega
        have heq : reconstruct ctx s.bp (f + 1)
              (pi + (ctx.tokens.getD (ctx.taken + pj) []).length)
              (pj + 1) ck rng
            = ((reconstruct ctx s.bp f pi pj pk rng).1
                ++ [Seg.tok (ctx.tokens.getD (ctx.taken + pj) [])],
               (reconstruct ctx s.bp f pi pj pk rng).2) := by
          rw [reconstruct_succ, if_pos hloop, hbpe]
          simp only [Int.toNat_ofNat]
          rw [if_neg (not_lt.mpr (Int.natCast_nonneg pi))]
          rw [if_neg (by omega : ¬ck = 0), if_neg (by omega : ¬ck = 1),
            if_pos hguard]
        rw [heq]
        obtain ⟨ih1, ih2, ih3, ih4, ih5⟩ :=
          ih pi pj pk rng (by omega) hpd (by omega)
        refine ⟨?_, ?_, ?_, ?_, ?_⟩
        · simp only [List.map_append, List.flatten_append, List.length_append,
            ih1]
          simp only [Seg.text, List.map_cons, List.map_nil, List.flatten_cons,
            List.flatten_nil, List.append_nil]
        · rw [segTokens_append, ih2, tokensSlice_succ]
          rfl
        · rw [List.chain'_append]
          refine ⟨ih3, List.chain'_singleton _, ?_⟩
          intro x hx y hy
          intro ta tb hxa hyb
          simp only [List.head?_cons, Option.mem_def, Option.some.injEq] at hy
          have hxl : (reconstruct ctx s.bp f pi pj pk rng).1.getLast?
              = some (Seg.tok ta) := by
            rw [Option.mem_def] at hx
            rw [hx, hxa]
          obtain ⟨hpk23, hpj1, hta⟩ := ih5 ta hxl
          have hpk3 : pk = 3 := by omega
          have hfin2 : s.dp pi pj pk ≠ NEG_INF := by
            have := NEG_INF_neg
            omega
          obtain ⟨-, hbp2⟩ := hs pi pj pk hfin2
          obtain ⟨q, hbpe2, hqd, hshape2⟩ := hbp2 (by omega)
          unfold bpShape at hshape2
          simp only at hshape2
          rcases hshape2 with ⟨hz, -, -⟩ | ⟨hz, -, -⟩ |
            ⟨-, hqj, hqtl, -, -, hiff2⟩
          · omega
          · omega
          · have hncond : ¬(q.2.1 ≤ ctx.maxJ ∧ ctx.needSep q.2.1 = true) := by
              intro hcond
              have := hiff2.mpr hcond
              omega
            have hq1 : q.2.1 = pj - 1 := by omega
            rw [hq1] at hncond
            have hnsf : ctx.needSep (pj - 1) = false := by
              rcases Bool.eq_false_or_eq_true (ctx.needSep (pj - 1)) with h | h
              · exact absurd ⟨by omega, h⟩ hncond
              · exact h
            have hns2 : needs_separator
                (ctx.tokens.getD (ctx.taken + (pj - 1)) [])
                (ctx.tokens.getD (ctx.taken + (pj - 1) + 1) []) = false := by
              unfold RowCtx.needSep at hnsf
              rw [if_pos (by omega)] at hnsf
              exact hnsf
            have hidx : ctx.taken + (pj - 1) + 1 = ctx.taken + pj := by omega
            rw [hidx] at hns2
            rw [← hy] at hyb
            obtain rfl := (Seg.tok.injEq _ _).mp hyb
            rw [hta]
            exact hns2
        · intro sg hsg
          rcases List.mem_append.mp hsg with h | h
          · exact ih4 sg h
          · left
            exact ⟨_, List.mem_singleton.mp h⟩
        · intro t ht
          rw [List.getLast?_concat] at ht
          have := (Option.some.injEq _ _).mp ht
          have ht2 := (Seg.tok.injEq _ _).mp this
          refine ⟨hk23, by omega, ?_⟩
          rw [← ht2]
          simp

/-! ### The overflow rows. -/

theorem needs_separator_nil_left (b : List Char) :
    needs_separator [] b = false := rfl

/-- Adjacent token pairs in an overflow line never need a separator, and
a token at the head of the produced suffix is safe against `prev`. -/
theorem overflowGo_chain (tokens : List (List Char)) (n W_eff : Nat) :
    ∀ (fuel taken col : Nat) (prev : List Char),
      List.Chain' safeSegPair
        (overflowGo tokens n W_eff fuel taken col prev).1 ∧
      (∀ t, (overflowGo tokens n W_eff fuel taken col prev).1.head?
          = some (Seg.tok t) →
        prev = [] ∨ needs_separator prev t = false) := by
  intro fuel
  induction fuel with
  | zero =>
    intro taken col prev
    exact ⟨List.chain'_nil, fun t ht => absurd ht (by simp [overflowGo])⟩
  | succ f ih =>
    intro taken col prev
    unfold overflowGo
    by_cases ht : taken < n
    case neg =>
      rw [if_neg ht]
      exact ⟨List.chain'_nil, fun t ht2 => absurd ht2 (by simp)⟩
    case pos =>
      rw [if_pos ht]
      dsimp only
      have hsep : ∀ (hs : (decide (prev ≠ []) &&
            needs_separator prev (tokens.getD taken [])) = false),
          prev = [] ∨
            needs_separator prev (tokens.getD taken []) = false := by
        intro hs
        rcases Bool.and_eq_false_iff.mp hs with h | h
        · left
          have := of_decide_eq_false h
          by_contra hne
          exact this hne
        · right
          exact h
      by_cases hov : col + ((if decide (prev ≠ []) &&
          needs_separator prev (tokens.getD taken []) then 1 else 0) +
          (tokens.getD taken []).length) > W_eff
      · rw [if_pos hov]
        by_cases hc0 : col = 0
        · rw [if_pos hc0]
          by_cases hsp : (decide (prev ≠ []) &&
              needs_separator prev (tokens.getD taken [])) = true
          · rw [if_pos hsp]
            refine ⟨?_, ?_⟩
            · refine List.chain'_cons.mpr ⟨?_, List.chain'_singleton _⟩
              intro ta tb hxa hyb
              exact absurd hxa (by simp)
            · intro t ht2
              simp only [List.cons_append, List.nil_append, List.head?_cons]
                at ht2
              exact absurd ((Option.some.injEq _ _).mp ht2) (by simp)
          · rw [if_neg hsp]
            refine ⟨List.chain'_singleton _, ?_⟩
            intro t ht2
            simp only [List.nil_append, List.head?_cons] at ht2
            have ht3 := (Seg.tok.injEq _ _).mp ((Option.some.injEq _ _).mp ht2)
            rw [← ht3]
            exact hsep (Bool.not_eq_true _ ▸ hsp)
        · rw [if_neg hc0]
          exact ⟨List.chain'_nil, fun t ht2 => absurd ht2 (by simp)⟩
      · rw [if_neg hov]
        dsimp only
        obtain ⟨ihc, ihh⟩ := ih (taken + 1)
          (col + ((if decide (prev ≠ []) &&
            needs_separator prev (tokens.getD taken []) then 1 else 0) +
            (tokens.getD taken []).length)) (tokens.getD taken [])
        have hmid : List.Chain' safeSegPair (Seg.tok (tokens.getD taken []) ::
            (overflowGo tokens n W_eff f (taken + 1)
              (col + ((if decide (prev ≠ []) &&
                needs_separator prev (tokens.getD taken []) then 1 else 0) +
                (tokens.getD taken []).length)) (tokens.getD taken [])).1) := by
          refine List.chain'_cons'.mpr ⟨?_, ihc⟩
          intro y hy ta tb hxa hyb
          rw [Option.mem_def] at hy
          rw [hyb] at hy
          rcases ihh tb hy with h | h
          · have hxa2 := (Seg.tok.injEq _ _).mp hxa
            rw [← hxa2, h]
            exact needs_separator_nil_left tb
          · have hxa2 := (Seg.tok.injEq _ _).mp hxa
            rw [← hxa2]
            exact h
        by_cases hsp : (decide (prev ≠ []) &&
            needs_separator prev (tokens.getD taken [])) = true
        · rw [if_pos hsp]
          refine ⟨?_, ?_⟩
          · simp only [List.cons_append, List.nil_append]
            refine List.chain'_cons'.mpr ⟨?_, hmid⟩
            intro y hy ta tb hxa hyb
            exact absurd hxa (by simp)
          · intro t ht2
            simp only [List.cons_append, List.nil_append, List.head?_cons]
              at ht2
            exact absurd ((Option.some.injEq _ _).mp ht2) (by simp)
        · rw [if_neg hsp]
          refine ⟨by simpa using hmid, ?_⟩
          intro t ht2
          simp only [List.nil_append, List.head?_cons] at ht2
          have ht3 := (Seg.tok.injEq _ _).mp ((Option.some.injEq _ _).mp ht2)
          rw [← ht3]
          exact hsep (Bool.not_eq_true _ ▸ hsp)

theorem segs_len_cons (b : Bool) (tok : List Char) (rest : List Seg) :
    ((((if b then [Seg.sp] else []) ++ Seg.tok tok :: rest).map
        Seg.text).flatten).length
      = (if b then 1 else 0) + tok.length +
        ((rest.map Seg.text).flatten).length := by
  cases b <;> simp [Seg.text] <;> omega

theorem segs_len_single (b : Bool) (tok : List Char) :
    ((((if b then [Seg.sp] else []) ++ [Seg.tok tok]).map
        Seg.text).flatten).length
      = (if b then 1 else 0) + tok.length := by
  cases b <;> simp [Seg.text] <;> omega

/-- Upper bound on an overflow line: the text either fits in `W_eff`
(counting from the entry column) or is a single forced-placed token of
length at most the longest token. -/
theorem overflowGo_len_ub (tokens : List (List Char)) (n W_eff ml : Nat)
    (hml : ∀ t ∈ tokens, t.length ≤ ml) :
    ∀ (fuel taken col : Nat) (prev : List Char), (col = 0 → prev = []) →
      col ≤ W_eff →
      (col + (((overflowGo tokens n W_eff fuel taken col prev).1.map
          Seg.text).flatten).length ≤ W_eff ∨
       (col = 0 ∧ (((overflowGo tokens n W_eff fuel taken col prev).1.map
          Seg.text).flatten).length ≤ ml)) := by
  intro fuel
  induction fuel with
  | zero =>
    intro taken col prev hcp hcw
    left
    simp only [overflowGo, List.map_nil, List.flatten_nil, List.length_nil]
    omega
  | succ f ih =>
    intro taken col prev hcp hcw
    unfold overflowGo
    by_cases ht : taken < n
    case neg =>
      rw [if_neg ht]
      left
      simp only [List.map_nil, List.flatten_nil, List.length_nil]
      omega
    case pos =>
      rw [if_pos ht]
      dsimp only
      have hmlt : (tokens.getD taken []).length ≤ ml := by
        by_cases hlt : taken < tokens.length
        · exact hml _ (getD_mem_of_lt tokens taken [] hlt)
        · rw [List.getD_eq_default _ _ (by omega)]
          simp
      by_cases hov : col + ((if decide (prev ≠ []) &&
          needs_separator prev (tokens.getD taken []) then 1 else 0) +
          (tokens.getD taken []).length) > W_eff
      · rw [if_pos hov]
        by_cases hc0 : col = 0
        · rw [if_pos hc0]
          right
          refine ⟨hc0, ?_⟩
          rw [segs_len_single]
          have hb : (decide (prev ≠ []) &&
              needs_separator prev (tokens.getD taken [])) = false := by
            rw [hcp hc0]
            simp
          rw [hb]
          simp only [Bool.false_eq_true, if_false]
          omega
        · rw [if_neg hc0]
          left
          simp only [List.map_nil, List.flatten_nil, List.length_nil]
          omega
      · rw [if_neg hov]
        dsimp only
        have hrec := ih (taken + 1)
          (col + ((if decide (prev ≠ []) &&
            needs_separator prev (tokens.getD taken []) then 1 else 0) +
            (tokens.getD taken []).length)) (tokens.getD taken [])
          (by
            intro hz
            have : (tokens.getD taken []).length = 0 := by omega
            exact List.length_eq_zero.mp this)
          (by omega)
        rw [segs_len_cons]
        rcases hrec with h | h
        · left
          omega
        · right
          refine ⟨by omega, by omega⟩

/-- A non-empty overflow line: with a pending non-empty token the line
holds at least one character. -/
theorem overflowGo_len_lb (tokens : List (List Char)) (n W_eff : Nat)
    (f taken : Nat) (ht : taken < n) (hne : tokens.getD taken [] ≠ []) :
    1 ≤ (((overflowGo tokens n W_eff (f + 1) taken 0 []).1.map
        Seg.text).flatten).length := by
  unfold overflowGo
  rw [if_pos ht]
  dsimp only
  have hlen : 1 ≤ (tokens.getD taken []).length := by
    cases hgd : tokens.getD taken [] with
    | nil => exact absurd hgd hne
    | cons x r => simp
  have hsp : (decide (([] : List Char) ≠ []) &&
      needs_separator [] (tokens.getD taken [])) = false := by simp
  rw [hsp]
  by_cases hov : 0 + ((if (false : Bool) then 1 else 0) +
      (tokens.getD taken []).length) > W_eff
  · rw [if_pos hov, if_pos rfl]
    rw [segs_len_single]
    simp only [Bool.false_eq_true, if_false]
    omega
  · rw [if_neg hov]
    rw [segs_len_cons]
    simp only [Bool.false_eq_true, if_false]
    omega

/-- Every segment of an overflow line is a space or a source token. -/
theorem overflowGo_segs_mem (tokens : List (List Char)) (n W_eff : Nat) :
    ∀ (fuel taken col : Nat) (prev : List Char),
      ∀ sg ∈ (overflowGo tokens n W_eff fuel taken col prev).1,
        sg = Seg.sp ∨ ∃ t, sg = Seg.tok t ∧ (t ∈ tokens ∨ t = []) := by
  intro fuel
  induction fuel with
  | zero =>
    intro taken col prev sg hsg
    exact absurd hsg (by simp [overflowGo])
  | succ f ih =>
    intro taken col prev sg hsg
    unfold overflowGo at hsg
    have htok : tokens.getD taken [] ∈ tokens ∨ tokens.getD taken [] = [] := by
      by_cases hlt : taken < tokens.length
      · exact Or.inl (getD_mem_of_lt tokens taken [] hlt)
      · right
        exact List.getD_eq_default _ _ (by omega)
    by_cases ht : taken < n
    case neg =>
      rw [if_neg ht] at hsg
      exact absurd hsg (by simp)
    case pos =>
      rw [if_pos ht] at hsg
      dsimp only at hsg
      by_cases hov : col + ((if decide (prev ≠ []) &&
          needs_separator prev (tokens.getD taken []) then 1 else 0) +
          (tokens.getD taken []).length) > W_eff
      · rw [if_pos hov] at hsg
        by_cases hc0 : col = 0
        · rw [if_pos hc0] at hsg
          rcases List.mem_append.mp hsg with h | h
          · split at h
            · left
              exact List.mem_singleton.mp h
            · exact absurd h (by simp)
          · right
            exact ⟨_, List.mem_singleton.mp h, htok⟩
        · rw [if_neg hc0] at hsg
          exact absurd hsg (by simp)
      · rw [if_neg hov] at hsg
        rcases List.mem_append.mp hsg with h | h
        · split at h
          · left
            exact List.mem_singleton.mp h
          · exact absurd h (by simp)
        · rcases List.mem_cons.mp h with h2 | h2
          · right
            exact ⟨_, h2, htok⟩
          · exact ih _ _ _ sg h2

/-! ### Per-row assembly. -/

theorem chooseTier_dp_nonneg (ctx : RowCtx) (dp : Nat → Nat → Nat → Int)
    (minTok : Nat)
    (hI1 : ∀ i j k, dp i j k ≠ NEG_INF → 0 ≤ dp i j k) (h0 : dp 0 0 0 = 0) :
    0 ≤ dp (chooseTier ctx dp minTok).1 (chooseTier ctx dp minTok).2.1
      (chooseTier ctx dp minTok).2.2 := by
  rcases hfold : firstSome (fun j => scanAtJ ctx dp j
      ((bestScan dp (windowStates ctx minTok)).1 - (ctx.SR : Int)))
      ((List.range' minTok (ctx.maxJ + 1 - minTok)).reverse) with - | c
  · have hct : chooseTier ctx dp minTok
        = (bestScan dp (windowStates ctx minTok)).2 := by
      unfold chooseTier
      dsimp only
      rw [hfold]
    rw [hct]
    rcases bestScan_spec dp (windowStates ctx minTok) with h | ⟨-, h2, h3⟩
    · rw [h]
      dsimp only
      rw [h0]
    · apply hI1
      rw [← h2]
      omega
  · have hct : chooseTier ctx dp minTok = c := by
      unfold chooseTier
      dsimp only
      rw [hfold]
    rw [hct]
    obtain ⟨j2, hj2, hscan0⟩ := firstSome_some (fun j => scanAtJ ctx dp j
      ((bestScan dp (windowStates ctx minTok)).1 - (ctx.SR : Int)))
      ((List.range' minTok (ctx.maxJ + 1 - minTok)).reverse) c hfold
    have hscan : scanAtJ ctx dp j2
        ((bestScan dp (windowStates ctx minTok)).1 - (ctx.SR : Int))
        = some c := hscan0
    obtain ⟨hcj, -, -, -, -, hcf, -⟩ := scanAtJ_spec2 ctx dp j2 _ c hscan
    rw [← hcj] at hcf
    exact hI1 _ _ _ hcf

theorem selectState_dp_nonneg (ctx : RowCtx) (dp : Nat → Nat → Nat → Int)
    (hI1 : ∀ i j k, dp i j k ≠ NEG_INF → 0 ≤ dp i j k) (h0 : dp 0 0 0 = 0) :
    0 ≤ dp (selectState ctx dp).1 (selectState ctx dp).2.1
      (selectState ctx dp).2.2 := by
  rcases hfold : firstSome (fun m =>
      if (windowStates ctx m).any
          (fun p => decide (dp p.1 p.2.1 p.2.2 ≠ NEG_INF)) then
        some (chooseTier ctx dp m)
      else none) ((List.range (min MN_TOKENS ctx.tl + 1)).reverse)
    with - | st
  · have hsel : selectState ctx dp = (bestScan dp (windowStates ctx 0)).2 := by
      unfold selectState
      dsimp only
      rw [hfold]
    rw [hsel]
    rcases bestScan_spec dp (windowStates ctx 0) with h | ⟨-, h2, h3⟩
    · rw [h]
      dsimp only
      rw [h0]
    · apply hI1
      rw [← h2]
      omega
  · have hsel : selectState ctx dp = st := by
      unfold selectState
      dsimp only
      rw [hfold]
    rw [hsel]
    obtain ⟨m, hm, hfm⟩ := firstSome_some (fun m =>
        if (windowStates ctx m).any
            (fun p => decide (dp p.1 p.2.1 p.2.2 ≠ NEG_INF)) then
          some (chooseTier ctx dp m)
        else none) ((List.range (min MN_TOKENS ctx.tl + 1)).reverse) st hfold
    have hfm2 : (if (windowStates ctx m).any
        (fun p => decide (dp p.1 p.2.1 p.2.2 ≠ NEG_INF)) then
          some (chooseTier ctx dp m)
        else none) = some st := hfm
    by_cases hany : (windowStates ctx m).any
        (fun p => decide (dp p.1 p.2.1 p.2.2 ≠ NEG_INF)) = true
    · rw [if_pos hany] at hfm2
      rw [← (Option.some.injEq _ _).mp hfm2]
      exact chooseTier_dp_nonneg ctx dp m hI1 h0
    · rw [if_neg hany] at hfm2
      exact absurd hfm2 (by simp)

/-- The unconditional guarantees of one image row: separator-safe
segment adjacency, token segments exactly the consumed pending tokens,
and non-token segments newline-free. -/
theorem imageRow_spec (ctx : RowCtx) (rng : Rng) :
    List.Chain' safeSegPair (imageRow ctx rng).1 ∧
    segTokens (imageRow ctx rng).1 = tokensSlice ctx (imageRow ctx rng).2.1 ∧
    (∀ sg ∈ (imageRow ctx rng).1,
      (∃ t, sg = Seg.tok t) ∨ (∀ c ∈ Seg.text sg, c ≠ '\n')) := by
  unfold imageRow
  dsimp only
  have hInv := dpFill_dpInv ctx rng
  have hI1 : ∀ i j k, (dpFill ctx rng).dp i j k ≠ NEG_INF →
      0 ≤ (dpFill ctx rng).dp i j k := fun i j k h => (hInv i j k h).1
  have hnn := selectState_dp_nonneg ctx (dpFill ctx rng).dp hI1
    (dpFill_origin ctx rng)
  have hjle := selectState_j_le ctx (dpFill ctx rng).dp
  obtain ⟨h1, h2, h3, h4, h5⟩ := reconstruct_spec ctx (dpFill ctx rng) hInv
    ((selectState ctx (dpFill ctx rng).dp).1
      + (selectState ctx (dpFill ctx rng).dp).2.1 + 1)
    (selectState ctx (dpFill ctx rng).dp).1
    (selectState ctx (dpFill ctx rng).dp).2.1
    (selectState ctx (dpFill ctx rng).dp).2.2
    (dpFill ctx rng).rng (by omega) hnn hjle
  exact ⟨h3, h2, h4⟩

/-- With non-empty tokens and a space-light character map, every image
row is exactly `W_BOUND - 1` characters long. -/
theorem imageRow_len (ctx : RowCtx) (rng : Rng)
    (hne : ∀ t ∈ ctx.tokens, t ≠ [])
    (hsp : ctx.char01.getD 32 0 = 0) :
    (((imageRow ctx rng).1.map Seg.text).flatten).length = ctx.WB - 1 := by
  unfold imageRow
  dsimp only
  have hInv := dpFill_dpInv ctx rng
  have hI1 : ∀ i j k, (dpFill ctx rng).dp i j k ≠ NEG_INF →
      0 ≤ (dpFill ctx rng).dp i j k := fun i j k h => (hInv i j k h).1
  have hDOM : ∀ i j k, i + 1 < ctx.WB → k < 4 →
      (dpFill ctx rng).dp i j k ≠ NEG_INF →
      (dpFill ctx rng).dp i j k < (dpFill ctx rng).dp (ctx.WB - 1) j 0 ∧
      (dpFill ctx rng).dp (ctx.WB - 1) j 0 ≠ NEG_INF :=
    fun i j k hi hk hfin => dpFill_dom ctx rng hne hsp i j k hi hk hfin
  obtain ⟨hsel1, hsel2⟩ := selectState_spec ctx (dpFill ctx rng).dp hI1 hDOM
    (dpFill_window0 ctx rng)
  have hnn := selectState_dp_nonneg ctx (dpFill ctx rng).dp hI1
    (dpFill_origin ctx rng)
  have hjle := selectState_j_le ctx (dpFill ctx rng).dp
  obtain ⟨h1, -, -, -, -⟩ := reconstruct_spec ctx (dpFill ctx rng) hInv
    ((selectState ctx (dpFill ctx rng).dp).1
      + (selectState ctx (dpFill ctx rng).dp).2.1 + 1)
    (selectState ctx (dpFill ctx rng).dp).1
    (selectState ctx (dpFill ctx rng).dp).2.1
    (selectState ctx (dpFill ctx rng).dp).2.2
    (dpFill ctx rng).rng (by omega) hnn hjle
  rw [h1]
  exact hsel1

/-- Every emitted row has separator-safe adjacency. -/
theorem loopStep_row_chain (P : LoopPar) (st : LoopSt) (r : RowRec)
    (st2 : LoopSt) (h : loopStep P st = some (r, st2)) :
    List.Chain' safeSegPair r.segs := by
  unfold loopStep at h
  by_cases hc : st.taken < P.n ∨ st.row < P.H
  · rw [if_pos hc] at h
    by_cases hr : P.H ≤ st.row
    · rw [if_pos hr] at h
      obtain ⟨h1, -⟩ := Prod.mk.injEq .. ▸ (Option.some.injEq _ _).mp h
      rw [← h1]
      exact (overflowGo_chain P.tokens P.n _ _ _ _ _).1
    · rw [if_neg hr] at h
      obtain ⟨h1, -⟩ := Prod.mk.injEq .. ▸ (Option.some.injEq _ _).mp h
      rw [← h1]
      exact (imageRow_spec (mkRowCtx P st) st.rng).1
  · rw [if_neg hc] at h
    exact absurd h (by simp)

theorem loopGo_chain (P : LoopPar) :
    ∀ (fuel : Nat) (st : LoopSt), ∀ r ∈ (loopGo P fuel st).1,
      List.Chain' safeSegPair r.segs := by
  intro fuel
  induction fuel with
  | zero =>
    intro st r hr
    exact absurd hr (by simp [loopGo])
  | succ f ih =>
    intro st r hr
    unfold loopGo at hr
    cases hstep : loopStep P st with
    | none =>
      rw [hstep] at hr
      exact absurd hr (by simp)
    | some p =>
      obtain ⟨r2, st2⟩ := p
      rw [hstep] at hr
      dsimp only at hr
      rcases List.mem_cons.mp hr with rfl | hr2
      · exact loopStep_row_chain P st r st2 hstep
      · exact ih st2 r hr2

/-! ### Claim C5 -/

/-- **C5.**  Separator safety of the output, for every token list, every
art grid, every geometry, and every random stream: in every emitted row
(image band and overflow alike) any two adjacent segments that are both
source tokens satisfy `needs_separator = false`.  Rows are joined with
`'\n'` and the only other segments are spaces and comments, so adjacent
token pairs within a row are exactly the token occurrences that touch
with no intervening whitespace or comment in the output text. -/
theorem C5_separator_safety (tokens : List (List Char)) (W H : Nat)
    (td : List (List ℚ)) (dm : List ℚ) (g : Rng) :
    ∀ r ∈ (convert_layout_run tokens W H td dm g).1,
      List.Chain' safeSegPair r.segs := by
  intro r hr
  exact loopGo_chain _ _ _ r hr

/-! ### Splitting the output into physical lines. -/

/-- `splitLines` on the output byte stream, over `Char`. -/
def splitLinesC : List Char → List (List Char)
  | [] => [[]]
  | c :: rest =>
    if c = '\n' then [] :: splitLinesC rest
    else
      match splitLinesC rest with
      | l :: ls => (c :: l) :: ls
      | [] => [[c]]

theorem splitLinesC_ne_nil (l : List Char) : splitLinesC l ≠ [] := by
  cases l with
  | nil => simp [splitLinesC]
  | cons c rest =>
    unfold splitLinesC
    by_cases h : c = '\n'
    · simp [h]
    · simp only [h, if_false]
      cases splitLinesC rest <;> simp

/-- A newline-free chunk followed by `'\n'` contributes exactly one
line. -/
theorem splitLinesC_chunk (g : List Char) (hg : ∀ c ∈ g, c ≠ '\n') :
    ∀ rest : List Char,
      splitLinesC (g ++ '\n' :: rest) = g :: splitLinesC rest := by
  induction g with
  | nil =>
    intro rest
    simp [splitLinesC]
  | cons c g2 ih =>
    intro rest
    have hc : c ≠ '\n' := hg c (List.mem_cons_self c g2)
    have ih2 := ih (fun x hx => hg x (List.mem_cons_of_mem c hx)) rest
    simp only [List.cons_append, splitLinesC]
    rw [if_neg hc,
      show splitLinesC (g2.append ('\n' :: rest)) = g2 :: splitLinesC rest
        from ih2]

/-- Splitting the concatenation of newline-terminated newline-free rows
recovers the rows (plus the empty chunk after the final newline). -/
theorem splitLinesC_flatten (rows : List (List Char))
    (h : ∀ r ∈ rows, ∀ c ∈ r, c ≠ '\n') :
    splitLinesC ((rows.map (fun r => r ++ ['\n'])).flatten)
      = rows ++ [[]] := by
  induction rows with
  | nil => rfl
  | cons r rs ih =>
    simp only [List.map_cons, List.flatten_cons, List.append_assoc,
      List.singleton_append]
    rw [splitLinesC_chunk r (h r (List.mem_cons_self r rs))]
    rw [ih (fun r2 hr2 => h r2 (List.mem_cons_of_mem r hr2))]
    rfl

/-- The first physical line is the longest newline-free prefix. -/
theorem splitLinesC_head (l : List Char) :
    ∃ ls, splitLinesC l = (l.takeWhile (fun c => !(c == '\n'))) :: ls := by
  induction l with
  | nil => exact ⟨[], rfl⟩
  | cons c rest ih =>
    by_cases hc : c = '\n'
    · refine ⟨splitLinesC rest, ?_⟩
      subst hc
      rw [show List.takeWhile (fun c => !(c == '\n')) ('\n' :: rest) = []
        from by simp [List.takeWhile_cons]]
      simp [splitLinesC]
    · obtain ⟨ls, hls⟩ := ih
      refine ⟨ls, ?_⟩
      rw [show List.takeWhile (fun c => !(c == '\n')) (c :: rest)
          = c :: List.takeWhile (fun c => !(c == '\n')) rest
        from by simp [List.takeWhile_cons, hc]]
      simp only [splitLinesC]
      rw [if_neg hc, hls]

theorem takeWhile_prefix_stop (p : Char → Bool) :
    ∀ (A : List Char), (∀ c ∈ A, p c = true) → ∀ (x : Char), p x = false →
      ∀ (suf : List Char), (A ++ x :: suf).takeWhile p = A := by
  intro A
  induction A with
  | nil =>
    intro _ x hx suf
    simp [List.takeWhile_cons, hx]
  | cons c r ih =>
    intro hA x hx suf
    simp only [List.cons_append, List.takeWhile_cons,
      hA c (List.mem_cons_self c r)]
    rw [ih (fun d hd => hA d (List.mem_cons_of_mem c hd)) x hx suf]
    simp

/-! ### Newline-freeness and row lengths through the loop. -/

theorem text_mem_seg (segs : List Seg) (c : Char)
    (hc : c ∈ ((segs.map Seg.text).flatten)) :
    ∃ sg ∈ segs, c ∈ Seg.text sg := by
  rw [List.mem_flatten] at hc
  obtain ⟨l, hl, hcl⟩ := hc
  rw [List.mem_map] at hl
  obtain ⟨sg, hsg, rfl⟩ := hl
  exact ⟨sg, hsg, hcl⟩

theorem tokensSlice_mem (ctx : RowCtx) (m : Nat) (x : List Char)
    (hx : x ∈ tokensSlice ctx m) :
    ∃ t, t < m ∧ x = ctx.tokens.getD (ctx.taken + t) [] := by
  unfold tokensSlice at hx
  rw [List.mem_map] at hx
  obtain ⟨t, ht, rfl⟩ := hx
  exact ⟨t, List.mem_range.mp ht, rfl⟩

theorem getD_no_newline (tokens : List (List Char))
    (hnl : ∀ t ∈ tokens, '\n' ∉ t) (idx : Nat) (c : Char)
    (hc : c ∈ tokens.getD idx []) : c ≠ '\n' := by
  by_cases hlt : idx < tokens.length
  · intro heq
    rw [heq] at hc
    exact hnl _ (getD_mem_of_lt tokens idx [] hlt) hc
  · rw [List.getD_eq_default _ _ (by omega)] at hc
    exact absurd hc (by simp)

theorem segTokens_content (segs : List Seg) (t : List Char) (sg : Seg)
    (hsg : sg ∈ segs) (htok : sg = Seg.tok t) : t ∈ segTokens segs := by
  unfold segTokens
  rw [List.mem_filterMap]
  refine ⟨sg, hsg, ?_⟩
  rw [htok]

/-- One emitted row, fully specified: image rows are exactly
`W_BOUND - 1` characters, overflow rows lie in `[1, W_BOUND)`, and no
row text contains a newline. -/
theorem loopStep_row_spec (P : LoopPar)
    (hne : ∀ t ∈ P.tokens, t ≠ [])
    (hml : ∀ t ∈ P.tokens, t.length < P.W + shoot)
    (hnl : ∀ t ∈ P.tokens, '\n' ∉ t)
    (hsp : P.char01.getD 32 0 = 0)
    (st : LoopSt) (r : RowRec) (st2 : LoopSt)
    (h : loopStep P st = some (r, st2)) :
    (st.row < P.H → (RowRec.text r).length = P.W + shoot - 1) ∧
    (P.H ≤ st.row → 1 ≤ (RowRec.text r).length ∧
      (RowRec.text r).length < P.W + shoot) ∧
    (∀ c ∈ RowRec.text r, c ≠ '\n') := by
  unfold loopStep at h
  by_cases hc : st.taken < P.n ∨ st.row < P.H
  case neg =>
    rw [if_neg hc] at h
    exact absurd h (by simp)
  case pos =>
    rw [if_pos hc] at h
    by_cases hr : P.H ≤ st.row
    · rw [if_pos hr] at h
      obtain ⟨h1, -⟩ := Prod.mk.injEq .. ▸ (Option.some.injEq _ _).mp h
      have htaken : st.taken < P.n := by omega
      have hfuel : P.n - st.taken = (P.n - st.taken - 1) + 1 := by omega
      have hnP : P.n = P.tokens.length := rfl
      have htokne : P.tokens.getD st.taken [] ≠ [] :=
        hne _ (getD_mem_of_lt P.tokens st.taken [] (by omega))
      refine ⟨fun hrow => absurd hrow (by omega), fun _ => ?_, ?_⟩
      · constructor
        · rw [← h1]
          show 1 ≤ (((overflowGo P.tokens P.n _ (P.n - st.taken)
            st.taken 0 []).1.map Seg.text).flatten).length
          rw [hfuel]
          exact overflowGo_len_lb P.tokens P.n _ _ st.taken htaken htokne
        · rw [← h1]
          show (((overflowGo P.tokens P.n _ (P.n - st.taken)
            st.taken 0 []).1.map Seg.text).flatten).length < P.W + shoot
          have hub := overflowGo_len_ub P.tokens P.n
            (P.W + (st.rng.draw shoot).1) (P.W + shoot - 1)
            (fun t ht => by have := hml t ht; omega)
            (P.n - st.taken) st.taken 0 [] (fun _ => rfl) (by omega)
          have hdr : (st.rng.draw shoot).1 < shoot := Nat.mod_lt _ (by decide)
          rcases hub with h2 | h2
          · omega
          · omega
      · intro c hcm
        rw [← h1] at hcm
        obtain ⟨sg, hsg, hcsg⟩ := text_mem_seg _ c hcm
        rcases overflowGo_segs_mem P.tokens P.n _ _ _ _ _ sg hsg with
          h2 | ⟨t, h2, h3⟩
        · rw [h2] at hcsg
          simp only [Seg.text, List.mem_singleton] at hcsg
          rw [hcsg]
          decide
        · rw [h2] at hcsg
          simp only [Seg.text] at hcsg
          rcases h3 with h4 | h4
          · intro heq
            rw [heq] at hcsg
            exact hnl t h4 hcsg
          · rw [h4] at hcsg
            exact absurd hcsg (by simp)
    · rw [if_neg hr] at h
      obtain ⟨h1, -⟩ := Prod.mk.injEq .. ▸ (Option.some.injEq _ _).mp h
      have hctx_tok : (mkRowCtx P st).tokens = P.tokens := rfl
      have hctx_ch : (mkRowCtx P st).char01 = P.char01 := rfl
      have hctx_wb : (mkRowCtx P st).WB = P.W + shoot := rfl
      obtain ⟨-, hseg2, hseg3⟩ := imageRow_spec (mkRowCtx P st) st.rng
      refine ⟨fun _ => ?_, fun hrow => absurd hrow (by omega), ?_⟩
      · rw [← h1]
        show (((imageRow (mkRowCtx P st) st.rng).1.map
          Seg.text).flatten).length = P.W + shoot - 1
        rw [imageRow_len (mkRowCtx P st) st.rng
          (by rw [hctx_tok]; exact hne) (by rw [hctx_ch]; exact hsp)]
        rfl
      · intro c hcm
        rw [← h1] at hcm
        obtain ⟨sg, hsg, hcsg⟩ := text_mem_seg _ c hcm
        rcases hseg3 sg hsg with ⟨t, h2⟩ | h2
        · have hmem := segTokens_content _ t sg hsg h2
          simp only [RowRec.segs] at hmem
          rw [hseg2] at hmem
          obtain ⟨t2, -, rfl⟩ := tokensSlice_mem _ _ _ hmem
          rw [h2] at hcsg
          simp only [Seg.text] at hcsg
          exact getD_no_newline P.tokens hnl _ c hcsg
        · exact h2 c hcsg

/-- The rows of the whole run: lengths by band, newline-freeness, and
the row count. -/
theorem loopGo_rows (P : LoopPar)
    (hne : ∀ t ∈ P.tokens, t ≠ [])
    (hml : ∀ t ∈ P.tokens, t.length < P.W + shoot)
    (hnl : ∀ t ∈ P.tokens, '\n' ∉ t)
    (hsp : P.char01.getD 32 0 = 0) :
    ∀ (fuel : Nat) (st : LoopSt),
      ((loopGo P fuel st).1.length
        = (loopGo P fuel st).2.1.row - st.row ∧
       st.row ≤ (loopGo P fuel st).2.1.row) ∧
      (∀ r ∈ (loopGo P fuel st).1.take (P.H - st.row),
        (RowRec.text r).length = P.W + shoot - 1) ∧
      (∀ r ∈ (loopGo P fuel st).1.drop (P.H - st.row),
        1 ≤ (RowRec.text r).length ∧
          (RowRec.text r).length < P.W + shoot) ∧
      (∀ r ∈ (loopGo P fuel st).1, ∀ c ∈ RowRec.text r, c ≠ '\n') := by
  intro fuel
  induction fuel with
  | zero =>
    intro st
    refine ⟨⟨by simp [loopGo], by simp [loopGo]⟩, ?_, ?_, ?_⟩
    · intro r hr
      exact absurd hr (by simp [loopGo])
    · intro r hr
      exact absurd hr (by simp [loopGo])
    · intro r hr
      exact absurd hr (by simp [loopGo])
  | succ f ih =>
    intro st
    unfold loopGo
    cases hstep : loopStep P st with
    | none =>
      refine ⟨⟨by simp, by simp⟩, ?_, ?_, ?_⟩
      · intro r hr
        exact absurd hr (by simp)
      · intro r hr
        exact absurd hr (by simp)
      · intro r hr
        exact absurd hr (by simp)
    | some p =>
      obtain ⟨r0, st2⟩ := p
      dsimp only
      obtain ⟨⟨ihl, ihm⟩, iht, ihd, ihn⟩ := ih st2
      obtain ⟨-, hrow⟩ := loopStep_mono P st r0 st2 hstep
      obtain ⟨hs1, hs2, hs3⟩ :=
        loopStep_row_spec P hne hml hnl hsp st r0 st2 hstep
      refine ⟨⟨?_, ?_⟩, ?_, ?_, ?_⟩
      · simp only [List.length_cons]
        omega
      · omega
      · intro r hr
        by_cases hband : st.row < P.H
        · have htk : P.H - st.row = (P.H - st2.row) + 1 := by omega
          rw [htk, List.take_succ_cons] at hr
          rcases List.mem_cons.mp hr with rfl | hr2
          · exact hs1 hband
          · exact iht r hr2
        · have htk : P.H - st.row = 0 := by omega
          rw [htk] at hr
          exact absurd hr (by simp)
      · intro r hr
        by_cases hband : st.row < P.H
        · have htk : P.H - st.row = (P.H - st2.row) + 1 := by omega
          rw [htk, List.drop_succ_cons] at hr
          exact ihd r hr
        · have htk : P.H - st.row = 0 := by omega
          have htk2 : P.H - st2.row = 0 := by omega
          rw [htk] at hr
          rw [List.drop_zero] at hr
          rcases List.mem_cons.mp hr with rfl | hr2
          · exact hs2 (by omega)
          · have := ihd r
            rw [htk2, List.drop_zero] at this
            exact this hr2
      · intro r hr
        rcases List.mem_cons.mp hr with rfl | hr2
        · exact hs3
        · exact ihn r hr2

/-! ### Claim C2 support: the top selection tier and token placement. -/

theorem firstSome_cons_some {a b : Type _} (f : a → Option b) (x : a)
    (l : List a) (c : b) (h : f x = some c) :
    firstSome f (x :: l) = some c := by
  simp only [firstSome]
  rw [h]

/-- When the top tier `min(MN_TOKENS, tokens_left)` holds a reachable
state, the selection is taken from it: at least that many tokens are
placed (and the column is `W_BOUND - 1` under domination). -/
theorem selectState_top (ctx : RowCtx) (dp : Nat → Nat → Nat → Int)
    (hI1 : ∀ i j k, dp i j k ≠ NEG_INF → 0 ≤ dp i j k)
    (hDOM : ∀ i j k, i + 1 < ctx.WB → k < 4 → dp i j k ≠ NEG_INF →
      dp i j k < dp (ctx.WB - 1) j 0 /\ dp (ctx.WB - 1) j 0 ≠ NEG_INF)
    (hexT : ∃ p, p ∈ windowStates ctx (min MN_TOKENS ctx.tl) /\
      dp p.1 p.2.1 p.2.2 ≠ NEG_INF) :
    (selectState ctx dp).1 = ctx.WB - 1 /\
    dp (selectState ctx dp).1 (selectState ctx dp).2.1
      (selectState ctx dp).2.2 ≠ NEG_INF /\
    min MN_TOKENS ctx.tl ≤ (selectState ctx dp).2.1 := by
  obtain ⟨ p0, hp0w, hp0f ⟩ := hexT
  have hany : (windowStates ctx (min MN_TOKENS ctx.tl)).any
      (fun p => decide (dp p.1 p.2.1 p.2.2 ≠ NEG_INF)) = true :=
    List.any_eq_true.mpr ⟨ p0, hp0w, decide_eq_true hp0f ⟩
  have htiers : (List.range (min MN_TOKENS ctx.tl + 1)).reverse
      = min MN_TOKENS ctx.tl :: (List.range (min MN_TOKENS ctx.tl)).reverse := by
    rw [List.range_succ, List.reverse_append]
    rfl
  have hfx : (fun m =>
      if (windowStates ctx m).any
          (fun p => decide (dp p.1 p.2.1 p.2.2 ≠ NEG_INF)) then
        some (chooseTier ctx dp m)
      else none) (min MN_TOKENS ctx.tl)
      = some (chooseTier ctx dp (min MN_TOKENS ctx.tl)) := by
    dsimp only
    rw [if_pos hany]
  have hfold : firstSome (fun m =>
      if (windowStates ctx m).any
          (fun p => decide (dp p.1 p.2.1 p.2.2 ≠ NEG_INF)) then
        some (chooseTier ctx dp m)
      else none) ((List.range (min MN_TOKENS ctx.tl + 1)).reverse)
      = some (chooseTier ctx dp (min MN_TOKENS ctx.tl)) := by
    rw [htiers]
    exact firstSome_cons_some _ _ _ _ hfx
  have hsel : selectState ctx dp = chooseTier ctx dp (min MN_TOKENS ctx.tl) := by
    unfold selectState
    dsimp only
    rw [hfold]
  rw [hsel]
  have hct := chooseTier_spec ctx dp (min MN_TOKENS ctx.tl) hI1 hDOM
    ⟨ p0, hp0w, hp0f ⟩
  exact ⟨ hct.1, hct.2.1, hct.2.2 ⟩

theorem foldl_max_base_le :
    ∀ (l : List (List Char)) (b : Nat),
      b ≤ l.foldl (fun m t => max m t.length) b := by
  intro l
  induction l with
  | nil => intro b; exact le_refl b
  | cons x r ih =>
    intro b
    simp only [List.foldl_cons]
    exact le_trans (le_max_left b x.length) (ih (max b x.length))

/-- Every token is bounded by the running maximum of the lengths. -/
theorem foldl_max_len_le (tokens : List (List Char)) :
    ∀ (b : Nat) (t : List Char), t ∈ tokens →
      t.length ≤ tokens.foldl (fun m t => max m t.length) b := by
  induction tokens with
  | nil =>
    intro b t ht
    exact absurd ht (by simp)
  | cons x r ih =>
    intro b t ht
    simp only [List.foldl_cons]
    rcases List.mem_cons.mp ht with rfl | h2
    · exact le_trans (le_max_right b t.length) (foldl_max_base_le r _)
    · exact ih _ t h2

theorem range_map_getD {a : Type _} (n : Nat) (f : Nat → a) (d : a)
    (i : Nat) (hi : i < n) :
    ((List.range n).map f).getD i d = f i := by
  rw [List.getD_eq_getElem?_getD, List.getElem?_map, List.getElem?_range hi]
  rfl

/-- The default density map gives the space character a `0` target. -/
theorem default_density_space :
    is_one (default_ascii_density_01.getD 32 1) = false := by
  have h1 : default_ascii_density_01.getD 32 1 = 0 := by
    show ((List.range 128).map fun c =>
      if c = 32 then (0 : ℚ) else 1).getD 32 1 = 0
    rw [range_map_getD 128 _ 1 32 (by omega)]
    simp
  rw [h1]
  unfold is_one
  rw [decide_eq_false_iff_not]
  norm_num

/-- The collapsed character map of `layoutParams` is space-light exactly
when the density map gives the space a sub-`1/2` density. -/
theorem layoutParams_char01_space (tokens : List (List Char)) (W H : Nat)
    (td : List (List ℚ)) (dm : List ℚ)
    (hsp : is_one (dm.getD 32 1) = false) :
    (layoutParams tokens W H td dm).char01.getD 32 0 = 0 := by
  show ((List.range 128).map fun c =>
    if is_one (dm.getD c 1) then 1 else 0).getD 32 0 = 0
  rw [range_map_getD 128 _ 0 32 (by omega), hsp]
  simp

theorem segTokens_eq_nil_no_tok (l : List Seg) (h : segTokens l = []) :
    ∀ sg, sg ∈ l → ∀ u, sg ≠ Seg.tok u := by
  induction l with
  | nil =>
    intro sg hsg
    exact absurd hsg (by simp)
  | cons s r ih =>
    intro sg hsg u
    cases s with
    | sp =>
      rcases List.mem_cons.mp hsg with rfl | h2
      · simp
      · exact ih (by simpa [segTokens, List.filterMap_cons] using h) sg h2 u
    | com c =>
      rcases List.mem_cons.mp hsg with rfl | h2
      · simp
      · exact ih (by simpa [segTokens, List.filterMap_cons] using h) sg h2 u
    | tok t =>
      exact absurd h (by simp [segTokens, List.filterMap_cons])

/-- A segment list with a single token content splits around it. -/
theorem segTokens_single_split (l : List Seg) (t : List Char)
    (h : segTokens l = [t]) :
    ∃ A B, l = A ++ Seg.tok t :: B /\
      (∀ sg, sg ∈ A → ∀ u, sg ≠ Seg.tok u) /\
      (∀ sg, sg ∈ B → ∀ u, sg ≠ Seg.tok u) := by
  induction l with
  | nil => exact absurd h (by simp [segTokens])
  | cons s r ih =>
    cases s with
    | sp =>
      have h2 : segTokens r = [t] := by
        simpa [segTokens, List.filterMap_cons] using h
      obtain ⟨ A, B, rfl, hA, hB ⟩ := ih h2
      refine ⟨ Seg.sp :: A, B, rfl, ?_, hB ⟩
      intro sg hsg u
      rcases List.mem_cons.mp hsg with rfl | h3
      · simp
      · exact hA sg h3 u
    | com c =>
      have h2 : segTokens r = [t] := by
        simpa [segTokens, List.filterMap_cons] using h
      obtain ⟨ A, B, rfl, hA, hB ⟩ := ih h2
      refine ⟨ Seg.com c :: A, B, rfl, ?_, hB ⟩
      intro sg hsg u
      rcases List.mem_cons.mp hsg with rfl | h3
      · simp
      · exact hA sg h3 u
    | tok u =>
      have h2 : u :: segTokens r = [t] := by
        simpa [segTokens, List.filterMap_cons] using h
      injection h2 with h2a h2b
      subst h2a
      refine ⟨ [], r, rfl, by simp, ?_ ⟩
      exact segTokens_eq_nil_no_tok r h2b

/-- With exactly one pending token, whose length fits the row bound,
non-empty tokens, and a space-light character map, the image row places
exactly that token. -/
theorem imageRow_single_token (ctx : RowCtx) (rng : Rng)
    (hne : ∀ t ∈ ctx.tokens, t ≠ [])
    (hsp : ctx.char01.getD 32 0 = 0)
    (htl : ctx.tl = 1)
    (hfit : (ctx.tokens.getD ctx.taken []).length < ctx.WB) :
    segTokens (imageRow ctx rng).1 = [ctx.tokens.getD ctx.taken []] := by
  have hWB : ctx.WB = ctx.W + 10 := rfl
  have hIS : ctx.iStart = ctx.W - 10 := rfl
  have htn : ctx.tl = ctx.n - ctx.taken := rfl
  have hn : ctx.n = ctx.tokens.length := rfl
  have hni := NEG_INF_neg
  have hmax : ctx.maxJ = 1 := by
    have h1 : ctx.maxJ = min (ctx.WB - 1) ctx.tl := rfl
    rw [h1, htl]
    omega
  have hmt : min MN_TOKENS ctx.tl = 1 := by
    rw [htl]
    rfl
  have htaken : ctx.taken < ctx.n := by omega
  have hmemtok : ctx.tokens.getD ctx.taken [] ∈ ctx.tokens :=
    getD_mem_of_lt ctx.tokens ctx.taken [] (by omega)
  have hlen1 : 1 ≤ (ctx.tokens.getD ctx.taken []).length := by
    have h2 := hne _ hmemtok
    have h3 := List.length_pos.mpr h2
    omega
  have h000 := dpFill_origin ctx rng
  have hfin000 : (dpFill ctx rng).dp 0 0 0 ≠ NEG_INF := by
    rw [h000]
    omega
  have hmem0 : ((0 : Nat), (0 : Nat), (0 : Nat)) ∈ posList ctx := by
    rw [posList_mem]
    refine ⟨by omega, ?_, by omega⟩
    omega
  have htok := dpFill_token ctx rng 0 0 0 hmem0 (by omega) (by omega)
    (by simpa using hfit) hfin000
  simp only [Nat.zero_add, Nat.add_zero] at htok
  have hns : ctx.needSep 0 = false := by
    unfold RowCtx.needSep
    rw [if_neg (by omega : ¬ ctx.taken + 0 + 1 < ctx.n)]
  have hnk : (if (if 0 ≤ ctx.maxJ then ctx.needSep 0 else false)
      then 2 else 3) = 3 := by
    rw [hns]
    simp
  rw [hnk] at htok
  have hts := token_score_nonneg ctx 0 (ctx.tokens.getD ctx.taken [])
  rw [h000] at htok
  have hfinL : (dpFill ctx rng).dp
      ((ctx.tokens.getD ctx.taken []).length) 1 3 ≠ NEG_INF := by
    intro hc
    rw [hc] at htok
    omega
  have hcl := dpFill_climb ctx rng 1
    (ctx.WB - 1 - (ctx.tokens.getD ctx.taken []).length)
    ((ctx.tokens.getD ctx.taken []).length) 3
    (by rw [htl]; omega) (by omega) (by omega) hfinL
  have heqi : (ctx.tokens.getD ctx.taken []).length
      + (ctx.WB - 1 - (ctx.tokens.getD ctx.taken []).length)
      = ctx.WB - 1 := by omega
  rw [heqi] at hcl
  have hkk : (if ctx.WB - 1 - (ctx.tokens.getD ctx.taken []).length = 0
      then 3 else 0) < 4 := by
    split
    · omega
    · omega
  have hInv := dpFill_dpInv ctx rng
  have hI1 : ∀ i j k, (dpFill ctx rng).dp i j k ≠ NEG_INF →
      0 ≤ (dpFill ctx rng).dp i j k := fun i j k h => (hInv i j k h).1
  have hDOM : ∀ i j k, i + 1 < ctx.WB → k < 4 →
      (dpFill ctx rng).dp i j k ≠ NEG_INF →
      (dpFill ctx rng).dp i j k < (dpFill ctx rng).dp (ctx.WB - 1) j 0 ∧
      (dpFill ctx rng).dp (ctx.WB - 1) j 0 ≠ NEG_INF :=
    fun i j k hi hk hfin => dpFill_dom ctx rng hne hsp i j k hi hk hfin
  have hexT : ∃ p, p ∈ windowStates ctx (min MN_TOKENS ctx.tl) ∧
      (dpFill ctx rng).dp p.1 p.2.1 p.2.2 ≠ NEG_INF := by
    refine ⟨(ctx.WB - 1, 1,
      if ctx.WB - 1 - (ctx.tokens.getD ctx.taken []).length = 0
        then 3 else 0), ?_, hcl.2⟩
    rw [windowStates_mem]
    dsimp only
    refine ⟨by omega, by omega, by omega, by omega, hkk⟩
  have hst := selectState_top ctx (dpFill ctx rng).dp hI1 hDOM hexT
  have hjle := selectState_j_le ctx (dpFill ctx rng).dp
  have hjeq : (selectState ctx (dpFill ctx rng).dp).2.1 = 1 := by
    have h1 := hst.2.2
    rw [hmt] at h1
    omega
  have hj2 : (imageRow ctx rng).2.1
      = (selectState ctx (dpFill ctx rng).dp).2.1 := rfl
  rw [(imageRow_spec ctx rng).2.1, hj2, hjeq]
  unfold tokensSlice
  rw [show List.range 1 = [0] from rfl]
  simp

/-! ### Claim C2: the line-width band. -/

/-- **C2, amended.**  The claimed band holds for newline-free tokens
and a space-light density map (the map `main` always uses): under the
asserted precondition, the run succeeds, the output splits on `'\n'`
into the line texts plus one empty trailing chunk, there are at least
`H` lines, every line is shorter than `W_BOUND = W + 10`, each of the
first `H` lines has length at least `W` (in fact exactly `W_BOUND - 1`),
and every later line is non-empty.  (The unamended claim is refuted by
`C2_counterexample_multiline_token`: a token carrying a newline splits
an image row into physical lines shorter than `W`.) -/
theorem C2_amended_line_width_band (tokens : List (List Char)) (W H : Nat)
    (td : List (List ℚ)) (dm : List ℚ) (g : Rng)
    (hpre : max min_width (tokens.foldl (fun m t => max m t.length) 0)
      < W + shoot)
    (hne : ∀ t ∈ tokens, t ≠ [])
    (hnl : ∀ t ∈ tokens, '\n' ∉ t)
    (hsp : is_one (dm.getD 32 1) = false) :
    ∃ out, convert_layout tokens W H td dm g = some out ∧
      ∃ ls : List (List Char), splitLinesC out = ls ++ [[]] ∧
        H ≤ ls.length ∧
        (∀ l ∈ ls, l.length < W + shoot) ∧
        (∀ l ∈ ls.take H, W ≤ l.length) ∧
        (∀ l ∈ ls.drop H, 1 ≤ l.length) := by
  have hshoot : shoot = 10 := rfl
  have hn : (layoutParams tokens W H td dm).n = tokens.length := rfl
  have hH : (layoutParams tokens W H td dm).H = H := rfl
  have hml : ∀ t ∈ (layoutParams tokens W H td dm).tokens,
      t.length < (layoutParams tokens W H td dm).W + shoot := by
    intro t ht
    have h2 := foldl_max_len_le tokens 0 t ht
    show t.length < W + shoot
    omega
  have hsp2 : (layoutParams tokens W H td dm).char01.getD 32 0 = 0 :=
    layoutParams_char01_space tokens W H td dm hsp
  obtain ⟨⟨hlen, hrow0⟩, htake, hdrop, hnlr⟩ :=
    loopGo_rows (layoutParams tokens W H td dm) hne hml hnl hsp2
      (tokens.length + H + 1) ⟨0, 0, g⟩
  have hcomp := loopGo_complete (layoutParams tokens W H td dm)
    (tokens.length + H + 1) ⟨0, 0, g⟩ (by simp only [hn, hH]; omega)
  have hW : (layoutParams tokens W H td dm).W = W := rfl
  have hrow00 : (⟨0, 0, g⟩ : LoopSt).row = 0 := rfl
  refine ⟨_, by unfold convert_layout; dsimp only; rw [if_pos hpre], ?_⟩
  refine ⟨((convert_layout_run tokens W H td dm g).1).map RowRec.text,
    ?_, ?_, ?_, ?_, ?_⟩
  · have harg : (((convert_layout_run tokens W H td dm g).1).map
        RowRec.text).map (fun r => r ++ ['\n'])
        = ((convert_layout_run tokens W H td dm g).1).map
          (fun r => RowRec.text r ++ ['\n']) := by
      rw [List.map_map]
      rfl
    have hsplit := splitLinesC_flatten
      (((convert_layout_run tokens W H td dm g).1).map RowRec.text)
      (by
        intro r hr c hc
        obtain ⟨r2, hr2, rfl⟩ := List.mem_map.mp hr
        exact hnlr r2 hr2 c hc)
    rw [harg] at hsplit
    exact hsplit
  · rw [List.length_map]
    have h2 := hcomp.2.2
    rw [hH] at h2
    show H ≤ (convert_layout_run tokens W H td dm g).1.length
    unfold convert_layout_run
    omega
  · intro l hl
    obtain ⟨r, hr, rfl⟩ := List.mem_map.mp hl
    have hsplit2 : (convert_layout_run tokens W H td dm g).1.take H
        ++ (convert_layout_run tokens W H td dm g).1.drop H
        = (convert_layout_run tokens W H td dm g).1 :=
      List.take_append_drop H _
    rw [← hsplit2] at hr
    rcases List.mem_append.mp hr with h2 | h2
    · have h3 := htake r h2
      show (RowRec.text r).length < W + shoot
      omega
    · have h3 := hdrop r h2
      show (RowRec.text r).length < W + shoot
      omega
  · intro l hl
    rw [← List.map_take] at hl
    obtain ⟨r, hr, rfl⟩ := List.mem_map.mp hl
    have h3 := htake r hr
    show W ≤ (RowRec.text r).length
    omega
  · intro l hl
    rw [← List.map_drop] at hl
    obtain ⟨r, hr, rfl⟩ := List.mem_map.mp hl
    have h3 := hdrop r hr
    show 1 ≤ (RowRec.text r).length
    omega

/-- Witness for the amended C2: a single one-character token with
`W = 71, H = 0` satisfies every hypothesis. -/
theorem C2_amended_line_width_band_witness :
    (max min_width ([['a']].foldl (fun m t => max m t.length) 0) < 71 + shoot
      ∧ (∀ t ∈ [['a']], t ≠ []) ∧ (∀ t ∈ [['a']], '\n' ∉ t)
      ∧ is_one (default_ascii_density_01.getD 32 1) = false) ∧
    (∃ out, convert_layout [['a']] 71 0 [] default_ascii_density_01
        ⟨fun _ => 0, 0⟩ = some out ∧
      ∃ ls : List (List Char), splitLinesC out = ls ++ [[]] ∧
        0 ≤ ls.length ∧
        (∀ l ∈ ls, l.length < 71 + shoot) ∧
        (∀ l ∈ ls.take 0, 71 ≤ l.length) ∧
        (∀ l ∈ ls.drop 0, 1 ≤ l.length)) :=
  ⟨⟨by decide, by decide, by decide, default_density_space⟩,
    C2_amended_line_width_band [['a']] 71 0 [] default_ascii_density_01
      ⟨fun _ => 0, 0⟩ (by decide) (by decide) (by decide)
      default_density_space⟩

/-- An image-band iteration of the loop, explicitly. -/
theorem loopStep_image_eq (P : LoopPar) (st : LoopSt) (hr : st.row < P.H) :
    loopStep P st = some (RowRec.image (imageRow (mkRowCtx P st) st.rng).1,
      ⟨st.taken + (imageRow (mkRowCtx P st) st.rng).2.1, st.row + 1,
        (imageRow (mkRowCtx P st) st.rng).2.2⟩) := by
  unfold loopStep
  rw [if_pos (Or.inr hr), if_neg (by omega : ¬ st.row ≥ P.H)]

theorem loopGo_succ_some (P : LoopPar) (fuel : Nat) (st : LoopSt)
    (r : RowRec) (st2 : LoopSt) (h : loopStep P st = some (r, st2)) :
    loopGo P (fuel + 1) st
      = (r :: (loopGo P fuel st2).1, (loopGo P fuel st2).2) := by
  simp only [loopGo]
  rw [h]

/-- The failing token for C2: a 78-character raw-string literal whose
body carries a newline (`R"(`, a newline, 72 `a`s, `)"`). -/
def c2_token : List Char :=
  'R' :: '"' :: '(' :: '\n' :: (List.replicate 72 'a' ++ [')', '"'])

/-- The loop parameters of the C2 counterexample run. -/
def c2P : LoopPar := layoutParams [c2_token] 71 1 [] default_ascii_density_01

/-- The row context of the counterexample's first (image) row; it does
not depend on the random stream. -/
def c2ctx : RowCtx := mkRowCtx c2P ⟨0, 0, ⟨fun _ => 0, 0⟩⟩

/-- With the single multi-line raw-string token `c2_token`, `W = 71`,
`H = 1`, and the default density map, the precondition holds and the
conversion succeeds for every random stream, yet the first physical
output line is strictly shorter than `W = 71`: the image row must carry
the token (the selection insists on `min(MN_TOKENS, tokens_left) = 1`
placed token), and the newline inside the token ends the first line
after at most `2 + 3` characters. -/
theorem c2_all_streams_short_first_line (g : Rng) :
    ∃ out, convert_layout [c2_token] 71 1 [] default_ascii_density_01 g
        = some out ∧
      ∃ fl ls, splitLinesC out = fl :: ls ∧ fl.length < 71 := by
  have hpre : max min_width
      ([c2_token].foldl (fun m t => max m t.length) 0) < 71 + shoot := by
    decide
  have hne : ∀ t ∈ c2ctx.tokens, t ≠ [] := by decide
  have hsp : c2ctx.char01.getD 32 0 = 0 :=
    layoutParams_char01_space [c2_token] 71 1 [] default_ascii_density_01
      default_density_space
  have hctl : c2ctx.tl = 1 := by decide
  have hfit : (c2ctx.tokens.getD c2ctx.taken []).length < c2ctx.WB := by
    decide
  have hgd : c2ctx.tokens.getD c2ctx.taken [] = c2_token := rfl
  have hseg : segTokens (imageRow c2ctx g).1 = [c2_token] := by
    rw [imageRow_single_token c2ctx g hne hsp hctl hfit, hgd]
  have hlen80 : (((imageRow c2ctx g).1.map Seg.text).flatten).length = 80 := by
    rw [imageRow_len c2ctx g hne hsp]
    rfl
  have hh4 := (imageRow_spec c2ctx g).2.2
  obtain ⟨A, B, hAB, hA, hB⟩ :=
    segTokens_single_split (imageRow c2ctx g).1 c2_token hseg
  have hc2len : c2_token.length = 78 := by decide
  rw [hAB] at hlen80
  simp only [List.map_append, List.map_cons, List.flatten_append,
    List.flatten_cons, List.length_append, Seg.text, hc2len] at hlen80
  have hAle : ((A.map Seg.text).flatten).length ≤ 2 := by omega
  have hAnl : ∀ c ∈ (A.map Seg.text).flatten, c ≠ '\n' := by
    intro c hc
    obtain ⟨sg, hsg, hcsg⟩ := text_mem_seg A c hc
    have hsgm : sg ∈ (imageRow c2ctx g).1 := by
      rw [hAB]
      exact List.mem_append_left _ hsg
    rcases hh4 sg hsgm with ⟨t, ht⟩ | hfree
    · exact absurd ht (hA sg hsg t)
    · exact hfree c hcsg
  have hctxg : mkRowCtx c2P ⟨0, 0, g⟩ = c2ctx := rfl
  have hstep : loopStep c2P ⟨0, 0, g⟩
      = some (RowRec.image (imageRow c2ctx g).1,
        ⟨0 + (imageRow c2ctx g).2.1, 0 + 1, (imageRow c2ctx g).2.2⟩) := by
    have h0 := loopStep_image_eq c2P ⟨0, 0, g⟩
      (show (0 : Nat) < (1 : Nat) by omega)
    dsimp only at h0
    rw [hctxg] at h0
    exact h0
  have hout1 : (convert_layout_run [c2_token] 71 1 []
        default_ascii_density_01 g).1
      = RowRec.image (imageRow c2ctx g).1
        :: (loopGo c2P 2 ⟨0 + (imageRow c2ctx g).2.1, 0 + 1,
          (imageRow c2ctx g).2.2⟩).1 := by
    show (loopGo c2P ([c2_token].length + 1 + 1) ⟨0, 0, g⟩).1 = _
    rw [show [c2_token].length + 1 + 1 = 2 + 1 from by decide,
      loopGo_succ_some c2P 2 ⟨0, 0, g⟩ _ _ hstep]
  have houtflat : (((convert_layout_run [c2_token] 71 1 []
        default_ascii_density_01 g).1).map
          (fun r => RowRec.text r ++ ['\n'])).flatten
      = (((imageRow c2ctx g).1.map Seg.text).flatten ++ ['\n'])
        ++ (((loopGo c2P 2 ⟨0 + (imageRow c2ctx g).2.1, 0 + 1,
            (imageRow c2ctx g).2.2⟩).1).map
          (fun r => RowRec.text r ++ ['\n'])).flatten := by
    rw [hout1]
    simp only [List.map_cons, List.flatten_cons]
    rfl
  have hr1flat : ((imageRow c2ctx g).1.map Seg.text).flatten
      = (A.map Seg.text).flatten
        ++ (c2_token ++ (B.map Seg.text).flatten) := by
    rw [hAB]
    simp [List.map_append, List.flatten_append, Seg.text]
  have hform : (((convert_layout_run [c2_token] 71 1 []
        default_ascii_density_01 g).1).map
          (fun r => RowRec.text r ++ ['\n'])).flatten
      = ((A.map Seg.text).flatten ++ ['R', '"', '('])
        ++ '\n' :: (List.replicate 72 'a' ++ ([')', '"']
          ++ ((B.map Seg.text).flatten
            ++ '\n' :: (((loopGo c2P 2 ⟨0 + (imageRow c2ctx g).2.1, 0 + 1,
                (imageRow c2ctx g).2.2⟩).1).map
              (fun r => RowRec.text r ++ ['\n'])).flatten))) := by
    rw [houtflat, hr1flat]
    simp [c2_token, List.append_assoc]
  refine ⟨_, by unfold convert_layout; dsimp only; rw [if_pos hpre], ?_⟩
  obtain ⟨ls0, hls0⟩ := splitLinesC_head
    ((((convert_layout_run [c2_token] 71 1 []
      default_ascii_density_01 g).1).map
        (fun r => RowRec.text r ++ ['\n'])).flatten)
  refine ⟨_, ls0, hls0, ?_⟩
  have han : ∀ c ∈ (A.map Seg.text).flatten ++ ['R', '"', '('],
      (fun c => !(c == '\n')) c = true := by
    intro c hc
    rcases List.mem_append.mp hc with h2 | h2
    · have h3 := hAnl c h2
      simp [h3]
    · have h3 : c = 'R' ∨ c = '"' ∨ c = '(' := by simpa using h2
      rcases h3 with rfl | rfl | rfl <;> decide
  rw [hform, takeWhile_prefix_stop (fun c => !(c == '\n'))
    ((A.map Seg.text).flatten ++ ['R', '"', '(']) han '\n' (by decide) _]
  simp only [List.length_append]
  have h3 : ([('R' : Char), '"', '(']).length = 3 := by decide
  omega

/-- **C2, violation.**  The instance of `c2_all_streams_short_first_line`
at one concrete random stream: converting the multi-line raw-string
token `c2_token` with `W = 71, H = 1` succeeds, but the first physical
output line is shorter than `W = 71` characters, refuting the clause
"each of the first `H` lines has length at least `W`".  (The cited
lemma shows the same for every random stream.) -/
theorem C2_counterexample_multiline_token :
    ∃ out, convert_layout [c2_token] 71 1 [] default_ascii_density_01
        ⟨fun _ => 0, 0⟩ = some out ∧
      ∃ fl ls, splitLinesC out = fl :: ls ∧ fl.length < 71 :=
  c2_all_streams_short_first_line ⟨fun _ => 0, 0⟩

/-- Witness for C5: in the concrete run on one token with `H = 0`, the
single emitted overflow row has separator-safe adjacency. -/
theorem C5_separator_safety_witness :
    RowRec.overflow [Seg.tok ['a']]
        ∈ (convert_layout_run [['a']] 5 0 [] [] ⟨fun _ => 0, 0⟩).1 ∧
      List.Chain' safeSegPair (RowRec.overflow [Seg.tok ['a']]).segs :=
  ⟨by decide, C5_separator_safety [['a']] 5 0 [] [] ⟨fun _ => 0, 0⟩
    (RowRec.overflow [Seg.tok ['a']]) (by decide)⟩

end Waifufy
